import Mathlib

/-!
Verification of the bill line-item extraction and consolidation pipeline of the
Delmarva BillWatch repository.  The Python sources `electric_bill_processor.py`
and `script.py` are shallowly embedded: strings become `List Char`, the regex
substitutions of `standardize_charge_type` become deterministic scanners
(the patterns involved admit no real backtracking, see the comments at each
scanner), floats (charge amounts) become exact rationals `ℚ`, dictionaries
become insertion-ordered association lists, and calls into `uuid4`/external
libraries become explicit parameters.
-/

namespace BillWatch

/-! ## Python character classes (ASCII fragment, all inputs here are ASCII) -/

/-- Python regex `\s` / `str.strip()` whitespace (ASCII). -/
def isSpace (c : Char) : Bool :=
  c = ' ' || c = '\t' || c = '\n' || c = '\r' || c = '\x0b' || c = '\x0c'

/-- Python regex `\w` word character (ASCII). -/
def isWordC (c : Char) : Bool := c.isAlphanum || c = '_'

/-- Case-insensitive comparison against a reference lowercase character. -/
def ciIs (a b : Char) : Bool := a.toLower = b

/-! ## Python `in` (substring containment) and `str.strip()` -/

/-- Python `sub in hay` on strings: substring containment test. -/
def subTest (sub hay : List Char) : Bool :=
  hay.tails.any (fun t => sub.isPrefixOf t)

/-- `str.strip()` from the left. -/
def lstrip (l : List Char) : List Char := l.dropWhile isSpace

/-- `str.strip()` from the right. -/
def rstrip (l : List Char) : List Char := (l.reverse.dropWhile isSpace).reverse

/-- Python `str.strip()`. -/
def stripL (l : List Char) : List Char := rstrip (lstrip l)

/-! ## The scanner for `re.sub(r'\s*\d+\s*k(?:Wh|W)', ' kWh', _)`
(`electric_bill_processor.py`, `standardize_charge_type`).

For this pattern greedy matching is deterministic: shortening the greedy
`\s*`/`\d+` runs always places a character of the wrong class under the next
pattern atom, so no backtracking can succeed where the maximal-munch attempt
fails.  `re.sub` scans left to right and replaces each leftmost
non-overlapping match. -/

/-- The alternation `k(?:Wh|W)`: `kWh` preferred over `kW`. -/
def matchUnit : List Char → Option (List Char)
  | c1 :: c2 :: r =>
      if c1 = 'k' && c2 = 'W' then
        match r with
        | c3 :: r2 => if c3 = 'h' then some r2 else some (c3 :: r2)
        | [] => some []
      else none
  | _ => none

/-- Match `\s*\d+\s*k(?:Wh|W)` at the head of `l`; returns the rest on success. -/
def tryKWh (l : List Char) : Option (List Char) :=
  let l1 := l.dropWhile isSpace
  let ds := l1.takeWhile Char.isDigit
  if ds.isEmpty then none
  else matchUnit ((l1.dropWhile Char.isDigit).dropWhile isSpace)

/-- Fuelled substitution scanner for the `\s*\d+\s*k(?:Wh|W)` pattern. -/
def subKWhF : Nat → List Char → List Char
  | 0, l => l
  | _ + 1, [] => []
  | n + 1, c :: t =>
      match tryKWh (c :: t) with
      | some r => ' ' :: 'k' :: 'W' :: 'h' :: subKWhF n r
      | none => c :: subKWhF n t

/-- `re.sub(r'\s*\d+\s*k(?:Wh|W)', ' kWh', l)`. -/
def subKWh (l : List Char) : List Char := subKWhF l.length l

/-! ## The scanner for `re.sub(r'\b(First|Last|Next)\b', '', _)`.

The scanner carries one bit `pw`: whether the character immediately before the
current position is a word character (`\b` fails on the left exactly when it
is).  After a removal the previous character is the final `t` of the removed
word, so `pw` becomes `true`. -/

/-- Right-hand `\b`: the next character must be absent or not a word character. -/
def wordAfterOk : List Char → Bool
  | [] => true
  | c :: _ => !(isWordC c)

/-- Match `\b(First|Last|Next)\b` at the head of `l` given the left context bit. -/
def tryWord (pw : Bool) (l : List Char) : Option (List Char) :=
  if pw then none
  else if "First".data.isPrefixOf l then
    (if wordAfterOk (l.drop 5) then some (l.drop 5) else none)
  else if "Last".data.isPrefixOf l then
    (if wordAfterOk (l.drop 4) then some (l.drop 4) else none)
  else if "Next".data.isPrefixOf l then
    (if wordAfterOk (l.drop 4) then some (l.drop 4) else none)
  else none

/-- Fuelled substitution scanner for `\b(First|Last|Next)\b` with replacement `''`. -/
def subWordsF : Nat → Bool → List Char → List Char
  | 0, _, l => l
  | _ + 1, _, [] => []
  | n + 1, pw, c :: t =>
      match tryWord pw (c :: t) with
      | some r => subWordsF n true r
      | none => c :: subWordsF n (isWordC c) t

/-- `re.sub(r'\b(First|Last|Next)\b', '', l)`. -/
def subWords (l : List Char) : List Char := subWordsF l.length false l

/-- The scanner underlying `subWords`, with explicit left-context bit. -/
def subWordsA (pw : Bool) (l : List Char) : List Char := subWordsF l.length pw l

/-! ## The scanner for `re.sub(r"\d+\s*kWh", "kWh", _, flags=re.IGNORECASE)`
(`script.py`, `standardize_charge_type`). -/

/-- The literal `kWh` under `re.IGNORECASE`. -/
def matchUnitCI : List Char → Option (List Char)
  | k :: w :: h :: r => if ciIs k 'k' && ciIs w 'w' && ciIs h 'h' then some r else none
  | _ => none

/-- Match `\d+\s*kWh` (case-insensitive) at the head of `l`. -/
def tryDKWh (l : List Char) : Option (List Char) :=
  let ds := l.takeWhile Char.isDigit
  if ds.isEmpty then none
  else matchUnitCI ((l.dropWhile Char.isDigit).dropWhile isSpace)

/-- Fuelled substitution scanner for the case-insensitive `\d+\s*kWh` pattern. -/
def subDKWhF : Nat → List Char → List Char
  | 0, l => l
  | _ + 1, [] => []
  | n + 1, c :: t =>
      match tryDKWh (c :: t) with
      | some r => 'k' :: 'W' :: 'h' :: subDKWhF n r
      | none => c :: subDKWhF n t

/-- `re.sub(r"\d+\s*kWh", "kWh", l, flags=re.IGNORECASE)`. -/
def subDKWh (l : List Char) : List Char := subDKWhF l.length l

/-! ## `standardize_charge_type` from `electric_bill_processor.py` (lines 55-77) -/

namespace Epb

/-- `standardize_charge_type` of `electric_bill_processor.py`. -/
def standardize_charge_type (ct0 : List Char) : List Char :=
  let ct := stripL ct0
  if subTest "Total Electric Charges".data ct then "Total Electric Charges".data
  else if subTest "First".data ct then
    let t := stripL (subKWh ct)
    if subTest "Distribution".data t then "Distribution Charge First kWh".data
    else if subTest "Transmission".data t then "Transmission Charge First kWh".data
    else t
  else if subTest "Last".data ct then
    let t := stripL (subKWh ct)
    if subTest "Distribution".data t then "Distribution Charge Last kWh".data
    else if subTest "Transmission".data t then "Transmission Charge Last kWh".data
    else t
  else stripL (subKWh (stripL (subWords ct)))

end Epb

/-! ## `standardize_charge_type` and `map_charge_type` from `script.py` -/

namespace Script

/-- `standardize_charge_type` of `script.py` (lines 107-115). -/
def standardize_charge_type (ct : List Char) : List Char := stripL (subDKWh ct)

/-- `CHARGE_TYPE_MAP` of `script.py` (lines 25-40), in insertion order. -/
def CHARGE_TYPE_MAP : List (List Char × List Char) :=
  [("customer charge".data, "Customer Charge".data),
   ("distribution charge first".data, "Distribution Charge First kWh".data),
   ("distribution charge last".data, "Distribution Charge Last kWh".data),
   ("environmental surcharge".data, "Environmental Surcharge kWh".data),
   ("empower maryland".data, "EmPOWER Maryland kWh".data),
   ("charge kwh".data, "EmPOWER Maryland kWh".data),
   ("universal service program".data, "Universal Service Program".data),
   ("md franchise tax".data, "MD Franchise Tax kWh".data),
   ("total electric delivery charges".data, "Total Electric Delivery Charges".data),
   ("transmission first".data, "Transmission First kWh".data),
   ("transmission last".data, "Transmission Last kWh".data),
   ("adjustment".data, "Adjustment kWh".data),
   ("total electric supply charges".data, "Total Electric Supply Charges".data),
   ("total electric charges - residential service".data,
    "Total Electric Charges - Residential Service".data)]

/-- `map_charge_type` of `script.py` (lines 73-83): first map entry whose key is a
substring of the lowercased description wins; unrecognized text yields `none`
(Python `None`). -/
def map_charge_type (desc : List Char) : Option (List Char) :=
  let dl := desc.map Char.toLower
  (CHARGE_TYPE_MAP.find? (fun p => subTest p.1 dl)).map (fun p => p.2)

/-- The normalization step of `extract_charges_from_pdf` (`script.py` lines 150-156):
a parsed description is kept only when `map_charge_type` recognizes it
(`if mapped: rows.append(...)`); otherwise the record is dropped. -/
def mapFilter (descs : List (List Char)) : List (List Char) :=
  descs.filterMap map_charge_type

end Script

/-! ## Charge consolidation (`electric_bill_processor.py`, `process_pdf` lines 346-356).

A Python `dict` is an insertion-ordered map; we model the `consolidated`
dictionary as an association list `List (key × amount × rate)` updated in
place.  The rate dynamics do not depend on the numeric domain; for them
amounts are carried as exact rationals.  The amount accumulation itself is
Python float `+=`, modelled faithfully by the IEEE-754 binary64 embedding
below. -/

/-- One extracted charge row `{"Charge_Type": _, "Rate": _, "Amount": _}`. -/
structure Charge where
  ctype : List Char
  rate : List Char
  amount : ℚ

/-- One step of the consolidation loop: `consolidated[ct]["Amount"] += amt`,
rate set only if not already set, else a fresh entry is inserted. -/
def insertCharge : List (List Char × ℚ × List Char) → List Char → ℚ → List Char →
    List (List Char × ℚ × List Char)
  | [], k, a, r => [(k, a, r)]
  | e :: t, k, a, r =>
      if e.1 = k then
        (k, e.2.1 + a, if e.2.2 = [] && r ≠ [] then r else e.2.2) :: t
      else e :: insertCharge t k a r

/-- The canonical key of a charge row: `standardize_charge_type(c["Charge_Type"])`. -/
def keyOf (c : Charge) : List Char := Epb.standardize_charge_type c.ctype

/-- The consolidation loop of `process_pdf` (lines 346-356). -/
def consolidate (cs : List Charge) : List (List Char × ℚ × List Char) :=
  cs.foldl (fun acc c => insertCharge acc (keyOf c) c.amount c.rate) []

/-- The consolidated amount recorded for a key (`0` when the key is absent). -/
def amountOf (m : List (List Char × ℚ × List Char)) (k : List Char) : ℚ :=
  ((m.find? (fun e => e.1 = k)).map (fun e => e.2.1)).getD 0

/-- The consolidated rate recorded for a key (`""` when the key is absent). -/
def rateOf (m : List (List Char × ℚ × List Char)) (k : List Char) : List Char :=
  ((m.find? (fun e => e.1 = k)).map (fun e => e.2.2)).getD []

/-- Whether a key is present in the consolidated mapping (`ct in consolidated`). -/
def hasKey (m : List (List Char × ℚ × List Char)) (k : List Char) : Bool :=
  m.any (fun e => e.1 = k)

/-! ## IEEE-754 binary64 and the float-faithful consolidation

Python floats are IEEE-754 binary64 values and `+` is addition with
round-to-nearest, ties-to-even.  A finite double is `m · 2^e` with `m` odd (or
`m = 0, e = 0`), `|m| < 2^53` and the value's unit in the last place at least
`2^-1074`; this canonical form makes representations unique.  The two zeros
are identified (they are numerically equal in Python).  `fAdd` rounds the
exact sum, as IEEE addition does. -/

/-- A binary64 value: canonical finite `m · 2^e`, an infinity, or NaN. -/
inductive F64 where
  | finite (m : ℤ) (e : ℤ) : F64
  | inf (neg : Bool) : F64
  | nan : F64
  deriving DecidableEq

/-- Fuelled bit length (number of binary digits) of a natural number. -/
def bitlenF : Nat → Nat → Nat
  | 0, _ => 0
  | f + 1, n => if n = 0 then 0 else bitlenF f (n / 2) + 1

/-- Bit length of a natural number. -/
def bitlen (n : Nat) : Nat := bitlenF n n

/-- Strip factors of two from `m` into the exponent (fuelled). -/
def oddifyF : Nat → Int → Int → Int × Int
  | 0, m, e => (m, e)
  | f + 1, m, e => if m % 2 = 0 && m ≠ 0 then oddifyF f (m / 2) (e + 1) else (m, e)

/-- Canonical finite double `m · 2^e` (or an infinity when the value leaves
the binary64 range `|v| < 2^1024`). -/
def mkF64 (m e : Int) : F64 :=
  if m = 0 then .finite 0 0
  else
    let p := oddifyF m.natAbs m e
    if (bitlen p.1.natAbs : Int) - 1 + p.2 ≥ 1024 then .inf (decide (p.1 < 0))
    else .finite p.1 p.2

/-- Round the exact value `M · 2^e` to binary64: the unit in the last place is
`2^u` with `u = max (e_top - 52) (-1074)`, rounding to nearest with ties to
even. -/
def round64 (M e : Int) : F64 :=
  if M = 0 then .finite 0 0
  else
    let n := M.natAbs
    let k := bitlen n
    let etop : Int := (k : Int) - 1 + e
    let u : Int := max (etop - 52) (-1074)
    if u ≤ e then mkF64 M e
    else
      let shift := (u - e).toNat
      let q := n >>> shift
      let r := n % 2 ^ shift
      let half := 2 ^ (shift - 1)
      let q2 := if half < r ∨ (r = half ∧ q % 2 = 1) then q + 1 else q
      mkF64 (if M < 0 then -(q2 : Int) else (q2 : Int)) u

/-- IEEE-754 binary64 addition: the exact sum, correctly rounded. -/
def fAdd : F64 → F64 → F64
  | .finite m1 e1, .finite m2 e2 =>
      let e0 := min e1 e2
      round64 (m1 * ((2 ^ (e1 - e0).toNat : Nat) : Int) +
        m2 * ((2 ^ (e2 - e0).toNat : Nat) : Int)) e0
  | .inf s, .finite _ _ => .inf s
  | .finite _ _, .inf s => .inf s
  | .inf s, .inf t => if s = t then .inf s else .nan
  | .nan, _ => .nan
  | _, .nan => .nan

/-- One extracted charge row with its amount as the Python float it is. -/
structure ChargeF where
  ctype : List Char
  rate : List Char
  amount : F64
  deriving DecidableEq

/-- The canonical key of a charge row: `standardize_charge_type(c["Charge_Type"])`. -/
def keyOfF (c : ChargeF) : List Char := Epb.standardize_charge_type c.ctype

/-- One step of the consolidation loop over floats:
`consolidated[ct]["Amount"] += amt` is IEEE addition; rate set only if not
already set; a fresh entry is inserted with the record's own amount. -/
def insertChargeF : List (List Char × F64 × List Char) → List Char → F64 → List Char →
    List (List Char × F64 × List Char)
  | [], k, a, r => [(k, a, r)]
  | e :: t, k, a, r =>
      if e.1 = k then
        (k, fAdd e.2.1 a, if e.2.2 = [] && r ≠ [] then r else e.2.2) :: t
      else e :: insertChargeF t k a r

/-- The consolidation loop of `process_pdf` (lines 346-356) over float amounts. -/
def consolidateF (cs : List ChargeF) : List (List Char × F64 × List Char) :=
  cs.foldl (fun acc c => insertChargeF acc (keyOfF c) c.amount c.rate) []

/-- The consolidated amount recorded for a key (`none` when the key is absent). -/
def amountOfF (m : List (List Char × F64 × List Char)) (k : List Char) : Option F64 :=
  (m.find? (fun e => e.1 = k)).map (fun e => e.2.1)

/-- The claim's accumulation, written out: the left-to-right IEEE-754 sum of
the amounts of the records that normalize to `k`, in input order, starting
from the first such record's own amount. -/
def accAmountF (k : List Char) : Option F64 → List ChargeF → Option F64
  | cur, [] => cur
  | cur, c :: t =>
      if keyOfF c = k then
        accAmountF k (some (match cur with | none => c.amount | some v => fAdd v c.amount)) t
      else accAmountF k cur t

/-! ## Decimal literals

A parsed amount is modelled as the exact rational value of its literal: for a
single parse both sides of any comparison are the same one `float()` result,
so exactness is faithful there; only repeated accumulation (above) needs the
rounding model. -/

/-- Numeric value of a digit string. -/
def digitsVal (ds : List Char) : Nat := ds.foldl (fun a c => 10 * a + (c.toNat - 48)) 0

/-- Value of an unsigned decimal literal `\d+(\.\d+)?`. -/
def floatQAbs (s : List Char) : ℚ :=
  let ip := s.takeWhile Char.isDigit
  match s.dropWhile Char.isDigit with
  | '.' :: fr =>
      let fp := fr.takeWhile Char.isDigit
      (digitsVal ip : ℚ) + (digitsVal fp : ℚ) / ((10 : ℚ) ^ fp.length)
  | _ => (digitsVal ip : ℚ)

/-- Python `float()` on a `-?\d+(\.\d+)?` literal, as an exact rational. -/
def floatQ (s : List Char) : ℚ :=
  match s with
  | c :: t => if c = '-' then -(floatQAbs t) else floatQAbs (c :: t)
  | [] => floatQAbs []

/-! ## `process_fallback_row` (`electric_bill_processor.py`, lines 164-191)

The pattern is `(.*?)(-?\d{1,3}(?:,\d{3})*\.\d{2})(-)?\s*$`.  `re.search` with
the lazy `(.*?)` head finds the match whose amount group starts at the least
index such that the rest of the line is amount + optional minus + whitespace.
At a fixed start the amount grammar is deterministic: giving back characters
from `\d{1,3}` or `(?:,\d{3})*` always puts a digit or comma under `\.`. -/

/-- The matched amount group and whether the trailing `(-)?` group matched. -/
structure AmtMatch where
  amountStr : List Char
  trailNeg : Bool
  deriving DecidableEq

/-- Consume `(?:,\d{3})*` greedily, returning consumed characters and the rest. -/
def parseGroups : List Char → List Char × List Char
  | c0 :: a :: b :: c :: r =>
      if c0 = ',' && a.isDigit && b.isDigit && c.isDigit then
        let p := parseGroups r
        (c0 :: a :: b :: c :: p.1, p.2)
      else ([], c0 :: a :: b :: c :: r)
  | l => ([], l)

/-- The leading `-?` of the amount group. -/
def amtSign : List Char → List Char × List Char
  | c :: t => if c = '-' then (['-'], t) else ([], c :: t)
  | [] => ([], [])

/-- The trailing `(-)?\s*$` after the amount group. -/
def amtTail (amount : List Char) : List Char → Option AmtMatch
  | m :: r3 =>
      if m = '-' then (if r3.all isSpace then some ⟨amount, true⟩ else none)
      else (if (m :: r3).all isSpace then some ⟨amount, false⟩ else none)
  | [] => some ⟨amount, false⟩

/-- `\d{1,3}(?:,\d{3})*\.\d{2}` then the tail, after the optional sign. -/
def amtBody (sign1 rest : List Char) : Option AmtMatch :=
  if (rest.takeWhile Char.isDigit).isEmpty || 3 < (rest.takeWhile Char.isDigit).length then none
  else
    match parseGroups (rest.dropWhile Char.isDigit) with
    | (gs, d :: a :: b :: r2) =>
        if d = '.' && a.isDigit && b.isDigit then
          amtTail (sign1 ++ rest.takeWhile Char.isDigit ++ gs ++ d :: a :: b :: []) r2
        else none
    | _ => none

/-- Match `(-?\d{1,3}(?:,\d{3})*\.\d{2})(-)?\s*$` against all of `l`. -/
def matchAmtAt (l : List Char) : Option AmtMatch :=
  amtBody (amtSign l).1 (amtSign l).2

/-- `re.search` of the fallback pattern: leftmost start of the amount group;
returns the characters before the match (group 1) and the amount groups. -/
def searchAmt : List Char → Option (List Char × AmtMatch)
  | [] => none
  | c :: t =>
      match matchAmtAt (c :: t) with
      | some m => some ([], m)
      | none => (searchAmt t).map (fun p => (c :: p.1, p.2))

/-- Python `s.split(sep, 1)` when `sep` occurs in `s` (first occurrence). -/
def splitFirst (sep : List Char) : List Char → Option (List Char × List Char)
  | [] => none
  | c :: t =>
      if sep.isPrefixOf (c :: t) then some ([], (c :: t).drop sep.length)
      else (splitFirst sep t).map (fun p => (c :: p.1, p.2))

/-- `re.sub(r'−', '-', line)` (line 201): normalize the Unicode minus sign. -/
def cleanLine (l : List Char) : List Char := l.map (fun c => if c = '−' then '-' else c)

/-- A parsed fallback row `(charge, rate_val, amount_val)`. -/
structure FallbackRow where
  charge : List Char
  rate : List Char
  amount : ℚ
  deriving DecidableEq

namespace Epb

/-- `process_fallback_row` of `electric_bill_processor.py` (lines 164-191). -/
def process_fallback_row (row : List Char) : Option FallbackRow :=
  match searchAmt row with
  | none => none
  | some (before, m) =>
      let text_before := stripL before
      let amount_str :=
        if m.trailNeg && !(['-'].isPrefixOf m.amountStr) then '-' :: m.amountStr
        else m.amountStr
      let amount_val := floatQ (amount_str.filter (fun c => c ≠ ','))
      match splitFirst "X $".data text_before with
      | some p =>
          let charge := stripL p.1
          let rate_part := stripL p.2
          let rate_val :=
            match splitFirst " per ".data rate_part with
            | some q => stripL q.1
            | none => rate_part
          let rate_val2 :=
            if rate_val.getLast? = some '-' then '-' :: rate_val.dropLast else rate_val
          some ⟨charge, rate_val2, amount_val⟩
      | none => some ⟨text_before, [], amount_val⟩

end Epb

/-! ## The `charge_pattern` of `script.py` (lines 120-123)

`^(?P<desc>.*?)(?:\s+X\s+\$(?P<rate>[\d\.]+)(?:-)?\s+per\s+kWh)?\s+`
`(?P<amount>-?[\d,]+(?:\.\d+)?)(?:\s*)$`, used with `re.match`.  We model
whether the pattern matches a line at all (each greedy run is deterministic:
giving characters back always places a character of the wrong class under the
next pattern atom). -/

namespace Script

/-- Match `-?[\d,]+(?:\.\d+)?\s*$` against all of `l`. -/
def amountTailMatch (l : List Char) : Bool :=
  let l1 := match l with | '-' :: t => t | _ => l
  let run := l1.takeWhile (fun c => c.isDigit || c = ',')
  if run.isEmpty then false
  else
    match l1.dropWhile (fun c => c.isDigit || c = ',') with
    | '.' :: fr =>
        let fd := fr.takeWhile Char.isDigit
        if fd.isEmpty then false else (fr.dropWhile Char.isDigit).all isSpace
    | rest => rest.all isSpace

/-- Match `\s+` then the amount tail. -/
def spaceAmountMatch (l : List Char) : Bool :=
  match l with
  | c :: _ => isSpace c && amountTailMatch (l.dropWhile isSpace)
  | [] => false

/-- Match the optional rate clause `\s+X\s+\$[\d\.]+(?:-)?\s+per\s+kWh`,
returning the rest on success. -/
def rateClauseAt (l : List Char) : Option (List Char) :=
  match l with
  | [] => none
  | c :: _ =>
      if !isSpace c then none
      else
        match l.dropWhile isSpace with
        | 'X' :: r1 =>
            (match r1 with
             | [] => none
             | c1 :: _ =>
                 if !isSpace c1 then none
                 else
                   match r1.dropWhile isSpace with
                   | '$' :: r2 =>
                       let run := r2.takeWhile (fun c => c.isDigit || c = '.')
                       if run.isEmpty then none
                       else
                         let r3 := r2.dropWhile (fun c => c.isDigit || c = '.')
                         let r4 := match r3 with | '-' :: t => t | _ => r3
                         (match r4 with
                          | [] => none
                          | c2 :: _ =>
                              if !isSpace c2 then none
                              else
                                match r4.dropWhile isSpace with
                                | 'p' :: 'e' :: 'r' :: r5 =>
                                    (match r5 with
                                     | [] => none
                                     | c3 :: _ =>
                                         if !isSpace c3 then none
                                         else
                                           match r5.dropWhile isSpace with
                                           | 'k' :: 'W' :: 'h' :: r6 => some r6
                                           | _ => none)
                                | _ => none)
                   | _ => none)
        | _ => none

/-- Whether the part of the pattern after the lazy `desc` matches at `l`. -/
def chargeTail (l : List Char) : Bool :=
  (match rateClauseAt l with
   | some r => spaceAmountMatch r
   | none => false) || spaceAmountMatch l

/-- Whether `re.match(charge_pattern, line)` succeeds (some split of the line
into `desc` and the rest matches). -/
def chargeMatches : List Char → Bool
  | [] => false
  | c :: t => chargeTail (c :: t) || chargeMatches t

end Script

/-! ## `extract_metadata_from_pdf` of `script.py` (lines 161-207)

The four anchored date regexes and the `strptime` formats they feed.  The
month-name alternations are matched case-insensitively; `strptime` is also
case-insensitive, a whitespace in its format matches `\s+`, and `%d` rejects
day strings with a leading/lone zero as well as calendar-invalid days. -/

/-- Case-insensitive: the lowercase pattern `p` begins the text `l`. -/
def ciStarts (p l : List Char) : Bool := (l.take p.length).map Char.toLower == p

/-- Full month names with their numbers, in the alternation order of `script.py`. -/
def monthsFull : List (List Char × Nat) :=
  [("january".data, 1), ("february".data, 2), ("march".data, 3), ("april".data, 4),
   ("may".data, 5), ("june".data, 6), ("july".data, 7), ("august".data, 8),
   ("september".data, 9), ("october".data, 10), ("november".data, 11), ("december".data, 12)]

/-- Abbreviated month names with their numbers. -/
def monthsAbbr : List (List Char × Nat) :=
  [("jan".data, 1), ("feb".data, 2), ("mar".data, 3), ("apr".data, 4),
   ("may".data, 5), ("jun".data, 6), ("jul".data, 7), ("aug".data, 8),
   ("sep".data, 9), ("oct".data, 10), ("nov".data, 11), ("dec".data, 12)]

/-- Match the month alternation at the head of a line (case-insensitive). -/
def findMonth (ms : List (List Char × Nat)) (l : List Char) : Option (Nat × List Char) :=
  (ms.find? (fun m => ciStarts m.1 l)).map (fun m => (m.2, l.drop m.1.length))

/-- Match `\s+`, returning the rest. -/
def spacePlus (l : List Char) : Option (List Char) :=
  match l with
  | c :: _ => if isSpace c then some (l.dropWhile isSpace) else none
  | [] => none

/-- Match `\d{4}$`: exactly four digits ending the line. -/
def yearEnd (l : List Char) : Option (List Char) :=
  if l.length = 4 && l.all Char.isDigit then some l else none

/-- `^(month)\s+\d{4}$` with full month names. -/
def matchP1 (l : List Char) : Option (Nat × List Char) :=
  match findMonth monthsFull l with
  | some p =>
      match spacePlus p.2 with
      | some r2 => (yearEnd r2).map (fun y => (p.1, y))
      | none => none
  | none => none

/-- `^(abbrev)\.?\s+\d{4}$`; also reports whether the optional dot matched
(`strptime("%b %Y")` then fails on the dot). -/
def matchP2 (l : List Char) : Option (Nat × List Char × Bool) :=
  match findMonth monthsAbbr l with
  | some p =>
      let dotRest : Bool × List Char := match p.2 with | '.' :: t => (true, t) | _ => (false, p.2)
      match spacePlus dotRest.2 with
      | some r2 => (yearEnd r2).map (fun y => (p.1, y, dotRest.1))
      | none => none
  | none => none

/-- `^(month)\s+\d{1,2},\s+\d{4}$` with full month names; returns month,
day digits and year digits. -/
def matchP3 (l : List Char) : Option (Nat × List Char × List Char) :=
  match findMonth monthsFull l with
  | some p =>
      match spacePlus p.2 with
      | some r2 =>
          let ds := r2.takeWhile Char.isDigit
          if ds.isEmpty || 2 < ds.length then none
          else
            match r2.dropWhile Char.isDigit with
            | ',' :: r3 =>
                match spacePlus r3 with
                | some r4 => (yearEnd r4).map (fun y => (p.1, ds, y))
                | none => none
            | _ => none
      | none => none
  | none => none

/-- `^(abbrev)\.?\s+\d{1,2},\s+\d{4}$`. -/
def matchP4 (l : List Char) : Option (Nat × List Char × List Char × Bool) :=
  match findMonth monthsAbbr l with
  | some p =>
      let dotRest : Bool × List Char := match p.2 with | '.' :: t => (true, t) | _ => (false, p.2)
      match spacePlus dotRest.2 with
      | some r2 =>
          let ds := r2.takeWhile Char.isDigit
          if ds.isEmpty || 2 < ds.length then none
          else
            match r2.dropWhile Char.isDigit with
            | ',' :: r3 =>
                match spacePlus r3 with
                | some r4 => (yearEnd r4).map (fun y => (p.1, ds, y, dotRest.1))
                | none => none
            | _ => none
      | none => none
  | none => none

/-- CPython `strptime` `%d` on a 1-2 digit day string followed by `,`: the
`_strptime` alternation `3[01]|[12]\d|0[1-9]|[1-9]` must consume the whole
day string (a partial consume leaves a digit under the literal comma). -/
def strptimeDay : List Char → Option Nat
  | [a] => if '1' ≤ a && a ≤ '9' then some (a.toNat - 48) else none
  | [a, b] =>
      if a = '3' then (if b = '0' || b = '1' then some (30 + (b.toNat - 48)) else none)
      else if a = '1' || a = '2' then some (digitsVal [a, b])
      else if a = '0' then (if '1' ≤ b && b ≤ '9' then some (b.toNat - 48) else none)
      else none
  | _ => none

/-- Gregorian leap year (as `datetime`). -/
def isLeap (y : Nat) : Bool := (y % 4 = 0 && y % 100 ≠ 0) || y % 400 = 0

/-- Days in a month (as `datetime`). -/
def daysInMonth (y m : Nat) : Nat :=
  if m = 2 then (if isLeap y then 29 else 28)
  else if m = 4 || m = 6 || m = 9 || m = 11 then 30 else 31

/-- `parsed.strftime("%m-%Y")`: zero-padded month, unpadded year. -/
def fmtMY (m : Nat) (yearDigits : List Char) : List Char :=
  [Char.ofNat (48 + m / 10), Char.ofNat (48 + m % 10)] ++ '-' :: (Nat.repr (digitsVal yearDigits)).data

/-- `strptime` for the month-year formats: fails (yields `""`) only when the
year is 0 (`datetime.MINYEAR` is 1). -/
def strpMY (m : Nat) (yd : List Char) : List Char :=
  if digitsVal yd = 0 then [] else fmtMY m yd

/-- `strptime` for the month-day-year formats: additionally validates the day. -/
def strpMDY (m : Nat) (dayds yd : List Char) : List Char :=
  match strptimeDay dayds with
  | some d => if digitsVal yd = 0 || daysInMonth (digitsVal yd) m < d then [] else fmtMY m yd
  | none => []

/-- The per-line date loop body (`script.py` lines 177-189): the first matching
pattern fires; a `strptime` failure still counts the line as the date line but
leaves `Bill_Month_Year` empty. -/
def dateLineValue (l : List Char) : Option (List Char) :=
  match matchP1 l with
  | some p => some (strpMY p.1 p.2)
  | none =>
      match matchP2 l with
      | some p => some (if p.2.2 then [] else strpMY p.1 p.2.1)
      | none =>
          match matchP3 l with
          | some p => some (strpMDY p.1 p.2.1 p.2.2)
          | none =>
              match matchP4 l with
              | some p => some (if p.2.2.2 then [] else strpMDY p.1 p.2.1 p.2.2.1)
              | none => none

/-- Scan for the date line; on success also return the lines after it. -/
def dateScan : List (List Char) → Option (List Char × List (List Char))
  | [] => none
  | ln :: t =>
      match dateLineValue ln with
      | some v => some (v, t)
      | none => dateScan t

namespace Script

/-- The keyword filter of the name heuristic (`script.py` line 196). -/
def nameKeyword (ln : List Char) : Bool :=
  let low := ln.map Char.toLower
  subTest "account".data low || subTest "bill".data low ||
    subTest "period".data low || subTest "address".data low

/-- The candidate test: has a space, and all its letters are uppercase
(`script.py` lines 198-200). -/
def nameCond (ln : List Char) : Bool :=
  let letters := ln.filter Char.isAlpha
  ln.contains ' ' && !letters.isEmpty && letters.all Char.isUpper

/-- The name scan over the lines after the date line (`script.py` lines 195-202). -/
def nameScan : List (List Char) → Option (List Char)
  | [] => none
  | ln :: t =>
      if nameKeyword ln then nameScan t
      else if nameCond ln then some ln
      else nameScan t

/-- The metadata record of `script.py`. -/
structure Meta where
  billMonthYear : List Char
  person : List Char
  deriving DecidableEq

/-- `extract_metadata_from_pdf` of `script.py` (lines 161-207), taking the
stripped non-empty lines of the first page. -/
def extract_metadata_from_pdf (lines : List (List Char)) : Meta :=
  match dateScan lines with
  | some p =>
      let cand := (nameScan p.2).getD []
      ⟨p.1, if cand.isEmpty then "Unknown".data else cand⟩
  | none => ⟨[], "Unknown".data⟩

end Script

/-! ## `extract_metadata_from_pdf` of `electric_bill_processor.py` (lines 310-335)

The account regex
`(?:Account\s*(?:number|#)\s*:?\s*|\bAcct\s*#?\s*)(\d{4}\s*\d{4}\s*\d{3})` and
the date label regex `Bill\s*Issue\s*date:\s*(.+)`, both `re.search` with
`re.IGNORECASE`.  The `dateutil` fuzzy parse is an external collaborator and
enters as an oracle parameter (`none` models the exception branch). -/

namespace Epb

/-- Match `\d{4}` exactly (a further digit may follow for the next atom). -/
def take4Digits (l : List Char) : Option (List Char × List Char) :=
  match l with
  | a :: b :: c :: d :: r =>
      if a.isDigit && b.isDigit && c.isDigit && d.isDigit then some ([a, b, c, d], r) else none
  | _ => none

/-- Match `\d{3}` exactly. -/
def take3Digits (l : List Char) : Option (List Char × List Char) :=
  match l with
  | a :: b :: c :: r =>
      if a.isDigit && b.isDigit && c.isDigit then some ([a, b, c], r) else none
  | _ => none

/-- Match the captured group `(\d{4}\s*\d{4}\s*\d{3})`; the group text keeps
the whitespace matched by the inner `\s*`. -/
def digitsGroupAt (l : List Char) : Option (List Char) := do
  let p1 ← take4Digits l
  let s1 := p1.2.takeWhile isSpace
  let p2 ← take4Digits (p1.2.dropWhile isSpace)
  let s2 := p2.2.takeWhile isSpace
  let p3 ← take3Digits (p2.2.dropWhile isSpace)
  return p1.1 ++ s1 ++ p2.1 ++ s2 ++ p3.1

/-- Match the first alternative `Account\s*(?:number|#)\s*:?\s*` (no `\b`). -/
def accountLabelAt (l : List Char) : Option (List Char) :=
  if ciStarts "account".data l then
    let r1 := (l.drop 7).dropWhile isSpace
    let r2o : Option (List Char) :=
      if ciStarts "number".data r1 then some (r1.drop 6)
      else match r1 with | '#' :: t => some t | _ => none
    match r2o with
    | some r2 =>
        let r3 := r2.dropWhile isSpace
        let r4 := match r3 with | ':' :: t => t | _ => r3
        some (r4.dropWhile isSpace)
    | none => none
  else none

/-- Match the second alternative `\bAcct\s*#?\s*`; `prevOk` is the left `\b`. -/
def acctLabelAt (prevOk : Bool) (l : List Char) : Option (List Char) :=
  if prevOk && ciStarts "acct".data l then
    let r1 := (l.drop 4).dropWhile isSpace
    let r2 := match r1 with | '#' :: t => t | _ => r1
    some (r2.dropWhile isSpace)
  else none

/-- Match the whole account pattern at this position (alternatives in order). -/
def accountAt (prevOk : Bool) (l : List Char) : Option (List Char) :=
  match accountLabelAt l with
  | some r =>
      match digitsGroupAt r with
      | some g => some g
      | none =>
          match acctLabelAt prevOk l with
          | some r2 => digitsGroupAt r2
          | none => none
  | none =>
      match acctLabelAt prevOk l with
      | some r2 => digitsGroupAt r2
      | none => none

/-- `re.search` of the account pattern: leftmost matching position. -/
def accountGo : Bool → List Char → Option (List Char)
  | _, [] => none
  | prevOk, c :: t =>
      match accountAt prevOk (c :: t) with
      | some g => some g
      | none => accountGo (!isWordC c) t

/-- Per-line account extraction: `match.group(1).replace(" ", "")`. -/
def accountFind (line : List Char) : Option (List Char) :=
  (accountGo true line).map (fun g => g.filter (fun c => c ≠ ' '))

/-- Match `Bill\s*Issue\s*date:\s*(.+)` at this position, returning group 1
(`.+` is greedy; when only whitespace follows the label, `\s*` gives one
character back to it). -/
def billIssueAt (l : List Char) : Option (List Char) :=
  if ciStarts "bill".data l then
    let r1 := (l.drop 4).dropWhile isSpace
    if ciStarts "issue".data r1 then
      let r2 := (r1.drop 5).dropWhile isSpace
      if ciStarts "date:".data r2 then
        let tl := r2.drop 5
        if tl.isEmpty then none
        else
          let r3 := tl.dropWhile isSpace
          some (if r3.isEmpty then tl.drop (tl.length - 1) else r3)
      else none
    else none
  else none

/-- `re.search` of the date label pattern over one line. -/
def billIssueGo : List Char → Option (List Char)
  | [] => none
  | c :: t =>
      match billIssueAt (c :: t) with
      | some v => some v
      | none => billIssueGo t

/-- First line on which a per-line search succeeds (both loops `break`). -/
def firstSome (f : List Char → Option (List Char)) : List (List Char) → Option (List Char)
  | [] => none
  | ln :: t => match f ln with | some v => some v | none => firstSome f t

/-- The metadata record of `electric_bill_processor.py`. -/
structure Meta where
  billMonthYear : List Char
  accountNumber : List Char
  deriving DecidableEq

/-- `extract_metadata_from_pdf` of `electric_bill_processor.py` (lines 310-335):
`dateParse` is the `dateutil.parser.parse(..., fuzzy=True)` +
`strftime("%m-%Y")` collaborator; `none` is its exception branch, absorbed by
the `try/except` so the field stays empty. -/
def extract_metadata_from_pdf (dateParse : List Char → Option (List Char))
    (lines : List (List Char)) : Meta :=
  { accountNumber := (firstSome accountFind lines).getD []
  , billMonthYear :=
      match firstSome billIssueGo lines with
      | some g => (dateParse (stripL g)).getD []
      | none => [] }

end Epb

/-! ## `get_user_id` of `script.py` (lines 100-105) and SHA-256

`hashlib.sha256` is implemented over `Nat` with explicit mod-2^32 arithmetic.
The `uuid.uuid4()` of the empty-name branch is entropy and enters as the
explicit parameter `fresh`. -/

/-- Truncate to a 32-bit word. -/
def w32 (n : Nat) : Nat := n % 4294967296

/-- Rotate a 32-bit word right. -/
def rotr32 (x n : Nat) : Nat := w32 ((x >>> n) ||| (x <<< (32 - n)))

/-- SHA-256 round constants. -/
def sha256K : List Nat :=
  [1116352408, 1899447441, 3049323471, 3921009573, 961987163, 1508970993, 2453635748, 2870763221,
   3624381080, 310598401, 607225278, 1426881987, 1925078388, 2162078206, 2614888103, 3248222580,
   3835390401, 4022224774, 264347078, 604807628, 770255983, 1249150122, 1555081692, 1996064986,
   2554220882, 2821834349, 2952996808, 3210313671, 3336571891, 3584528711, 113926993, 338241895,
   666307205, 773529912, 1294757372, 1396182291, 1695183700, 1986661051, 2177026350, 2456956037,
   2730485921, 2820302411, 3259730800, 3345764771, 3516065817, 3600352804, 4094571909, 275423344,
   430227734, 506948616, 659060556, 883997877, 958139571, 1322822218, 1537002063, 1747873779,
   1955562222, 2024104815, 2227730452, 2361852424, 2428436474, 2756734187, 3204031479,
   3329325298]

/-- SHA-256 initial hash value. -/
def sha256H0 : List Nat :=
  [1779033703, 3144134277, 1013904242, 2773480762, 1359893119, 2600822924, 528734635, 1541459225]

/-- Message padding: `0x80`, zeros to 56 mod 64, 8-byte big-endian bit length. -/
def shaPad (msg : List Nat) : List Nat :=
  let L := msg.length
  let bits := 8 * L
  msg ++ 0x80 :: List.replicate ((119 - L % 64) % 64) 0 ++
    [w32 (bits >>> 56) % 256, (bits >>> 48) % 256, (bits >>> 40) % 256, (bits >>> 32) % 256,
     (bits >>> 24) % 256, (bits >>> 16) % 256, (bits >>> 8) % 256, bits % 256]

/-- Big-endian bytes to 32-bit words. -/
def toWordsBE : List Nat → List Nat
  | a :: b :: c :: d :: r => (((a * 256 + b) * 256 + c) * 256 + d) :: toWordsBE r
  | _ => []

/-- Split a word list into blocks of 16. -/
def chunk16 : List Nat → List (List Nat)
  | w0 :: w1 :: w2 :: w3 :: w4 :: w5 :: w6 :: w7 ::
    w8 :: w9 :: w10 :: w11 :: w12 :: w13 :: w14 :: w15 :: r =>
      [w0, w1, w2, w3, w4, w5, w6, w7, w8, w9, w10, w11, w12, w13, w14, w15] :: chunk16 r
  | _ => []

/-- One message-schedule word from the previous sixteen (list kept reversed). -/
def schedStep (rws : List Nat) : Nat :=
  w32 ((rotr32 (rws.getD 1 0) 17 ^^^ rotr32 (rws.getD 1 0) 19 ^^^ (rws.getD 1 0 >>> 10)) +
    rws.getD 6 0 +
    (rotr32 (rws.getD 14 0) 7 ^^^ rotr32 (rws.getD 14 0) 18 ^^^ (rws.getD 14 0 >>> 3)) +
    rws.getD 15 0)

/-- Extend the schedule by `n` words. -/
def buildSched : Nat → List Nat → List Nat
  | 0, rws => rws
  | n + 1, rws => buildSched n (schedStep rws :: rws)

/-- One SHA-256 round. -/
def sha256Round (st : Nat × Nat × Nat × Nat × Nat × Nat × Nat × Nat) (kw : Nat × Nat) :
    Nat × Nat × Nat × Nat × Nat × Nat × Nat × Nat :=
  match st with
  | (a, b, c, d, e, f, g, h) =>
      let t1 := w32 (h + (rotr32 e 6 ^^^ rotr32 e 11 ^^^ rotr32 e 25) +
        ((e &&& f) ^^^ ((e ^^^ 0xffffffff) &&& g)) + kw.1 + kw.2)
      let t2 := w32 ((rotr32 a 2 ^^^ rotr32 a 13 ^^^ rotr32 a 22) +
        ((a &&& b) ^^^ (a &&& c) ^^^ (b &&& c)))
      (w32 (t1 + t2), a, b, c, w32 (d + t1), e, f, g)

/-- Compress one 16-word block into the running hash. -/
def sha256Compress (H : List Nat) (block : List Nat) : List Nat :=
  let W := (buildSched 48 block.reverse).reverse
  let st := (sha256K.zip W).foldl sha256Round
    (H.getD 0 0, H.getD 1 0, H.getD 2 0, H.getD 3 0, H.getD 4 0, H.getD 5 0, H.getD 6 0, H.getD 7 0)
  match st with
  | (a, b, c, d, e, f, g, h) =>
      [w32 (H.getD 0 0 + a), w32 (H.getD 1 0 + b), w32 (H.getD 2 0 + c), w32 (H.getD 3 0 + d),
       w32 (H.getD 4 0 + e), w32 (H.getD 5 0 + f), w32 (H.getD 6 0 + g), w32 (H.getD 7 0 + h)]

/-- SHA-256 of a byte list, as eight 32-bit words. -/
def sha256Words (msg : List Nat) : List Nat :=
  (chunk16 (toWordsBE (shaPad msg))).foldl sha256Compress sha256H0

/-- Lowercase hex digit. -/
def hexChar (n : Nat) : Char := if n < 10 then Char.ofNat (48 + n) else Char.ofNat (87 + n)

/-- Eight hex digits of a 32-bit word, big-endian. -/
def word32HexBE (w : Nat) : List Char :=
  [hexChar (w >>> 28 % 16), hexChar (w >>> 24 % 16), hexChar (w >>> 20 % 16),
   hexChar (w >>> 16 % 16), hexChar (w >>> 12 % 16), hexChar (w >>> 8 % 16),
   hexChar (w >>> 4 % 16), hexChar (w % 16)]

/-- ASCII/UTF-8 bytes of a string (all inputs here are ASCII). -/
def encodeBytes (s : List Char) : List Nat := s.map Char.toNat

/-- `hashlib.sha256(_).hexdigest()`. -/
def sha256Hex (s : List Char) : List Char :=
  ((sha256Words (encodeBytes s)).map word32HexBE).flatten

namespace Script

/-- `get_user_id` of `script.py` (lines 100-105): hash of the stripped name,
or the fresh `uuid4` value when the stripped name is empty. -/
def get_user_id (fresh : List Char) (name : List Char) : List Char :=
  let n := stripL name
  if n.isEmpty then fresh else sha256Hex n

end Script

/-! ## MD5 (`hashlib.md5`, the `Bill_Hash` content digest) -/

/-- Rotate a 32-bit word left. -/
def rotl32 (x n : Nat) : Nat := w32 ((x <<< n) ||| (x >>> (32 - n)))

/-- MD5 sine-derived constants (RFC 1321). -/
def md5K : List Nat :=
  [0xd76aa478, 0xe8c7b756, 0x242070db, 0xc1bdceee, 0xf57c0faf, 0x4787c62a, 0xa8304613, 0xfd469501,
   0x698098d8, 0x8b44f7af, 0xffff5bb1, 0x895cd7be, 0x6b901122, 0xfd987193, 0xa679438e, 0x49b40821,
   0xf61e2562, 0xc040b340, 0x265e5a51, 0xe9b6c7aa, 0xd62f105d, 0x02441453, 0xd8a1e681, 0xe7d3fbc8,
   0x21e1cde6, 0xc33707d6, 0xf4d50d87, 0x455a14ed, 0xa9e3e905, 0xfcefa3f8, 0x676f02d9, 0x8d2a4c8a,
   0xfffa3942, 0x8771f681, 0x6d9d6122, 0xfde5380c, 0xa4beea44, 0x4bdecfa9, 0xf6bb4b60, 0xbebfbc70,
   0x289b7ec6, 0xeaa127fa, 0xd4ef3085, 0x04881d05, 0xd9d4d039, 0xe6db99e5, 0x1fa27cf8, 0xc4ac5665,
   0xf4292244, 0x432aff97, 0xab9423a7, 0xfc93a039, 0x655b59c3, 0x8f0ccc92, 0xffeff47d, 0x85845dd1,
   0x6fa87e4f, 0xfe2ce6e0, 0xa3014314, 0x4e0811a1, 0xf7537e82, 0xbd3af235, 0x2ad7d2bb, 0xeb86d391]

/-- MD5 per-round left-rotation amounts. -/
def md5S : List Nat :=
  [7, 12, 17, 22, 7, 12, 17, 22, 7, 12, 17, 22, 7, 12, 17, 22,
   5, 9, 14, 20, 5, 9, 14, 20, 5, 9, 14, 20, 5, 9, 14, 20,
   4, 11, 16, 23, 4, 11, 16, 23, 4, 11, 16, 23, 4, 11, 16, 23,
   6, 10, 15, 21, 6, 10, 15, 21, 6, 10, 15, 21, 6, 10, 15, 21]

/-- The MD5 mixing function of round `i`. -/
def md5F (i b c d : Nat) : Nat :=
  if i < 16 then (b &&& c) ||| ((b ^^^ 0xffffffff) &&& d)
  else if i < 32 then (d &&& b) ||| ((d ^^^ 0xffffffff) &&& c)
  else if i < 48 then b ^^^ c ^^^ d
  else c ^^^ (b ||| (d ^^^ 0xffffffff))

/-- The MD5 message-word index of round `i`. -/
def md5G (i : Nat) : Nat :=
  if i < 16 then i
  else if i < 32 then (5 * i + 1) % 16
  else if i < 48 then (3 * i + 5) % 16
  else (7 * i) % 16

/-- One MD5 step. -/
def md5Step (M : List Nat) (st : Nat × Nat × Nat × Nat) (i : Nat) : Nat × Nat × Nat × Nat :=
  match st with
  | (a, b, c, d) =>
      let f := w32 (md5F i b c d + a + md5K.getD i 0 + M.getD (md5G i) 0)
      (d, w32 (b + rotl32 f (md5S.getD i 0)), b, c)

/-- Compress one 16-word block. -/
def md5Compress (st : Nat × Nat × Nat × Nat) (block : List Nat) : Nat × Nat × Nat × Nat :=
  match (List.range 64).foldl (md5Step block) st with
  | (a, b, c, d) => (w32 (st.1 + a), w32 (st.2.1 + b), w32 (st.2.2.1 + c), w32 (st.2.2.2 + d))

/-- MD5 padding: `0x80`, zeros to 56 mod 64, 8-byte little-endian bit length. -/
def md5Pad (msg : List Nat) : List Nat :=
  let L := msg.length
  let bits := 8 * L
  msg ++ 0x80 :: List.replicate ((119 - L % 64) % 64) 0 ++
    [bits % 256, (bits >>> 8) % 256, (bits >>> 16) % 256, (bits >>> 24) % 256,
     (bits >>> 32) % 256, (bits >>> 40) % 256, (bits >>> 48) % 256, w32 (bits >>> 56) % 256]

/-- Little-endian bytes to 32-bit words. -/
def toWordsLE : List Nat → List Nat
  | a :: b :: c :: d :: r => (a + 256 * (b + 256 * (c + 256 * d))) :: toWordsLE r
  | _ => []

/-- Two hex digits of a byte. -/
def byteHex (b : Nat) : List Char := [hexChar (b >>> 4 % 16), hexChar (b % 16)]

/-- Eight hex digits of a 32-bit word, little-endian byte order. -/
def word32HexLE (w : Nat) : List Char :=
  byteHex (w % 256) ++ byteHex (w >>> 8 % 256) ++ byteHex (w >>> 16 % 256) ++ byteHex (w >>> 24 % 256)

/-- `hashlib.md5(_).hexdigest()` of a byte list. -/
def md5Hex (msg : List Nat) : List Char :=
  match (chunk16 (toWordsLE (md5Pad msg))).foldl md5Compress
    (0x67452301, 0xefcdab89, 0x98badcfe, 0x10325476) with
  | (a, b, c, d) => word32HexLE a ++ word32HexLE b ++ word32HexLE c ++ word32HexLE d

/-! ## The upload handler (`electric_bill_processor.py` lines 434-445,
`script.py` lines 310-320)

The sheet is an append-only list of rows; only the `Bill_Hash` column takes
part in the duplicate check, the remaining columns are opaque payload.
`process_pdf` (which builds the new row) is an external parameter: in the code
it runs only on the non-duplicate branch. -/

/-- One sheet row: its `Bill_Hash` column plus the remaining columns. -/
structure SheetRow where
  billHash : List Char
  payload : List (List Char)
  deriving DecidableEq

/-- Outcome of one upload. -/
inductive UploadResult
  | duplicate
  | added (row : SheetRow)
  deriving DecidableEq

/-- The `uploaded_file` handler: hash the bytes, check the store for a row with
the same `Bill_Hash`, and only in the non-duplicate branch build and append a
row. -/
def uploaded_file_handler (store : List SheetRow) (fileBytes : List Nat)
    (processPdf : List Nat → SheetRow) : UploadResult × List SheetRow :=
  let billHash := md5Hex fileBytes
  if store.any (fun r => r.billHash = billHash) then (UploadResult.duplicate, store)
  else
    let row := processPdf fileBytes
    (UploadResult.added row, store ++ [row])

/-! ## Specification-side descriptions used in the claim statements -/

/-- The first non-empty rate among the records whose description normalizes to
`k`, in input order (`""` when there is none). -/
def firstNonEmptyRate (k : List Char) (cs : List Charge) : List Char :=
  ((((cs.filter (fun c => keyOf c = k))).map Charge.rate).find? (fun r => !r.isEmpty)).getD []

/-- The exact-rational (idealized) sum of the amounts of the records whose
description normalizes to `k`. -/
def sumAmounts (k : List Char) (cs : List Charge) : ℚ :=
  (((cs.filter (fun c => keyOf c = k))).map Charge.amount).sum

/-- A well-formed trailing amount token, as accepted by the fallback pattern
`(-?\d{1,3}(?:,\d{3})*\.\d{2})(-)?\s*$`: optional leading minus (possibly the
Unicode glyph), 1-3 digits, comma groups of three digits, a dot, two cent
digits, an optional trailing minus (possibly the Unicode glyph), trailing
whitespace. -/
structure AmtToken where
  neg : Bool
  uminus : Bool
  d1 : List Char
  groups : List (List Char)
  cents : List Char
  trail : Bool
  trailU : Bool
  ws : List Char

/-- Well-formedness of an amount token. -/
def AmtToken.wf (t : AmtToken) : Prop :=
  t.d1 ≠ [] ∧ t.d1.length ≤ 3 ∧ (∀ c ∈ t.d1, c.isDigit) ∧
    (∀ g ∈ t.groups, g.length = 3 ∧ ∀ c ∈ g, c.isDigit) ∧
    t.cents.length = 2 ∧ (∀ c ∈ t.cents, c.isDigit) ∧ (∀ c ∈ t.ws, isSpace c)

/-- The token as written on the bill line. -/
def AmtToken.render (t : AmtToken) : List Char :=
  (if t.neg then [if t.uminus then '−' else '-'] else []) ++
    t.d1 ++ (t.groups.map (fun g => ',' :: g)).flatten ++ '.' :: t.cents ++
    (if t.trail then [if t.trailU then '−' else '-'] else []) ++ t.ws

/-- The literal numeric value of the token: digits with separators removed,
cents over 100, negative when a leading or trailing minus is present. -/
def AmtToken.value (t : AmtToken) : ℚ :=
  let v : ℚ := (digitsVal (t.d1 ++ t.groups.flatten) : ℚ) + (digitsVal t.cents : ℚ) / 100
  if t.neg || t.trail then -v else v

/-! # Lemmas -/

/-! ## Substring containment -/

theorem subTest_iff {sub hay : List Char} : subTest sub hay = true ↔ sub <:+: hay := by
  simp only [subTest, List.any_eq_true, List.mem_tails, List.isPrefixOf_iff_prefix,
    List.infix_iff_prefix_suffix]
  exact ⟨fun ⟨t, h1, h2⟩ => ⟨t, h2, h1⟩, fun ⟨t, h1, h2⟩ => ⟨t, h2, h1⟩⟩

theorem subTest_false_iff {sub hay : List Char} : subTest sub hay = false ↔ ¬ sub <:+: hay := by
  rw [← subTest_iff, Bool.not_eq_true]

/-- Every character of an infix occurs in the text. -/
theorem mem_of_infix {p s : List Char} (h : p <:+: s) {c : Char} (hc : c ∈ p) : c ∈ s :=
  h.subset hc

/-! ## Scanner step lemmas: `subKWh` -/

theorem matchUnit_shrink : ∀ {t r : List Char}, matchUnit t = some r → r.length + 2 ≤ t.length
  | [], r, h => by simp [matchUnit] at h
  | [c], r, h => by simp [matchUnit] at h
  | c1 :: c2 :: rest, r, h => by
      simp only [matchUnit] at h
      split at h
      · match rest, h with
        | [], h => simp_all
        | c3 :: r2, h => by_cases hc : c3 = 'h' <;> simp [hc] at h <;> subst h <;> simp
      · simp at h

theorem tryKWh_nil : tryKWh [] = none := rfl

theorem length_dropWhile_lt_of_takeWhile_ne {p : Char → Bool} {l : List Char}
    (h : l.takeWhile p ≠ []) : (l.dropWhile p).length < l.length := by
  have := List.takeWhile_append_dropWhile (p := p) (l := l)
  have hlen : (l.takeWhile p).length + (l.dropWhile p).length = l.length := by
    rw [← List.length_append, this]
  have : 0 < (l.takeWhile p).length := List.length_pos.mpr h
  omega

theorem tryKWh_shrink {l r : List Char} (h : tryKWh l = some r) : r.length < l.length := by
  unfold tryKWh at h
  by_cases hds : ((l.dropWhile isSpace).takeWhile Char.isDigit).isEmpty
  · simp [hds] at h
  · simp only [hds, if_false, Bool.false_eq_true] at h
    have h1 := matchUnit_shrink h
    have h2 : (((l.dropWhile isSpace).dropWhile Char.isDigit).dropWhile isSpace).length ≤
        ((l.dropWhile isSpace).dropWhile Char.isDigit).length := (List.dropWhile_sublist _).length_le
    have h3 : ((l.dropWhile isSpace).dropWhile Char.isDigit).length < (l.dropWhile isSpace).length :=
      length_dropWhile_lt_of_takeWhile_ne (by simpa [List.isEmpty_iff] using hds)
    have h4 : (l.dropWhile isSpace).length ≤ l.length := (List.dropWhile_sublist _).length_le
    omega

theorem subKWhF_nil : ∀ n, subKWhF n [] = []
  | 0 => rfl
  | _ + 1 => rfl

theorem subKWhF_irrel : ∀ (n m : Nat) (l : List Char), l.length ≤ n → l.length ≤ m →
    subKWhF n l = subKWhF m l := by
  intro n
  induction n with
  | zero =>
      intro m l hn _
      have : l = [] := List.length_eq_zero.mp (Nat.le_zero.mp hn)
      subst this
      rw [subKWhF_nil, subKWhF_nil]
  | succ n ih =>
      intro m l hn hm
      match l, m with
      | [], _ => rw [subKWhF_nil, subKWhF_nil]
      | c :: t, 0 => simp at hm
      | c :: t, m + 1 =>
          cases htry : tryKWh (c :: t) with
          | none =>
              have ht : t.length ≤ n := by simpa using hn
              have ht2 : t.length ≤ m := by simpa using hm
              simp only [subKWhF, htry, ih m t ht ht2]
          | some r =>
              have hr := tryKWh_shrink htry
              have h1 : r.length ≤ n := by simp at hr hn; omega
              have h2 : r.length ≤ m := by simp at hr hm; omega
              simp only [subKWhF, htry, ih m r h1 h2]

theorem subKWh_nil : subKWh [] = [] := rfl

theorem subKWh_cons_none {c : Char} {t : List Char} (h : tryKWh (c :: t) = none) :
    subKWh (c :: t) = c :: subKWh t := by
  show subKWhF (t.length + 1) (c :: t) = _
  simp only [subKWhF, h]
  rfl

theorem subKWh_some {l r : List Char} (h : tryKWh l = some r) :
    subKWh l = ' ' :: 'k' :: 'W' :: 'h' :: subKWh r := by
  match l with
  | [] => simp [tryKWh_nil] at h
  | c :: t =>
      show subKWhF (t.length + 1) (c :: t) = _
      simp only [subKWhF, h]
      have hr := tryKWh_shrink h
      exact congrArg (fun x => ' ' :: 'k' :: 'W' :: 'h' :: x)
        (subKWhF_irrel t.length r.length r (by simp at hr; omega) le_rfl)

/-! ## Scanner step lemmas: `subWords` -/

theorem tryWord_shrink {pw : Bool} {l r : List Char} (h : tryWord pw l = some r) :
    r.length + 4 ≤ l.length := by
  unfold tryWord at h
  split at h
  · cases h
  · split at h
    · have h5 : 5 ≤ l.length := by
        have := (List.isPrefixOf_iff_prefix.mp (by assumption)).length_le
        simpa using this
      split at h
      · cases h; simp [List.length_drop]; omega
      · cases h
    · split at h
      · have h4 : 4 ≤ l.length := by
          have := (List.isPrefixOf_iff_prefix.mp (by assumption)).length_le
          simpa using this
        split at h
        · cases h; simp [List.length_drop]; omega
        · cases h
      · split at h
        · have h4 : 4 ≤ l.length := by
            have := (List.isPrefixOf_iff_prefix.mp (by assumption)).length_le
            simpa using this
          split at h
          · cases h; simp [List.length_drop]; omega
          · cases h
        · cases h

theorem subWordsF_nil : ∀ n pw, subWordsF n pw [] = []
  | 0, _ => rfl
  | _ + 1, _ => rfl

theorem subWordsF_irrel : ∀ (n m : Nat) (pw : Bool) (l : List Char), l.length ≤ n →
    l.length ≤ m → subWordsF n pw l = subWordsF m pw l := by
  intro n
  induction n with
  | zero =>
      intro m pw l hn _
      have : l = [] := List.length_eq_zero.mp (Nat.le_zero.mp hn)
      subst this
      rw [subWordsF_nil, subWordsF_nil]
  | succ n ih =>
      intro m pw l hn hm
      match l, m with
      | [], _ => rw [subWordsF_nil, subWordsF_nil]
      | c :: t, 0 => simp at hm
      | c :: t, m + 1 =>
          cases htry : tryWord pw (c :: t) with
          | none =>
              have ht : t.length ≤ n := by simpa using hn
              have ht2 : t.length ≤ m := by simpa using hm
              simp only [subWordsF, htry, ih m (isWordC c) t ht ht2]
          | some r =>
              have hr := tryWord_shrink htry
              have h1 : r.length ≤ n := by simp at hr hn; omega
              have h2 : r.length ≤ m := by simp at hr hm; omega
              simp only [subWordsF, htry, ih m true r h1 h2]

theorem subWords_eq_subWordsA (l : List Char) : subWords l = subWordsA false l := rfl

theorem subWordsA_nil (pw : Bool) : subWordsA pw [] = [] := rfl

theorem subWordsA_cons_none {pw : Bool} {c : Char} {t : List Char}
    (h : tryWord pw (c :: t) = none) : subWordsA pw (c :: t) = c :: subWordsA (isWordC c) t := by
  show subWordsF (t.length + 1) pw (c :: t) = _
  simp only [subWordsF, h]
  rfl

theorem subWordsA_some {pw : Bool} {l r : List Char} (h : tryWord pw l = some r) :
    subWordsA pw l = subWordsA true r := by
  match l with
  | [] => simp [tryWord] at h
  | c :: t =>
      show subWordsF (t.length + 1) pw (c :: t) = _
      simp only [subWordsF, h]
      have hr := tryWord_shrink h
      exact subWordsF_irrel t.length r.length true r (by simp at hr; omega) le_rfl

/-! ## Scanner step lemmas: `subDKWh` -/

theorem matchUnitCI_shrink : ∀ {t r : List Char}, matchUnitCI t = some r → r.length + 3 ≤ t.length
  | [], r, h => by simp [matchUnitCI] at h
  | [c], r, h => by simp [matchUnitCI] at h
  | [c, c2], r, h => by simp [matchUnitCI] at h
  | c1 :: c2 :: c3 :: rest, r, h => by
      simp only [matchUnitCI] at h
      split at h
      · cases h; simp
      · cases h

theorem tryDKWh_nil : tryDKWh [] = none := rfl

theorem tryDKWh_shrink {l r : List Char} (h : tryDKWh l = some r) : r.length < l.length := by
  unfold tryDKWh at h
  by_cases hds : (l.takeWhile Char.isDigit).isEmpty
  · simp [hds] at h
  · simp only [hds, if_false, Bool.false_eq_true] at h
    have h1 := matchUnitCI_shrink h
    have h2 : ((l.dropWhile Char.isDigit).dropWhile isSpace).length ≤
        (l.dropWhile Char.isDigit).length := (List.dropWhile_sublist _).length_le
    have h3 : (l.dropWhile Char.isDigit).length < l.length :=
      length_dropWhile_lt_of_takeWhile_ne (by simpa [List.isEmpty_iff] using hds)
    omega

theorem subDKWhF_nil : ∀ n, subDKWhF n [] = []
  | 0 => rfl
  | _ + 1 => rfl

theorem subDKWhF_irrel : ∀ (n m : Nat) (l : List Char), l.length ≤ n → l.length ≤ m →
    subDKWhF n l = subDKWhF m l := by
  intro n
  induction n with
  | zero =>
      intro m l hn _
      have : l = [] := List.length_eq_zero.mp (Nat.le_zero.mp hn)
      subst this
      rw [subDKWhF_nil, subDKWhF_nil]
  | succ n ih =>
      intro m l hn hm
      match l, m with
      | [], _ => rw [subDKWhF_nil, subDKWhF_nil]
      | c :: t, 0 => simp at hm
      | c :: t, m + 1 =>
          cases htry : tryDKWh (c :: t) with
          | none =>
              have ht : t.length ≤ n := by simpa using hn
              have ht2 : t.length ≤ m := by simpa using hm
              simp only [subDKWhF, htry, ih m t ht ht2]
          | some r =>
              have hr := tryDKWh_shrink htry
              have h1 : r.length ≤ n := by simp at hr hn; omega
              have h2 : r.length ≤ m := by simp at hr hm; omega
              simp only [subDKWhF, htry, ih m r h1 h2]

theorem subDKWh_nil : subDKWh [] = [] := rfl

theorem subDKWh_cons_none {c : Char} {t : List Char} (h : tryDKWh (c :: t) = none) :
    subDKWh (c :: t) = c :: subDKWh t := by
  show subDKWhF (t.length + 1) (c :: t) = _
  simp only [subDKWhF, h]
  rfl

theorem subDKWh_some {l r : List Char} (h : tryDKWh l = some r) :
    subDKWh l = 'k' :: 'W' :: 'h' :: subDKWh r := by
  match l with
  | [] => simp [tryDKWh_nil] at h
  | c :: t =>
      show subDKWhF (t.length + 1) (c :: t) = _
      simp only [subDKWhF, h]
      have hr := tryDKWh_shrink h
      exact congrArg (fun x => 'k' :: 'W' :: 'h' :: x)
        (subDKWhF_irrel t.length r.length r (by simp at hr; omega) le_rfl)

/-! ## Consolidation lemmas -/

theorem rateOf_nil (k : List Char) : rateOf [] k = [] := rfl

theorem amountOf_nil (k : List Char) : amountOf [] k = 0 := rfl

theorem rateOf_insert_self (acc : List (List Char × ℚ × List Char)) (k : List Char) (a : ℚ)
    (r : List Char) :
    rateOf (insertCharge acc k a r) k = if rateOf acc k = [] then r else rateOf acc k := by
  induction acc with
  | nil => simp [insertCharge, rateOf]
  | cons e t ih =>
      by_cases he : e.1 = k
      · simp only [insertCharge, if_pos he, rateOf]
        rw [List.find?_cons_of_pos _ (by simp), List.find?_cons_of_pos _ (by simp [he])]
        by_cases hr : e.2.2 = []
        · by_cases hrr : r = [] <;> simp [hr, hrr]
        · simp [hr]
      · simp only [insertCharge, if_neg he, rateOf] at ih ⊢
        rw [List.find?_cons_of_neg _ (by simp [he]), List.find?_cons_of_neg _ (by simp [he])]
        exact ih

theorem rateOf_insert_ne (acc : List (List Char × ℚ × List Char)) {k k' : List Char} (a : ℚ)
    (r : List Char) (h : k' ≠ k) : rateOf (insertCharge acc k a r) k' = rateOf acc k' := by
  induction acc with
  | nil => simp [insertCharge, rateOf, Ne.symm h]
  | cons e t ih =>
      by_cases he : e.1 = k
      · simp only [insertCharge, if_pos he, rateOf]
        rw [List.find?_cons_of_neg _ (by simp [Ne.symm h]),
          List.find?_cons_of_neg _ (by simp [he, Ne.symm h])]
      · simp only [insertCharge, if_neg he, rateOf] at ih ⊢
        by_cases he' : e.1 = k'
        · rw [List.find?_cons_of_pos _ (by simp [he']), List.find?_cons_of_pos _ (by simp [he'])]
        · rw [List.find?_cons_of_neg _ (by simp [he']), List.find?_cons_of_neg _ (by simp [he'])]
          exact ih

theorem amountOf_insert_self (acc : List (List Char × ℚ × List Char)) (k : List Char) (a : ℚ)
    (r : List Char) : amountOf (insertCharge acc k a r) k = amountOf acc k + a := by
  induction acc with
  | nil => simp [insertCharge, amountOf]
  | cons e t ih =>
      by_cases he : e.1 = k
      · simp only [insertCharge, if_pos he, amountOf]
        rw [List.find?_cons_of_pos _ (by simp), List.find?_cons_of_pos _ (by simp [he])]
        simp
      · simp only [insertCharge, if_neg he, amountOf] at ih ⊢
        rw [List.find?_cons_of_neg _ (by simp [he]), List.find?_cons_of_neg _ (by simp [he])]
        exact ih

theorem amountOf_insert_ne (acc : List (List Char × ℚ × List Char)) {k k' : List Char} (a : ℚ)
    (r : List Char) (h : k' ≠ k) : amountOf (insertCharge acc k a r) k' = amountOf acc k' := by
  induction acc with
  | nil => simp [insertCharge, amountOf, Ne.symm h]
  | cons e t ih =>
      by_cases he : e.1 = k
      · simp only [insertCharge, if_pos he, amountOf]
        rw [List.find?_cons_of_neg _ (by simp [Ne.symm h]),
          List.find?_cons_of_neg _ (by simp [he, Ne.symm h])]
      · simp only [insertCharge, if_neg he, amountOf] at ih ⊢
        by_cases he' : e.1 = k'
        · rw [List.find?_cons_of_pos _ (by simp [he']), List.find?_cons_of_pos _ (by simp [he'])]
        · rw [List.find?_cons_of_neg _ (by simp [he']), List.find?_cons_of_neg _ (by simp [he'])]
          exact ih

theorem hasKey_insert (acc : List (List Char × ℚ × List Char)) (k k' : List Char) (a : ℚ)
    (r : List Char) : hasKey (insertCharge acc k a r) k' = (hasKey acc k' || decide (k = k')) := by
  induction acc with
  | nil => simp [insertCharge, hasKey]
  | cons e t ih =>
      by_cases he : e.1 = k
      · simp only [insertCharge, if_pos he, hasKey, List.any_cons]
        rw [show (decide (e.1 = k') = decide (k = k')) from by rw [he]]
        cases h1 : decide (k = k') <;> simp
      · simp only [insertCharge, if_neg he, hasKey, List.any_cons] at ih ⊢
        rw [ih, Bool.or_assoc]

theorem sumAmounts_nil (k : List Char) : sumAmounts k [] = 0 := rfl

theorem sumAmounts_cons (k : List Char) (c : Charge) (cs : List Charge) :
    sumAmounts k (c :: cs) = (if keyOf c = k then c.amount else 0) + sumAmounts k cs := by
  by_cases h : keyOf c = k <;> simp [sumAmounts, List.filter_cons, h]

theorem firstNonEmptyRate_nil (k : List Char) : firstNonEmptyRate k [] = [] := rfl

theorem firstNonEmptyRate_cons (k : List Char) (c : Charge) (cs : List Charge) :
    firstNonEmptyRate k (c :: cs) =
      if keyOf c = k then (if c.rate = [] then firstNonEmptyRate k cs else c.rate)
      else firstNonEmptyRate k cs := by
  by_cases h : keyOf c = k
  · by_cases hr : c.rate = [] <;>
      simp [firstNonEmptyRate, List.filter_cons, h, List.find?, hr, List.isEmpty_iff]
  · simp [firstNonEmptyRate, List.filter_cons, h]

theorem amountOf_foldl : ∀ (cs : List Charge) (acc : List (List Char × ℚ × List Char))
    (k : List Char),
    amountOf (cs.foldl (fun acc c => insertCharge acc (keyOf c) c.amount c.rate) acc) k =
      amountOf acc k + sumAmounts k cs
  | [], acc, k => by simp [sumAmounts_nil]
  | c :: cs, acc, k => by
      rw [List.foldl_cons, amountOf_foldl cs _ k, sumAmounts_cons]
      by_cases h : keyOf c = k
      · rw [h, amountOf_insert_self, if_pos rfl]; ring
      · rw [amountOf_insert_ne _ _ _ (fun h' => h h'.symm), if_neg h]; ring

theorem rateOf_foldl : ∀ (cs : List Charge) (acc : List (List Char × ℚ × List Char))
    (k : List Char),
    rateOf (cs.foldl (fun acc c => insertCharge acc (keyOf c) c.amount c.rate) acc) k =
      if rateOf acc k = [] then firstNonEmptyRate k cs else rateOf acc k
  | [], acc, k => by
      by_cases h : rateOf acc k = [] <;> simp [firstNonEmptyRate_nil, h]
  | c :: cs, acc, k => by
      rw [List.foldl_cons, rateOf_foldl cs _ k, firstNonEmptyRate_cons]
      by_cases h : keyOf c = k
      · rw [h, rateOf_insert_self, if_pos rfl]
        by_cases ha : rateOf acc k = []
        · simp only [ha, ne_eq, not_true_eq_false, if_false, if_pos rfl]
          by_cases hr : c.rate = [] <;> simp [hr]
        · simp [ha]
      · rw [rateOf_insert_ne _ _ _ (fun h' => h h'.symm), if_neg h]

theorem hasKey_foldl : ∀ (cs : List Charge) (acc : List (List Char × ℚ × List Char))
    (k : List Char),
    hasKey (cs.foldl (fun acc c => insertCharge acc (keyOf c) c.amount c.rate) acc) k =
      (hasKey acc k || cs.any (fun c => decide (keyOf c = k)))
  | [], acc, k => by simp
  | c :: cs, acc, k => by
      rw [List.foldl_cons, hasKey_foldl cs _ k, hasKey_insert, List.any_cons, Bool.or_assoc]

theorem firstNonEmptyRate_ne_nil_append (k : List Char) (cs : List Charge) (c : Charge)
    (h : firstNonEmptyRate k cs ≠ []) :
    firstNonEmptyRate k (cs ++ [c]) = firstNonEmptyRate k cs := by
  unfold firstNonEmptyRate at h ⊢
  cases hf : ((cs.filter fun c => decide (keyOf c = k)).map Charge.rate).find?
      (fun r => !r.isEmpty) with
  | none => simp [hf] at h
  | some v =>
      rw [List.filter_append, List.map_append, List.find?_append, hf]
      simp [hf]

/-- The exact-rational sum is invariant under permutation of the records; the
IEEE-754 accumulation the program performs is not. -/
theorem sumAmounts_perm {cs cs' : List Charge} (h : cs.Perm cs') (k : List Char) :
    sumAmounts k cs = sumAmounts k cs' :=
  List.Perm.sum_eq (List.Perm.map Charge.amount (List.Perm.filter _ h))

/-- C1: for every sequence of charge records consolidated by the consolidation
loop of `process_pdf` and every key `k`, the rate recorded for `k` is the first
non-empty rate among the records whose description normalizes to `k`, in input
order; and once that rate is non-empty, appending a further record never
overwrites it. -/
theorem claim_C1 (cs : List Charge) (k : List Char) :
    rateOf (consolidate cs) k = firstNonEmptyRate k cs ∧
      ∀ c : Charge, firstNonEmptyRate k cs ≠ [] →
        rateOf (consolidate (cs ++ [c])) k = rateOf (consolidate cs) k := by
  have h1 : ∀ ds : List Charge, rateOf (consolidate ds) k = firstNonEmptyRate k ds := by
    intro ds
    unfold consolidate
    rw [rateOf_foldl ds [] k, if_pos (rateOf_nil k)]
  refine ⟨h1 cs, fun c hne => ?_⟩
  rw [h1 (cs ++ [c]), h1 cs, firstNonEmptyRate_ne_nil_append k cs c hne]

/-- C1 witness: the spec's example `[(K, "", 1), (K, "0.05", 2), (K, "0.09", 3)]`
records rate `"0.05"`, and appending another record keeps it. -/
theorem claim_C1_witness :
    rateOf (consolidate [⟨"Customer Charge".data, [], 1⟩,
        ⟨"Customer Charge".data, "0.05".data, 2⟩,
        ⟨"Customer Charge".data, "0.09".data, 3⟩]) "Customer Charge".data = "0.05".data ∧
      rateOf (consolidate ([⟨"Customer Charge".data, [], 1⟩,
          ⟨"Customer Charge".data, "0.05".data, 2⟩,
          ⟨"Customer Charge".data, "0.09".data, 3⟩] ++
            [⟨"Customer Charge".data, "0.07".data, 4⟩])) "Customer Charge".data =
        rateOf (consolidate [⟨"Customer Charge".data, [], 1⟩,
          ⟨"Customer Charge".data, "0.05".data, 2⟩,
          ⟨"Customer Charge".data, "0.09".data, 3⟩]) "Customer Charge".data := by
  have h := claim_C1 [⟨"Customer Charge".data, [], 1⟩,
    ⟨"Customer Charge".data, "0.05".data, 2⟩,
    ⟨"Customer Charge".data, "0.09".data, 3⟩] "Customer Charge".data
  exact ⟨h.1.trans (by decide), h.2 ⟨"Customer Charge".data, "0.07".data, 4⟩ (by decide)⟩

/-- Reading off the accumulated amount after one `insertChargeF` step. -/
theorem amountOfF_insert (m : List (List Char × F64 × List Char)) (k2 : List Char)
    (a : F64) (r k : List Char) :
    amountOfF (insertChargeF m k2 a r) k =
      if k2 = k then
        some (match amountOfF m k with | none => a | some v => fAdd v a)
      else amountOfF m k := by
  induction m with
  | nil =>
      by_cases hk : k2 = k
      · simp [insertChargeF, amountOfF, hk]
      · simp [insertChargeF, amountOfF, hk, Ne.symm hk]
  | cons e t ih =>
      by_cases he : e.1 = k2
      · rw [show insertChargeF (e :: t) k2 a r =
            (k2, fAdd e.2.1 a, if e.2.2 = [] && r ≠ [] then r else e.2.2) :: t from by
          unfold insertChargeF
          rw [if_pos he]]
        by_cases hk : k2 = k
        · subst hk
          simp [amountOfF, List.find?_cons_of_pos, he]
        · have hek : ¬ e.1 = k := fun h => hk (he ▸ h)
          simp [amountOfF, List.find?_cons_of_neg, hk, hek]
      · rw [show insertChargeF (e :: t) k2 a r = e :: insertChargeF t k2 a r from by
          simp only [insertChargeF]
          rw [if_neg he]]
        by_cases hek : e.1 = k
        · have hk : ¬ k2 = k := fun h => he (h ▸ hek)
          simp [amountOfF, List.find?_cons_of_pos, hek, hk]
        · rw [show amountOfF (e :: insertChargeF t k2 a r) k =
              amountOfF (insertChargeF t k2 a r) k from by
            unfold amountOfF
            rw [List.find?_cons_of_neg _ (by simp [hek])]]
          rw [show amountOfF (e :: t) k = amountOfF t k from by
            unfold amountOfF
            rw [List.find?_cons_of_neg _ (by simp [hek])]]
          exact ih

/-- One step of the claim's accumulation. -/
theorem accAmountF_cons (k : List Char) (cur : Option F64) (c : ChargeF) (t : List ChargeF) :
    accAmountF k cur (c :: t) =
      if keyOfF c = k then
        accAmountF k (some (match cur with | none => c.amount | some v => fAdd v c.amount)) t
      else accAmountF k cur t := rfl

/-- The consolidated amount over any starting accumulator. -/
theorem amountOfF_foldl (k : List Char) :
    ∀ (cs : List ChargeF) (m : List (List Char × F64 × List Char)),
      amountOfF (cs.foldl (fun acc c => insertChargeF acc (keyOfF c) c.amount c.rate) m) k =
        accAmountF k (amountOfF m k) cs := by
  intro cs
  induction cs with
  | nil => intro m; rfl
  | cons c t ih =>
      intro m
      rw [List.foldl_cons, ih, amountOfF_insert]
      rw [accAmountF_cons]
      by_cases hk : keyOfF c = k
      · rw [if_pos hk, if_pos hk]
      · rw [if_neg hk, if_neg hk]

/-- C2 counterexample: with the amounts `1e16`, `1.0`, `1.0` (all parseable
from a bill line) under one key, consolidating in input order gives `1e16`
(each `1.0` is absorbed by rounding), while the permutation putting `1e16`
last gives `1e16 + 2`: the Python float accumulation is not
permutation-invariant. -/
theorem claim_C2_counterexample :
    ([⟨"Customer Charge".data, [], F64.finite 152587890625 16⟩,
      ⟨"Customer Charge".data, [], F64.finite 1 0⟩,
      ⟨"Customer Charge".data, [], F64.finite 1 0⟩] : List ChargeF).Perm
      [⟨"Customer Charge".data, [], F64.finite 1 0⟩,
       ⟨"Customer Charge".data, [], F64.finite 1 0⟩,
       ⟨"Customer Charge".data, [], F64.finite 152587890625 16⟩] ∧
    amountOfF (consolidateF
        [⟨"Customer Charge".data, [], F64.finite 152587890625 16⟩,
         ⟨"Customer Charge".data, [], F64.finite 1 0⟩,
         ⟨"Customer Charge".data, [], F64.finite 1 0⟩]) "Customer Charge".data ≠
      amountOfF (consolidateF
        [⟨"Customer Charge".data, [], F64.finite 1 0⟩,
         ⟨"Customer Charge".data, [], F64.finite 1 0⟩,
         ⟨"Customer Charge".data, [], F64.finite 152587890625 16⟩]) "Customer Charge".data := by
  constructor
  · decide
  · decide

/-- C2 amended: the consolidated amount for a key is the left-to-right
IEEE-754 binary64 accumulation (Python float `+=`) of the amounts of the
records normalizing to that key, in input order, starting from the first such
record's own amount; because float addition is not associative, this
accumulation — unlike its exact-rational idealization — is not invariant
under permutation of the records (see the counterexample). -/
theorem claim_C2 (cs : List ChargeF) (k : List Char) :
    amountOfF (consolidateF cs) k = accAmountF k none cs := by
  unfold consolidateF
  rw [amountOfF_foldl k cs []]
  rfl

/-- C4 counterexample: the normalizer of `electric_bill_processor.py` is not
idempotent: `"First 12 34 kWh"` normalizes to `"First 12 kWh"` (only the last
`\s*\d+\s*kWh` token matches), which normalizes again to `"First kWh"`. -/
theorem claim_C4_counterexample :
    Epb.standardize_charge_type (Epb.standardize_charge_type "First 12 34 kWh".data) ≠
      Epb.standardize_charge_type "First 12 34 kWh".data := by decide

/-- C4 amended: the normalizer returns each of its canonical table keys
unchanged (and script.py's `standardize_charge_type` returns each canonical
`CHARGE_TYPE_MAP` value unchanged); idempotence on arbitrary descriptions
fails, see the counterexample. -/
theorem claim_C4 :
    (∀ k ∈ ["Total Electric Charges", "Distribution Charge First kWh",
        "Transmission Charge First kWh", "Distribution Charge Last kWh",
        "Transmission Charge Last kWh"].map String.data,
      Epb.standardize_charge_type k = k) ∧
      ∀ p ∈ Script.CHARGE_TYPE_MAP, Script.standardize_charge_type p.2 = p.2 := by decide

/-- C4 witness: the canonical key `"Total Electric Charges"` is a fixed point. -/
theorem claim_C4_witness :
    Epb.standardize_charge_type "Total Electric Charges".data = "Total Electric Charges".data :=
  claim_C4.1 "Total Electric Charges".data (by simp)

/-- C5 counterexample: in `script.py` normalization is not total — an
unrecognized description yields `None` from `map_charge_type` and the record
is dropped by the `if mapped:` filter at the normalization step. -/
theorem claim_C5_counterexample :
    Script.map_charge_type "Mystery Fee".data = none ∧
      Script.mapFilter ["Mystery Fee".data] = [] := by decide

/-- C5 amended: in `electric_bill_processor.py` normalization is total — every
consolidated record contributes its normalized key to the mapping, and no
record is dropped at the normalization step; `script.py`'s `map_charge_type`
instead returns `None` on unknown text and its caller drops the record (see
the counterexample). -/
theorem claim_C5 (cs : List Charge) (c : Charge) (h : c ∈ cs) :
    hasKey (consolidate cs) (Epb.standardize_charge_type c.ctype) = true := by
  unfold consolidate
  rw [hasKey_foldl]
  refine Bool.or_eq_true_iff.mpr (Or.inr ?_)
  exact List.any_eq_true.mpr ⟨c, h, by simp [keyOf]⟩

/-- C5 witness: even an unrecognized description gets a key in the
consolidated mapping. -/
theorem claim_C5_witness :
    hasKey (consolidate [⟨"Mystery Fee".data, [], 5⟩])
      (Epb.standardize_charge_type "Mystery Fee".data) = true :=
  claim_C5 [⟨"Mystery Fee".data, [], 5⟩] ⟨"Mystery Fee".data, [], 5⟩ (by simp)

/-- C7 counterexample: `get_user_id` hashes the identifier without case
normalization, so the same name in different letter case receives different
userIds. -/
theorem claim_C7_counterexample :
    Script.get_user_id [] "JOHN DOE".data ≠ Script.get_user_id [] "john doe".data := by decide

/-- C7 amended: `get_user_id` of `script.py` derives the userId as the SHA-256
of the *stripped but not case-normalized* identifier: for every non-empty
identifier it is deterministic (independent of the entropy source) and stable
up to surrounding whitespace, and the fresh random id is used exactly when the
stripped identifier is empty; identical names differing only in case receive
different ids (see the counterexample). -/
theorem claim_C7 (fresh1 fresh2 n1 n2 : List Char) (h1 : stripL n1 ≠ [])
    (h2 : stripL n2 = stripL n1) :
    Script.get_user_id fresh1 n1 = sha256Hex (stripL n1) ∧
      Script.get_user_id fresh1 n1 = Script.get_user_id fresh2 n2 ∧
      ∀ fresh n, stripL n = [] → Script.get_user_id fresh n = fresh := by
  have he1 : (stripL n1).isEmpty = false := by
    cases hs : stripL n1 with
    | nil => exact absurd hs h1
    | cons a t => rfl
  have he2 : (stripL n2).isEmpty = false := by rw [h2]; exact he1
  refine ⟨?_, ?_, ?_⟩
  · show (if (stripL n1).isEmpty = true then fresh1 else sha256Hex (stripL n1)) =
      sha256Hex (stripL n1)
    rw [he1]
    rfl
  · show (if (stripL n1).isEmpty = true then fresh1 else sha256Hex (stripL n1)) =
      (if (stripL n2).isEmpty = true then fresh2 else sha256Hex (stripL n2))
    rw [he1, he2, h2]
    rfl
  · intro fresh n hn
    show (if (stripL n).isEmpty = true then fresh else sha256Hex (stripL n)) = fresh
    rw [hn]
    rfl

/-- C7 witness: the same name with surrounding whitespace maps to the same
hashed id, independent of the entropy parameter. -/
theorem claim_C7_witness :
    Script.get_user_id "u1".data "  John Doe ".data = sha256Hex (stripL "  John Doe ".data) ∧
      Script.get_user_id "u1".data "  John Doe ".data =
        Script.get_user_id "u2".data "John Doe".data ∧
      ∀ fresh n, stripL n = [] → Script.get_user_id fresh n = fresh :=
  claim_C7 "u1".data "u2".data "  John Doe ".data "John Doe".data (by decide) (by decide)

/-! ## Metadata scan lemmas (C8, C10) -/

theorem dateScan_eq_none {lines : List (List Char)}
    (h : ∀ ln ∈ lines, dateLineValue ln = none) : dateScan lines = none := by
  induction lines with
  | nil => rfl
  | cons ln t ih =>
      unfold dateScan
      rw [h ln (by simp)]
      exact ih (fun x hx => h x (by simp [hx]))

theorem firstSome_eq_none {f : List Char → Option (List Char)} {lines : List (List Char)}
    (h : ∀ ln ∈ lines, f ln = none) : Epb.firstSome f lines = none := by
  induction lines with
  | nil => rfl
  | cons ln t ih =>
      unfold Epb.firstSome
      rw [h ln (by simp)]
      exact ih (fun x hx => h x (by simp [hx]))

/-- C8 counterexample: on a page with no date-shaped line and no identifying
line, `script.py`'s extractor sets the person identifier to the non-empty
sentinel `"Unknown"`, not to an empty/absent value. -/
theorem claim_C8_counterexample :
    (Script.extract_metadata_from_pdf ["hello world".data]).billMonthYear = [] ∧
      (Script.extract_metadata_from_pdf ["hello world".data]).person = "Unknown".data ∧
      "Unknown".data ≠ ([] : List Char) := by decide

/-- C8 amended: on page text with no date-shaped line and no identifying line,
both extractors return (no exception is modelled as reachable: the absorbing
`try/except` branches are part of the embedding) with `periodMonthYear = ""`;
the identifier degrades to `""` in `electric_bill_processor.py` but to the
sentinel `"Unknown"` in `script.py` (see the counterexample). -/
theorem claim_C8 (lines : List (List Char))
    (hdate : ∀ ln ∈ lines, dateLineValue ln = none)
    (hacct : ∀ ln ∈ lines, Epb.accountFind ln = none)
    (hbill : ∀ ln ∈ lines, Epb.billIssueGo ln = none)
    (dateParse : List Char → Option (List Char)) :
    (Script.extract_metadata_from_pdf lines).billMonthYear = [] ∧
      (Script.extract_metadata_from_pdf lines).person = "Unknown".data ∧
      Epb.extract_metadata_from_pdf dateParse lines = ⟨[], []⟩ := by
  have hs : Script.extract_metadata_from_pdf lines = ⟨[], "Unknown".data⟩ := by
    unfold Script.extract_metadata_from_pdf
    rw [dateScan_eq_none hdate]
  have he : Epb.extract_metadata_from_pdf dateParse lines = ⟨[], []⟩ := by
    unfold Epb.extract_metadata_from_pdf
    rw [firstSome_eq_none hacct, firstSome_eq_none hbill]
    rfl
  exact ⟨by rw [hs], by rw [hs], he⟩

/-- C8 witness: a concrete page with neither a date-shaped nor an identifying
line. -/
theorem claim_C8_witness :
    (Script.extract_metadata_from_pdf ["hello world".data, "Customer Charge 9.19".data]
      ).billMonthYear = [] ∧
      (Script.extract_metadata_from_pdf ["hello world".data, "Customer Charge 9.19".data]
        ).person = "Unknown".data ∧
      Epb.extract_metadata_from_pdf (fun _ => none)
        ["hello world".data, "Customer Charge 9.19".data] = ⟨[], []⟩ :=
  claim_C8 ["hello world".data, "Customer Charge 9.19".data]
    (by decide) (by decide) (by decide) (fun _ => none)

/-- C9: byte-identical uploads produce the same contentHash, and when a stored
row already carries that hash the handler signals a duplicate and leaves the
store unchanged, never invoking the record builder. -/
theorem claim_C9 (store : List SheetRow) (b1 b2 : List Nat)
    (processPdf : List Nat → SheetRow) (hb : b1 = b2)
    (hdup : ∃ r ∈ store, r.billHash = md5Hex b1) :
    md5Hex b1 = md5Hex b2 ∧
      uploaded_file_handler store b1 processPdf = (UploadResult.duplicate, store) := by
  subst hb
  refine ⟨rfl, ?_⟩
  unfold uploaded_file_handler
  rw [if_pos ?_]
  obtain ⟨r, hr, he⟩ := hdup
  exact List.any_eq_true.mpr ⟨r, hr, by simp [he]⟩

/-- C9 witness: a store already containing the hash of the uploaded bytes. -/
theorem claim_C9_witness :
    md5Hex [1, 2, 3] = md5Hex [1, 2, 3] ∧
      uploaded_file_handler [⟨md5Hex [1, 2, 3], []⟩] [1, 2, 3] (fun _ => ⟨[], []⟩) =
        (UploadResult.duplicate, [⟨md5Hex [1, 2, 3], []⟩]) :=
  claim_C9 [⟨md5Hex [1, 2, 3], []⟩] [1, 2, 3] [1, 2, 3] (fun _ => ⟨[], []⟩) rfl
    ⟨⟨md5Hex [1, 2, 3], []⟩, by simp, rfl⟩

/-- C10: whenever the name heuristic finds no mostly-uppercase candidate after
the date line (including when no date line exists), the person identifier is
the literal `"Unknown"`, and `get_user_id` deterministically hashes it — the
random-uuid branch is never taken, independent of the entropy source. -/
theorem claim_C10 (lines : List (List Char))
    (h : ∀ v rest, dateScan lines = some (v, rest) → Script.nameScan rest = none) :
    (Script.extract_metadata_from_pdf lines).person = "Unknown".data ∧
      ∀ fresh : List Char,
        Script.get_user_id fresh (Script.extract_metadata_from_pdf lines).person =
          sha256Hex "Unknown".data := by
  have hp : (Script.extract_metadata_from_pdf lines).person = "Unknown".data := by
    unfold Script.extract_metadata_from_pdf
    cases hd : dateScan lines with
    | none => rfl
    | some p =>
        obtain ⟨v, rest⟩ := p
        simp only [h v rest hd]
        rfl
  refine ⟨hp, fun fresh => ?_⟩
  rw [hp]
  rfl

/-- C10 witness: a page whose date line is followed by no all-uppercase
candidate maps to the shared hash of `"Unknown"`. -/
theorem claim_C10_witness :
    (Script.extract_metadata_from_pdf
        ["January 2024".data, "account balance".data, "hello world".data]).person =
      "Unknown".data ∧
      ∀ fresh : List Char,
        Script.get_user_id fresh (Script.extract_metadata_from_pdf
          ["January 2024".data, "account balance".data, "hello world".data]).person =
            sha256Hex "Unknown".data := by
  refine claim_C10 ["January 2024".data, "account balance".data, "hello world".data] ?_
  intro v rest hd
  rw [show dateScan ["January 2024".data, "account balance".data, "hello world".data] =
    some ("01-2024".data, ["account balance".data, "hello world".data]) from by decide] at hd
  cases hd
  decide

/-! ## C6: the fallback amount parser -/

theorem cleanLine_append (a b : List Char) : cleanLine (a ++ b) = cleanLine a ++ cleanLine b :=
  List.map_append _ a b

theorem cleanLine_of_no_uminus {l : List Char} (h : ∀ c ∈ l, c ≠ '−') : cleanLine l = l := by
  unfold cleanLine
  induction l with
  | nil => rfl
  | cons c t ih =>
      simp only [List.map_cons, if_neg (h c (by simp))]
      rw [ih (fun x hx => h x (by simp [hx]))]

theorem digit_ne_uminus {c : Char} (h : c.isDigit) : c ≠ '−' := by
  intro h'
  subst h'
  simp [Char.isDigit] at h

theorem space_ne_uminus {c : Char} (h : isSpace c = true) : c ≠ '−' := by
  intro h'
  subst h'
  simp [isSpace] at h

/-- The body of a well-formed token (digits, commas, dot, cents) has no
Unicode minus. -/
theorem AmtToken.body_no_uminus {t : AmtToken} (hwf : t.wf) :
    ∀ c ∈ t.d1 ++ (t.groups.map (fun g => ',' :: g)).flatten ++ '.' :: t.cents ++ t.ws,
      c ≠ '−' := by
  obtain ⟨_, _, hd1, hg, _, hc, hw⟩ := hwf
  intro c hcm
  rcases List.mem_append.mp hcm with h2 | h
  · rcases List.mem_append.mp h2 with h3 | h4
    · rcases List.mem_append.mp h3 with h | h
      · exact digit_ne_uminus (hd1 c h)
      · obtain ⟨gl, hgl, hcg⟩ := List.mem_flatten.mp h
        obtain ⟨g, hgm, rfl⟩ := List.mem_map.mp hgl
        rcases List.mem_cons.mp hcg with rfl | hcg
        · decide
        · exact digit_ne_uminus ((hg g hgm).2 c hcg)
    · rcases List.mem_cons.mp h4 with rfl | h
      · decide
      · exact digit_ne_uminus (hc c h)
  · exact space_ne_uminus (hw c h)

/-- `cleanLine` turns a token's minus glyphs into ASCII and fixes the rest. -/
theorem AmtToken.cleanLine_render {t : AmtToken} (hwf : t.wf) :
    cleanLine t.render =
      AmtToken.render { t with uminus := false, trailU := false } := by
  have hbody := AmtToken.body_no_uminus hwf
  obtain ⟨_, _, hd1, hg, _, hc, hw⟩ := hwf
  unfold AmtToken.render
  simp only [cleanLine_append]
  have h1 : cleanLine t.d1 = t.d1 :=
    cleanLine_of_no_uminus (fun c hc' => digit_ne_uminus (hd1 c hc'))
  have h2 : cleanLine ((t.groups.map (fun g => ',' :: g)).flatten) =
      (t.groups.map (fun g => ',' :: g)).flatten := by
    refine cleanLine_of_no_uminus ?_
    intro c hcm
    simp only [List.mem_flatten, List.mem_map] at hcm
    obtain ⟨gl, ⟨g, hgm, rfl⟩, hcg⟩ := hcm
    rcases List.mem_cons.mp hcg with rfl | hcg
    · decide
    · exact digit_ne_uminus ((hg g hgm).2 c hcg)
  have h3 : cleanLine ('.' :: t.cents) = '.' :: t.cents := by
    refine cleanLine_of_no_uminus ?_
    intro c hcm
    rcases List.mem_cons.mp hcm with rfl | hcm
    · decide
    · exact digit_ne_uminus (hc c hcm)
  have h4 : cleanLine t.ws = t.ws :=
    cleanLine_of_no_uminus (fun c hc' => space_ne_uminus (hw c hc'))
  have h5 : cleanLine (if t.neg then [if t.uminus then '−' else '-'] else []) =
      (if t.neg then ['-'] else []) := by
    cases t.neg <;> cases t.uminus <;> rfl
  have h6 : cleanLine (if t.trail then [if t.trailU then '−' else '-'] else []) =
      (if t.trail then ['-'] else []) := by
    cases t.trail <;> cases t.trailU <;> rfl
  rw [h1, h2, h3, h4, h5, h6]
  simp [List.append_assoc]

theorem takeWhile_dropWhile_append {p : Char → Bool} (d rest : List Char)
    (hd : ∀ c ∈ d, p c = true) (hr : ∀ c, rest.head? = some c → p c = false) :
    (d ++ rest).takeWhile p = d ∧ (d ++ rest).dropWhile p = rest := by
  induction d with
  | nil =>
      cases rest with
      | nil => exact ⟨rfl, rfl⟩
      | cons c t => simp [List.takeWhile_cons, List.dropWhile_cons, hr c rfl]
  | cons c d ih =>
      have hc := hd c (by simp)
      have ih2 := ih (fun x hx => hd x (by simp [hx]))
      simp [List.takeWhile_cons, List.dropWhile_cons, hc, ih2.1, ih2.2]

theorem parseGroups_spec : ∀ l : List Char, (parseGroups l).1 ++ (parseGroups l).2 = l ∧
    ∀ c ∈ (parseGroups l).1, c = ',' ∨ c.isDigit = true
  | [] => by simp [parseGroups]
  | [a] => by simp [parseGroups]
  | [a, b] => by simp [parseGroups]
  | [a, b, c] => by simp [parseGroups]
  | c0 :: a :: b :: c :: r => by
      unfold parseGroups
      split
      · next hcond =>
          simp only [Bool.and_eq_true, decide_eq_true_eq] at hcond
          obtain ⟨⟨⟨h0, ha⟩, hb⟩, hc⟩ := hcond
          have ih := parseGroups_spec r
          constructor
          · simp [ih.1]
          · intro x hx
            rcases List.mem_cons.mp hx with rfl | hx
            · exact Or.inl h0
            · rcases List.mem_cons.mp hx with rfl | hx
              · exact Or.inr ha
              · rcases List.mem_cons.mp hx with rfl | hx
                · exact Or.inr hb
                · rcases List.mem_cons.mp hx with rfl | hx
                  · exact Or.inr hc
                  · exact ih.2 x hx
      · simp

theorem parseGroups_not_comma : ∀ {l : List Char}, (∀ c, l.head? = some c → ¬ c = ',') →
    parseGroups l = ([], l)
  | [], _ => rfl
  | [a], _ => rfl
  | [a, b], _ => rfl
  | [a, b, c], _ => rfl
  | a :: b :: c :: d :: r, h => by
      unfold parseGroups
      rw [if_neg]
      intro hcond
      rw [Bool.and_eq_true, Bool.and_eq_true, Bool.and_eq_true] at hcond
      exact absurd (of_decide_eq_true hcond.1.1.1) (h a rfl)

theorem parseGroups_render : ∀ (gs : List (List Char)) (rest : List Char),
    (∀ g ∈ gs, g.length = 3 ∧ ∀ c ∈ g, c.isDigit = true) →
    (∀ c, rest.head? = some c → ¬ c = ',') →
    parseGroups ((gs.map (fun g => ',' :: g)).flatten ++ rest) =
      ((gs.map (fun g => ',' :: g)).flatten, rest)
  | [], rest, _, hrest => by
      simp only [List.map_nil, List.flatten_nil, List.nil_append]
      exact parseGroups_not_comma hrest
  | g :: gs, rest, hg, hrest => by
      obtain ⟨x, y, z, rfl⟩ := List.length_eq_three.mp (hg g (by simp)).1
      have hx : x.isDigit = true := (hg [x, y, z] (by simp)).2 x (by simp)
      have hy : y.isDigit = true := (hg [x, y, z] (by simp)).2 y (by simp)
      have hz : z.isDigit = true := (hg [x, y, z] (by simp)).2 z (by simp)
      have ih := parseGroups_render gs rest (fun g' hg' => hg g' (by simp [hg'])) hrest
      simp only [List.map_cons, List.flatten_cons, List.cons_append, List.append_assoc]
      unfold parseGroups
      rw [if_pos (by simp [hx, hy, hz])]
      simp only [List.append_assoc] at ih
      simp [ih]

theorem digit_not_space {c : Char} (h : c.isDigit = true) : isSpace c = false := by
  by_contra hs
  simp only [Bool.not_eq_false, isSpace, Bool.or_eq_true, decide_eq_true_eq] at hs
  rcases hs with ((((h1 | h1) | h1) | h1) | h1) | h1 <;> subst h1 <;> simp [Char.isDigit] at h

theorem digit_ne_minus {c : Char} (h : c.isDigit = true) : ¬ c = '-' := by
  intro h'
  subst h'
  simp [Char.isDigit] at h

theorem space_ne_minus {c : Char} (h : isSpace c = true) : ¬ c = '-' := by
  intro h'
  subst h'
  simp [isSpace] at h

theorem comma_or_digit_not_space {c : Char} (h : c = ',' ∨ c.isDigit = true) :
    isSpace c = false := by
  rcases h with rfl | h
  · rfl
  · exact digit_not_space h

theorem amtTail_cons (amount : List Char) (m : Char) (r3 : List Char) :
    amtTail amount (m :: r3) =
      if m = '-' then (if r3.all isSpace then some ⟨amount, true⟩ else none)
      else (if (m :: r3).all isSpace then some ⟨amount, false⟩ else none) := rfl

theorem amtTail_nil (amount : List Char) : amtTail amount [] = some ⟨amount, false⟩ := rfl

theorem amtSign_spec (l : List Char) : (amtSign l).1 ++ (amtSign l).2 = l ∧
    ∀ c ∈ (amtSign l).1, c = '-' := by
  cases l with
  | nil => simp [amtSign]
  | cons c t =>
      by_cases hc : c = '-'
      · subst hc; simp [amtSign]
      · simp [amtSign, hc]

/-- Shape of a successful amount match: a whitespace-free front followed by an
all-whitespace tail. -/
theorem matchAmtAt_shape {l : List Char} {m : AmtMatch} (h : matchAmtAt l = some m) :
    ∃ P W, l = P ++ W ∧ (∀ c ∈ P, isSpace c = false) ∧ (∀ c ∈ W, isSpace c = true) := by
  unfold matchAmtAt amtBody at h
  obtain ⟨hsplit, hsign⟩ := amtSign_spec l
  set s1 := (amtSign l).1 with hs1
  set rest := (amtSign l).2 with hrest
  by_cases hd1 : (rest.takeWhile Char.isDigit).isEmpty || 3 < (rest.takeWhile Char.isDigit).length
  · rw [if_pos hd1] at h; cases h
  rw [if_neg hd1] at h
  have hdig : ∀ c ∈ rest.takeWhile Char.isDigit, c.isDigit = true :=
    fun c hc => List.mem_takeWhile_imp hc
  have hrw : rest.takeWhile Char.isDigit ++ rest.dropWhile Char.isDigit = rest :=
    List.takeWhile_append_dropWhile _ _
  obtain ⟨hgs, hgchars⟩ := parseGroups_spec (rest.dropWhile Char.isDigit)
  split at h
  · next gs d a b r2 heq =>
      rw [heq] at hgs hgchars
      simp only at hgs hgchars
      by_cases hcond : (d = '.' && a.isDigit && b.isDigit) = true
      · rw [if_pos hcond] at h
        simp only [Bool.and_eq_true, decide_eq_true_eq] at hcond
        obtain ⟨⟨hdq, haq⟩, hbq⟩ := hcond
        have hfront : ∀ c ∈ s1 ++ rest.takeWhile Char.isDigit ++ gs ++ [d, a, b],
            isSpace c = false := by
          intro c hc
          rcases List.mem_append.mp hc with hc | hc
          · rcases List.mem_append.mp hc with hc | hc
            · rcases List.mem_append.mp hc with hc | hc
              · rw [hsign c hc]; rfl
              · exact digit_not_space (hdig c hc)
            · exact comma_or_digit_not_space (hgchars c hc)
          · rcases List.mem_cons.mp hc with rfl | hc
            · rw [hdq]; rfl
            · rcases List.mem_cons.mp hc with rfl | hc
              · exact digit_not_space haq
              · rcases List.mem_cons.mp hc with rfl | hc
                · exact digit_not_space hbq
                · cases hc
        have hl : l = (s1 ++ rest.takeWhile Char.isDigit ++ gs ++ [d, a, b]) ++ r2 := by
          conv_lhs => rw [← hsplit, ← hrw, ← hgs]
          simp [List.append_assoc]
        cases hr2 : r2 with
        | nil =>
            refine ⟨_, [], by simpa [hr2] using hl, hfront, by simp⟩
        | cons m' r3 =>
            rw [hr2] at h hl
            rw [amtTail_cons] at h
            by_cases hm : m' = '-'
            · rw [if_pos hm] at h
              by_cases hsp : r3.all isSpace
              · refine ⟨s1 ++ rest.takeWhile Char.isDigit ++ gs ++ [d, a, b] ++ [m'], r3,
                  by simpa [List.append_assoc] using hl, ?_, fun c hc =>
                    List.all_eq_true.mp hsp c hc⟩
                intro c hc
                rcases List.mem_append.mp hc with hc | hc
                · exact hfront c (by simpa [List.append_assoc] using hc)
                · rcases List.mem_cons.mp hc with rfl | hc
                  · rw [hm]; rfl
                  · cases hc
              · rw [if_neg hsp] at h; cases h
            · rw [if_neg hm] at h
              by_cases hsp : (m' :: r3).all isSpace
              · exact ⟨_, m' :: r3, hl, hfront, fun c hc => List.all_eq_true.mp hsp c hc⟩
              · rw [if_neg hsp] at h; cases h
      · rw [if_neg hcond] at h; cases h
  · cases h

/-- A space followed by a non-space anywhere in the line defeats the anchored
amount match. -/
theorem matchAmtAt_space_break {x y : List Char} {d : Char} (hd : isSpace d = false) :
    matchAmtAt (x ++ ' ' :: d :: y) = none := by
  cases hmm : matchAmtAt (x ++ ' ' :: d :: y) with
  | none => rfl
  | some m =>
      obtain ⟨P, W, hl, hP, hW⟩ := matchAmtAt_shape hmm
      exfalso
      rcases List.append_eq_append_iff.mp hl with ⟨a, hPa, hrest⟩ | ⟨c', hxc, hWc⟩
      · cases a with
        | nil =>
            simp only [List.nil_append] at hrest
            have hds : isSpace d = true := hW d (by rw [← hrest]; simp)
            rw [hds] at hd
            cases hd
        | cons s a2 =>
            have hrest2 : ' ' :: (d :: y) = s :: (a2 ++ W) := by simpa using hrest
            injection hrest2 with h1 h2
            have hs : isSpace s = false := hP s (by rw [hPa]; simp)
            rw [← h1] at hs
            simp [isSpace] at hs
      · have hds : isSpace d = true := hW d (by rw [hWc]; simp)
        rw [hds] at hd
        cases hd

/-- The amount tail on a rendered optional trailing minus plus whitespace. -/
theorem amtTail_render (amt : List Char) (trail : Bool) (ws : List Char)
    (hws : ∀ c ∈ ws, isSpace c = true) :
    amtTail amt ((if trail then ['-'] else []) ++ ws) = some ⟨amt, trail⟩ := by
  cases trail with
  | true =>
      show amtTail amt ('-' :: ws) = some ⟨amt, true⟩
      rw [amtTail_cons, if_pos rfl, if_pos (List.all_eq_true.mpr hws)]
  | false =>
      show amtTail amt ws = some ⟨amt, false⟩
      cases ws with
      | nil => exact amtTail_nil amt
      | cons w ws2 =>
          rw [amtTail_cons, if_neg (space_ne_minus (hws w (by simp))),
            if_pos (List.all_eq_true.mpr hws)]

/-- The amount body on a rendered token tail. -/
theorem amtBody_render (sign1 d1 : List Char) (gs : List (List Char)) (a b : Char)
    (TW : List Char) (hne : d1 ≠ []) (hlen : d1.length ≤ 3)
    (hd1 : ∀ c ∈ d1, c.isDigit = true)
    (hg : ∀ g ∈ gs, g.length = 3 ∧ ∀ c ∈ g, c.isDigit = true)
    (ha : a.isDigit = true) (hb : b.isDigit = true) :
    amtBody sign1 (d1 ++ ((gs.map (fun g => ',' :: g)).flatten ++ '.' :: a :: b :: TW)) =
      amtTail (sign1 ++ d1 ++ (gs.map (fun g => ',' :: g)).flatten ++ ['.', a, b]) TW := by
  have hrest_head : ∀ c, ((gs.map (fun g => ',' :: g)).flatten ++ '.' :: a :: b :: TW).head? =
      some c → Char.isDigit c = false := by
    intro c hc
    cases gs with
    | nil =>
        simp only [List.map_nil, List.flatten_nil, List.nil_append, List.head?_cons,
          Option.some.injEq] at hc
        subst hc
        rfl
    | cons g gs2 =>
        obtain ⟨x, y, z, rfl⟩ := List.length_eq_three.mp (hg g (by simp)).1
        simp only [List.map_cons, List.flatten_cons, List.cons_append, List.head?_cons,
          Option.some.injEq] at hc
        subst hc
        rfl
  obtain ⟨htake, hdrop⟩ :=
    takeWhile_dropWhile_append d1 ((gs.map (fun g => ',' :: g)).flatten ++ '.' :: a :: b :: TW)
      hd1 hrest_head
  have hpg := parseGroups_render gs ('.' :: a :: b :: TW) hg (by
    intro c hc
    simp only [List.head?_cons, Option.some.injEq] at hc
    subst hc
    decide)
  have hemp : d1.isEmpty = false := by
    cases hd : d1 with
    | nil => exact absurd hd hne
    | cons _ _ => rfl
  have hcond : ¬ (d1.isEmpty || decide (3 < d1.length)) = true := by
    rw [hemp]
    simp only [Bool.false_or, decide_eq_true_eq]
    omega
  unfold amtBody
  rw [htake, hdrop, hpg, if_neg hcond]
  show (if (decide ((('.' : Char)) = '.') && a.isDigit && b.isDigit) = true then
    amtTail (sign1 ++ d1 ++ (gs.map (fun g => ',' :: g)).flatten ++ ['.', a, b]) TW
    else none) = amtTail (sign1 ++ d1 ++ (gs.map (fun g => ',' :: g)).flatten ++ ['.', a, b]) TW
  rw [if_pos (by simp [ha, hb])]

theorem amtSign_minus (tl : List Char) : amtSign ('-' :: tl) = (['-'], tl) := by
  show (if ('-' : Char) = '-' then ((['-'] : List Char), tl) else ([], '-' :: tl)) = (['-'], tl)
  rw [if_pos rfl]

theorem amtSign_other {c : Char} (tl : List Char) (h : ¬ c = '-') :
    amtSign (c :: tl) = ([], c :: tl) := by
  show (if c = '-' then ((['-'] : List Char), tl) else ([], c :: tl)) = ([], c :: tl)
  rw [if_neg h]

theorem amtSign_render (neg : Bool) (R : List Char) (hR : ∀ c, R.head? = some c → ¬ c = '-') :
    amtSign ((if neg then ['-'] else []) ++ R) = ((if neg then ['-'] else []), R) := by
  cases neg with
  | false =>
      cases R with
      | nil => rfl
      | cons c tl =>
          show amtSign (c :: tl) = ([], c :: tl)
          exact amtSign_other tl (hR c rfl)
  | true =>
      show amtSign ('-' :: R) = (['-'], R)
      exact amtSign_minus R

/-- A successful match of the pattern against a rendered ASCII token. -/
theorem matchAmtAt_render (t : AmtToken) (hwf : t.wf) (hu : t.uminus = false)
    (htu : t.trailU = false) :
    matchAmtAt t.render =
      some ⟨(if t.neg then ['-'] else []) ++ t.d1 ++
        (t.groups.map (fun g => ',' :: g)).flatten ++ '.' :: t.cents, t.trail⟩ := by
  obtain ⟨hne, hlen, hd1, hg, hclen, hcd, hws⟩ := hwf
  obtain ⟨a, b, hab⟩ := List.length_eq_two.mp hclen
  have ha : a.isDigit = true := hcd a (by rw [hab]; simp)
  have hb : b.isDigit = true := hcd b (by rw [hab]; simp)
  obtain ⟨c, d1t, hcd1⟩ : ∃ c d1t, t.d1 = c :: d1t := by
    cases hd : t.d1 with
    | nil => exact absurd hd hne
    | cons c d1t => exact ⟨c, d1t, rfl⟩
  have hrender : t.render = (if t.neg then ['-'] else []) ++
      (t.d1 ++ ((t.groups.map (fun g => ',' :: g)).flatten ++ '.' :: a :: b ::
        ((if t.trail then ['-'] else []) ++ t.ws))) := by
    unfold AmtToken.render
    rw [hu, htu, hab]
    simp [List.append_assoc]
  have hRhead : ∀ x, (t.d1 ++ ((t.groups.map (fun g => ',' :: g)).flatten ++ '.' :: a :: b ::
      ((if t.trail then ['-'] else []) ++ t.ws))).head? = some x → ¬ x = '-' := by
    intro x hx
    rw [hcd1] at hx
    simp only [List.cons_append, List.head?_cons, Option.some.injEq] at hx
    subst hx
    exact digit_ne_minus (hd1 c (by rw [hcd1]; simp))
  have hsign := amtSign_render t.neg _ hRhead
  have hbody := amtBody_render (if t.neg then ['-'] else []) t.d1 t.groups a b
    ((if t.trail then ['-'] else []) ++ t.ws) hne hlen hd1 hg ha hb
  unfold matchAmtAt
  rw [hrender, hsign]
  simp only
  rw [hbody, amtTail_render _ _ _ hws, hab]

theorem searchAmt_head {l : List Char} {m : AmtMatch} (hne : l ≠ [])
    (hm : matchAmtAt l = some m) : searchAmt l = some ([], m) := by
  cases l with
  | nil => exact absurd rfl hne
  | cons c t =>
      unfold searchAmt
      rw [hm]

theorem searchAmt_pre : ∀ (p : List Char) {d : Char} {y : List Char} {m : AmtMatch},
    isSpace d = false → matchAmtAt (d :: y) = some m →
    searchAmt (p ++ ' ' :: d :: y) = some (p ++ [' '], m)
  | [], d, y, m, hd, hm => by
      show searchAmt (' ' :: d :: y) = some ([' '], m)
      unfold searchAmt
      rw [show matchAmtAt (' ' :: d :: y) = none from matchAmtAt_space_break (x := []) hd]
      show Option.map (fun p => (' ' :: p.1, p.2)) (searchAmt (d :: y)) = some ([' '], m)
      rw [searchAmt_head (by simp) hm]
      rfl
  | c :: p2, d, y, m, hd, hm => by
      have ih := searchAmt_pre p2 hd hm
      show searchAmt (c :: (p2 ++ ' ' :: d :: y)) = some ((c :: p2) ++ [' '], m)
      unfold searchAmt
      have hnone : matchAmtAt (c :: (p2 ++ ' ' :: d :: y)) = none := by
        rw [← List.cons_append]
        exact matchAmtAt_space_break hd
      rw [hnone]
      show Option.map (fun p => (c :: p.1, p.2)) (searchAmt (p2 ++ ' ' :: d :: y)) =
        some ((c :: p2) ++ [' '], m)
      rw [ih]
      rfl

theorem digit_ne_comma {c : Char} (h : c.isDigit = true) : ¬ c = ',' := by
  intro h'
  subst h'
  simp [Char.isDigit] at h

theorem filter_comma_flatten (gs : List (List Char))
    (hg : ∀ g ∈ gs, g.length = 3 ∧ ∀ c ∈ g, c.isDigit = true) :
    ((gs.map (fun g => ',' :: g)).flatten).filter (fun c => c ≠ ',') = gs.flatten := by
  induction gs with
  | nil => rfl
  | cons g gs2 ih =>
      simp only [List.map_cons, List.flatten_cons, List.filter_append, List.filter_cons]
      rw [ih (fun g2 h2 => hg g2 (by simp [h2])), if_neg (by simp),
        List.filter_eq_self.mpr
          (fun c hc => by simpa using digit_ne_comma ((hg g (by simp)).2 c hc))]

theorem floatQ_minus (tl : List Char) : floatQ ('-' :: tl) = -(floatQAbs tl) := rfl

theorem floatQ_other {c : Char} (tl : List Char) (h : ¬ c = '-') :
    floatQ (c :: tl) = floatQAbs (c :: tl) := by
  show (if c = '-' then -(floatQAbs tl) else floatQAbs (c :: tl)) = floatQAbs (c :: tl)
  rw [if_neg h]

theorem floatQAbs_decimal (D : List Char) (a b : Char) (hD : ∀ c ∈ D, c.isDigit = true)
    (ha : a.isDigit = true) (hb : b.isDigit = true) :
    floatQAbs (D ++ '.' :: [a, b]) = (digitsVal D : ℚ) + (digitsVal [a, b] : ℚ) / 100 := by
  obtain ⟨htake, hdrop⟩ := takeWhile_dropWhile_append D ('.' :: [a, b]) hD
    (by intro c hc; simp only [List.head?_cons, Option.some.injEq] at hc; subst hc; rfl)
  have hfr : ([a, b].takeWhile Char.isDigit) = [a, b] := by
    simp [List.takeWhile_cons, ha, hb]
  unfold floatQAbs
  rw [htake, hdrop]
  show (digitsVal D : ℚ) +
      (digitsVal ([a, b].takeWhile Char.isDigit) : ℚ) /
        ((10 : ℚ) ^ ([a, b].takeWhile Char.isDigit).length) =
    (digitsVal D : ℚ) + (digitsVal [a, b] : ℚ) / 100
  rw [hfr]
  norm_num

theorem isPrefixOf_minus_cons (Y : List Char) : ['-'].isPrefixOf ('-' :: Y) = true := by
  simp [List.isPrefixOf]

theorem isPrefixOf_minus_digit {c : Char} (Y : List Char) (hc : c.isDigit = true) :
    ['-'].isPrefixOf (c :: Y) = false := by
  have hne : ('-' == c) = false := by
    rw [beq_eq_false_iff_ne]
    exact Ne.symm (digit_ne_minus hc)
  simp [List.isPrefixOf, hne]

theorem filter_amt_body (t : AmtToken) (hwf : t.wf) :
    (t.d1 ++ (t.groups.map (fun g => ',' :: g)).flatten ++ '.' :: t.cents).filter
        (fun c => c ≠ ',') =
      t.d1 ++ t.groups.flatten ++ '.' :: t.cents := by
  obtain ⟨hne, hlen, hd1, hg, hclen, hcd, hws⟩ := hwf
  simp only [List.filter_append]
  rw [List.filter_eq_self.mpr (fun c hc => by simpa using digit_ne_comma (hd1 c hc)),
    filter_comma_flatten t.groups hg, List.filter_cons, if_pos (by decide),
    List.filter_eq_self.mpr (fun c hc => by simpa using digit_ne_comma (hcd c hc))]

theorem floatQAbs_body (t : AmtToken) (hwf : t.wf) :
    floatQAbs (t.d1 ++ t.groups.flatten ++ '.' :: t.cents) =
      (digitsVal (t.d1 ++ t.groups.flatten) : ℚ) + (digitsVal t.cents : ℚ) / 100 := by
  obtain ⟨hne, hlen, hd1, hg, hclen, hcd, hws⟩ := hwf
  obtain ⟨a, b, hab⟩ := List.length_eq_two.mp hclen
  have hD : ∀ c ∈ t.d1 ++ t.groups.flatten, c.isDigit = true := by
    intro c hc
    rcases List.mem_append.mp hc with h | h
    · exact hd1 c h
    · obtain ⟨g, hgmem, hcg⟩ := List.mem_flatten.mp h
      exact (hg g hgmem).2 c hcg
  rw [hab, floatQAbs_decimal _ a b hD (hcd a (by rw [hab]; simp)) (hcd b (by rw [hab]; simp))]

theorem render_head (t : AmtToken) (hwf : t.wf) (hu : t.uminus = false) :
    ∃ d y, t.render = d :: y ∧ isSpace d = false := by
  obtain ⟨hne, hlen, hd1, hg, hclen, hcd, hws⟩ := hwf
  cases hn : t.neg with
  | true =>
      refine ⟨'-', t.d1 ++ (t.groups.map (fun g => ',' :: g)).flatten ++ '.' :: t.cents ++
        (if t.trail then [if t.trailU then '−' else '-'] else []) ++ t.ws, ?_, by decide⟩
      unfold AmtToken.render
      rw [hu, hn]
      simp [List.append_assoc]
  | false =>
      obtain ⟨c, d1t, hcd1⟩ : ∃ c d1t, t.d1 = c :: d1t := by
        cases hd : t.d1 with
        | nil => exact absurd hd hne
        | cons c d1t => exact ⟨c, d1t, rfl⟩
      refine ⟨c, d1t ++ (t.groups.map (fun g => ',' :: g)).flatten ++ '.' :: t.cents ++
        (if t.trail then [if t.trailU then '−' else '-'] else []) ++ t.ws, ?_,
        digit_not_space (hd1 c (by rw [hcd1]; simp))⟩
      unfold AmtToken.render
      rw [hu, hn, hcd1]
      simp [List.append_assoc]

theorem fallback_amount (pre : List Char) (t : AmtToken) (hwf : t.wf)
    (hu : t.uminus = false) (htu : t.trailU = false)
    (hpre : pre = [] ∨ ∃ q, pre = q ++ [' ']) :
    (Epb.process_fallback_row (pre ++ t.render)).map FallbackRow.amount = some t.value := by
  have hm := matchAmtAt_render t hwf hu htu
  obtain ⟨d, y, hdy, hds⟩ := render_head t hwf hu
  have hsearch : searchAmt (pre ++ t.render) =
      some (pre, ⟨(if t.neg then ['-'] else []) ++ t.d1 ++
        (t.groups.map (fun g => ',' :: g)).flatten ++ '.' :: t.cents, t.trail⟩) := by
    rcases hpre with rfl | ⟨q, rfl⟩
    · simpa using searchAmt_head (by rw [hdy]; simp) hm
    · rw [hdy] at hm
      rw [show (q ++ [' ']) ++ t.render = q ++ ' ' :: d :: y from by
        rw [hdy]; simp [List.append_assoc]]
      exact searchAmt_pre q hds hm
  have hrow : (Epb.process_fallback_row (pre ++ t.render)).map FallbackRow.amount =
      some (floatQ ((if t.trail && !(['-'].isPrefixOf ((if t.neg then ['-'] else []) ++ t.d1 ++
          (t.groups.map (fun g => ',' :: g)).flatten ++ '.' :: t.cents)) then
        '-' :: ((if t.neg then ['-'] else []) ++ t.d1 ++
          (t.groups.map (fun g => ',' :: g)).flatten ++ '.' :: t.cents)
        else ((if t.neg then ['-'] else []) ++ t.d1 ++
          (t.groups.map (fun g => ',' :: g)).flatten ++ '.' :: t.cents)).filter
        (fun c => c ≠ ','))) := by
    unfold Epb.process_fallback_row
    rw [hsearch]
    cases hs : splitFirst "X $".data (stripL pre) <;> simp only [hs] <;> rfl
  rw [hrow]
  obtain ⟨hne, hlen, hd1, hg, hclen, hcd, hws⟩ := hwf
  congr 1
  cases hn : t.neg with
  | true =>
      rw [show (if (true : Bool) = true then ['-'] else []) ++ t.d1 ++
          (t.groups.map (fun g => ',' :: g)).flatten ++ '.' :: t.cents =
        '-' :: (t.d1 ++ (t.groups.map (fun g => ',' :: g)).flatten ++ '.' :: t.cents) from by
          simp [List.append_assoc]]
      rw [isPrefixOf_minus_cons]
      simp only [Bool.not_true, Bool.and_false, Bool.false_eq_true, if_false]
      rw [show ('-' :: (t.d1 ++ (t.groups.map (fun g => ',' :: g)).flatten ++
          '.' :: t.cents)).filter (fun c => c ≠ ',') =
        '-' :: ((t.d1 ++ (t.groups.map (fun g => ',' :: g)).flatten ++
          '.' :: t.cents).filter (fun c => c ≠ ',')) from by simp [List.filter_cons]]
      rw [filter_amt_body t ⟨hne, hlen, hd1, hg, hclen, hcd, hws⟩, floatQ_minus,
        floatQAbs_body t ⟨hne, hlen, hd1, hg, hclen, hcd, hws⟩]
      simp [AmtToken.value, hn]
  | false =>
      obtain ⟨c, d1t, hcd1⟩ : ∃ c d1t, t.d1 = c :: d1t := by
        cases hd : t.d1 with
        | nil => exact absurd hd hne
        | cons c d1t => exact ⟨c, d1t, rfl⟩
      have hcdig : c.isDigit = true := hd1 c (by rw [hcd1]; simp)
      have hA : (if (false : Bool) = true then ['-'] else []) ++ t.d1 ++
          (t.groups.map (fun g => ',' :: g)).flatten ++ '.' :: t.cents =
        t.d1 ++ (t.groups.map (fun g => ',' :: g)).flatten ++ '.' :: t.cents := by
        simp
      have hBc : t.d1 ++ (t.groups.map (fun g => ',' :: g)).flatten ++ '.' :: t.cents =
          c :: (d1t ++ (t.groups.map (fun g => ',' :: g)).flatten ++ '.' :: t.cents) := by
        rw [hcd1]; simp [List.append_assoc]
      have hpref : ['-'].isPrefixOf (t.d1 ++ (t.groups.map (fun g => ',' :: g)).flatten ++
          '.' :: t.cents) = false := by
        rw [hBc]
        exact isPrefixOf_minus_digit _ hcdig
      rw [hA, hpref]
      cases ht : t.trail with
      | false =>
          simp only [Bool.false_and, Bool.false_eq_true, if_false]
          have hBc2 : t.d1 ++ t.groups.flatten ++ '.' :: t.cents =
              c :: (d1t ++ t.groups.flatten ++ '.' :: t.cents) := by
            rw [hcd1]; simp [List.append_assoc]
          rw [filter_amt_body t ⟨hne, hlen, hd1, hg, hclen, hcd, hws⟩, hBc2,
            floatQ_other _ (digit_ne_minus hcdig), ← hBc2,
            floatQAbs_body t ⟨hne, hlen, hd1, hg, hclen, hcd, hws⟩]
          simp [AmtToken.value, hn, ht]
      | true =>
          simp only [Bool.not_false, Bool.true_and, if_true]
          rw [show ('-' :: (t.d1 ++ (t.groups.map (fun g => ',' :: g)).flatten ++
              '.' :: t.cents)).filter (fun c => c ≠ ',') =
            '-' :: ((t.d1 ++ (t.groups.map (fun g => ',' :: g)).flatten ++
              '.' :: t.cents).filter (fun c => c ≠ ',')) from by simp [List.filter_cons]]
          rw [filter_amt_body t ⟨hne, hlen, hd1, hg, hclen, hcd, hws⟩, floatQ_minus,
            floatQAbs_body t ⟨hne, hlen, hd1, hg, hclen, hcd, hws⟩]
          simp [AmtToken.value, hn, ht]

/-! ## Character-class, run and crossing lemmas for the tier-variant analysis -/

theorem ne_of_flag {f : Char → Bool} {c d : Char} (h : f c = true) (hd : f d = false) :
    ¬ c = d := by
  intro e
  rw [e, hd] at h
  exact Bool.false_ne_true h

theorem space_not_digit {c : Char} (h : isSpace c = true) : c.isDigit = false := by
  by_contra hne
  rw [Bool.not_eq_false] at hne
  rw [digit_not_space hne] at h
  exact Bool.false_ne_true h

theorem isWordC_of_digit {c : Char} (h : c.isDigit = true) : isWordC c = true := by
  simp [isWordC, Char.isAlphanum, h]

theorem dropWhile_append_head_false {p : Char → Bool} {d : Char} (a Y : List Char)
    (hd : p d = false) : (a ++ d :: Y).dropWhile p = a.dropWhile p ++ d :: Y := by
  induction a with
  | nil => simp [List.dropWhile_cons, hd]
  | cons c t ih =>
      by_cases hc : p c
      · simp [List.dropWhile_cons, hc, ih]
      · simp [List.dropWhile_cons, hc]

theorem takeWhile_append_head_false {p : Char → Bool} {d : Char} (a Y : List Char)
    (hd : p d = false) : (a ++ d :: Y).takeWhile p = a.takeWhile p := by
  induction a with
  | nil => simp [List.takeWhile_cons, hd]
  | cons c t ih =>
      by_cases hc : p c
      · simp [List.takeWhile_cons, hc, ih]
      · simp [List.takeWhile_cons, hc]

theorem dropWhile_head_false {p : Char → Bool} (l : List Char) :
    ∀ {c t}, l.dropWhile p = c :: t → p c = false := by
  induction l with
  | nil => intro c t h; simp at h
  | cons x xs ih =>
      intro c t h
      rw [List.dropWhile_cons] at h
      by_cases hx : p x
      · rw [if_pos hx] at h
        exact ih h
      · rw [if_neg hx] at h
        injection h with h1 h2
        rw [← h1]
        simpa using hx

theorem isPrefixOf_cross {d : Char} (hd : d.isDigit = true) :
    ∀ (p σ r : List Char), (∀ c ∈ p, c.isDigit = false) →
      p.isPrefixOf (σ ++ d :: r) = p.isPrefixOf σ
  | [], σ, r, _ => by cases σ <;> rfl
  | x :: p2, [], r, hp => by
      have hx : (x == d) = false :=
        beq_eq_false_iff_ne.mpr (Ne.symm (ne_of_flag hd (hp x (by simp))))
      simp [List.isPrefixOf, hx]
  | x :: p2, c :: σ2, r, hp => by
      simp only [List.cons_append, List.isPrefixOf]
      rw [show σ2.append (d :: r) = σ2 ++ d :: r from rfl,
        isPrefixOf_cross hd p2 σ2 r (fun a ha => hp a (by simp [ha]))]

theorem prefix_fit {d : Char} (hd : d.isDigit = true) :
    ∀ (p pre r : List Char), (∀ c ∈ p, c.isDigit = false) →
      p <+: pre ++ d :: r → p <+: pre := by
  intro p
  induction p with
  | nil => intro pre r _ _; exact List.nil_prefix
  | cons x p2 ih =>
      intro pre r hp h
      cases pre with
      | nil =>
          obtain ⟨t, ht⟩ := h
          rw [List.cons_append] at ht
          injection ht with h1 h2
          exact absurd h1.symm (ne_of_flag hd (hp x (by simp)))
      | cons c pre2 =>
          obtain ⟨t, ht⟩ := h
          rw [List.cons_append] at ht
          injection ht with h1 h2
          subst h1
          rw [List.cons_prefix_cons]
          exact ⟨rfl, ih pre2 r (fun a ha => hp a (by simp [ha])) ⟨t, h2⟩⟩

theorem infix_drop_digits {p : List Char} (hp : ∀ c ∈ p, c.isDigit = false) :
    ∀ (ds rest : List Char), (∀ c ∈ ds, c.isDigit = true) →
      p <:+: ds ++ rest → p <:+: rest := by
  intro ds
  induction ds with
  | nil => intro rest _ h; simpa using h
  | cons d dr ih =>
      intro rest hds h
      rw [List.cons_append, List.infix_cons_iff] at h
      rcases h with h | h
      · cases hp0 : p with
        | nil => exact List.nil_infix
        | cons x p2 =>
            rw [hp0] at h
            obtain ⟨t, ht⟩ := h
            rw [List.cons_append] at ht
            injection ht with h1 h2
            exact absurd h1.symm
              (ne_of_flag (hds d (by simp)) (hp x (by rw [hp0]; simp)))
      · exact ih rest (fun c hc => hds c (by simp [hc])) h

theorem infix_cross {p : List Char} (hp : ∀ c ∈ p, c.isDigit = false) :
    ∀ (pre ds rest : List Char), ds ≠ [] → (∀ c ∈ ds, c.isDigit = true) →
      (p <:+: pre ++ ds ++ rest ↔ p <:+: pre ∨ p <:+: rest) := by
  intro pre
  induction pre with
  | nil =>
      intro ds rest hne hds
      constructor
      · intro h
        exact Or.inr (infix_drop_digits hp ds rest hds (by simpa using h))
      · rintro (h | h)
        · rw [List.infix_nil] at h
          subst h
          exact List.nil_infix
        · simpa using h.trans (List.suffix_append ds rest).isInfix
  | cons c pre2 ih =>
      intro ds rest hne hds
      rw [show (c :: pre2) ++ ds ++ rest = c :: (pre2 ++ ds ++ rest) from by simp,
        List.infix_cons_iff]
      constructor
      · rintro (h | h)
        · obtain ⟨d, dr, rfl⟩ : ∃ d dr, ds = d :: dr := by
            cases ds with
            | nil => exact absurd rfl hne
            | cons d dr => exact ⟨d, dr, rfl⟩
          have h2 : p <+: (c :: pre2) ++ d :: (dr ++ rest) := by
            simpa [List.append_assoc] using h
          exact Or.inl (prefix_fit (hds d (by simp)) p (c :: pre2) (dr ++ rest) hp h2).isInfix
        · rcases (ih ds rest hne hds).mp h with h2 | h2
          · exact Or.inl (List.infix_cons h2)
          · exact Or.inr h2
      · rintro (h | h)
        · rw [List.infix_cons_iff] at h
          rcases h with h | h
          · exact Or.inl (h.trans (by
              rw [show c :: (pre2 ++ ds ++ rest) = (c :: pre2) ++ (ds ++ rest) from by simp]
              exact (List.prefix_append _ _)))
          · exact Or.inr ((ih ds rest hne hds).mpr (Or.inl h))
        · exact Or.inr ((ih ds rest hne hds).mpr (Or.inr h))

theorem subTest_cross {p : List Char} (hp : ∀ c ∈ p, c.isDigit = false)
    (pre rest : List Char) {ds1 ds2 : List Char} (h1 : ds1 ≠ [])
    (hd1 : ∀ c ∈ ds1, c.isDigit = true) (h2 : ds2 ≠ [])
    (hd2 : ∀ c ∈ ds2, c.isDigit = true) :
    subTest p (pre ++ ds1 ++ rest) = subTest p (pre ++ ds2 ++ rest) := by
  rw [Bool.eq_iff_iff, subTest_iff, subTest_iff, infix_cross hp pre ds1 rest h1 hd1,
    infix_cross hp pre ds2 rest h2 hd2]

theorem rstrip_append_mid {e : Char} (he : isSpace e = false) (X post : List Char) :
    rstrip (X ++ e :: post) = X ++ e :: rstrip post := by
  unfold rstrip
  rw [show (X ++ e :: post).reverse = post.reverse ++ e :: X.reverse from by simp,
    dropWhile_append_head_false _ _ he]
  simp

theorem stripL_shape {d : Char} (hd : d.isDigit = true) (pre dr sep unit post : List Char)
    (hunit : unit = "kWh".data ∨ unit = "kW".data) :
    stripL (pre ++ (d :: dr) ++ sep ++ unit ++ post) =
      lstrip pre ++ (d :: dr) ++ sep ++ unit ++ rstrip post := by
  unfold stripL
  rw [show pre ++ (d :: dr) ++ sep ++ unit ++ post =
      pre ++ d :: (dr ++ (sep ++ (unit ++ post))) from by simp [List.append_assoc],
    show lstrip (pre ++ d :: (dr ++ (sep ++ (unit ++ post)))) =
      lstrip pre ++ d :: (dr ++ (sep ++ (unit ++ post))) from
        dropWhile_append_head_false pre _ (digit_not_space hd)]
  rcases hunit with rfl | rfl
  · rw [show "kWh".data = ['k', 'W', 'h'] from rfl,
      show lstrip pre ++ d :: (dr ++ (sep ++ (['k', 'W', 'h'] ++ post))) =
        (lstrip pre ++ d :: (dr ++ sep) ++ ['k', 'W']) ++ 'h' :: post from by
          simp [List.append_assoc],
      rstrip_append_mid (by decide) _ post]
    simp [List.append_assoc]
  · rw [show "kW".data = ['k', 'W'] from rfl,
      show lstrip pre ++ d :: (dr ++ (sep ++ (['k', 'W'] ++ post))) =
        (lstrip pre ++ d :: (dr ++ sep) ++ ['k']) ++ 'W' :: post from by
          simp [List.append_assoc],
      rstrip_append_mid (by decide) _ post]
    simp [List.append_assoc]

theorem lstrip_getLast {pre : List Char} :
    ∀ c, (lstrip pre).getLast? = some c → pre.getLast? = some c := by
  intro c h
  have hs : lstrip pre <:+ pre := List.dropWhile_suffix isSpace
  obtain ⟨w, hw⟩ := hs
  have hne : lstrip pre ≠ [] := by
    intro he
    rw [he] at h
    simp at h
  rw [← hw, List.getLast?_append_of_ne_nil _ hne, h]

theorem tryWord_none_head (pw : Bool) {x : Char} (t : List Char)
    (h1 : ('F' == x) = false) (h2 : ('L' == x) = false) (h3 : ('N' == x) = false) :
    tryWord pw (x :: t) = none := by
  unfold tryWord
  rw [show ("First".data.isPrefixOf (x :: t)) = false from by
      rw [show "First".data = 'F' :: ['i', 'r', 's', 't'] from rfl]
      simp [List.isPrefixOf, h1],
    show ("Last".data.isPrefixOf (x :: t)) = false from by
      rw [show "Last".data = 'L' :: ['a', 's', 't'] from rfl]
      simp [List.isPrefixOf, h2],
    show ("Next".data.isPrefixOf (x :: t)) = false from by
      rw [show "Next".data = 'N' :: ['e', 'x', 't'] from rfl]
      simp [List.isPrefixOf, h3]]
  cases pw <;> simp

theorem tryWord_none_digit (pw : Bool) {x : Char} (t : List Char) (hx : x.isDigit = true) :
    tryWord pw (x :: t) = none :=
  tryWord_none_head pw t
    (beq_eq_false_iff_ne.mpr (Ne.symm (ne_of_flag hx (by decide))))
    (beq_eq_false_iff_ne.mpr (Ne.symm (ne_of_flag hx (by decide))))
    (beq_eq_false_iff_ne.mpr (Ne.symm (ne_of_flag hx (by decide))))

theorem tryWord_none_space (pw : Bool) {x : Char} (t : List Char) (hx : isSpace x = true) :
    tryWord pw (x :: t) = none :=
  tryWord_none_head pw t
    (beq_eq_false_iff_ne.mpr (Ne.symm (ne_of_flag hx (by decide))))
    (beq_eq_false_iff_ne.mpr (Ne.symm (ne_of_flag hx (by decide))))
    (beq_eq_false_iff_ne.mpr (Ne.symm (ne_of_flag hx (by decide))))

theorem subWordsA_skip_sep (unit post : List Char)
    (hunit : unit = "kWh".data ∨ unit = "kW".data) :
    ∀ (sep : List Char) (pw : Bool), (∀ c ∈ sep, isSpace c = true) →
      subWordsA pw (sep ++ unit ++ post) = sep ++ unit ++ subWordsA true post := by
  intro sep
  induction sep with
  | nil =>
      intro pw _
      rcases hunit with rfl | rfl
      · rw [show "kWh".data = ['k', 'W', 'h'] from rfl]
        show subWordsA pw ('k' :: ('W' :: 'h' :: post)) = _
        rw [subWordsA_cons_none (tryWord_none_head pw _ (by decide) (by decide) (by decide)),
          subWordsA_cons_none (tryWord_none_head _ _ (by decide) (by decide) (by decide)),
          subWordsA_cons_none (tryWord_none_head _ _ (by decide) (by decide) (by decide)),
          show isWordC 'h' = true from by decide]
        simp
      · rw [show "kW".data = ['k', 'W'] from rfl]
        show subWordsA pw ('k' :: ('W' :: post)) = _
        rw [subWordsA_cons_none (tryWord_none_head pw _ (by decide) (by decide) (by decide)),
          subWordsA_cons_none (tryWord_none_head _ _ (by decide) (by decide) (by decide)),
          show isWordC 'W' = true from by decide]
        simp
  | cons s sep2 ih =>
      intro pw hsep
      show subWordsA pw (s :: (sep2 ++ unit ++ post)) = _
      rw [subWordsA_cons_none (tryWord_none_space pw _ (hsep s (by simp))),
        ih (isWordC s) (fun c hc => hsep c (by simp [hc]))]
      simp

theorem subWordsA_skip0 (sep unit post : List Char) (hsep : ∀ c ∈ sep, isSpace c = true)
    (hunit : unit = "kWh".data ∨ unit = "kW".data) :
    ∀ (ds : List Char) (pw : Bool), (∀ c ∈ ds, c.isDigit = true) →
      subWordsA pw (ds ++ sep ++ unit ++ post) = ds ++ sep ++ unit ++ subWordsA true post := by
  intro ds
  induction ds with
  | nil =>
      intro pw _
      simpa [List.append_assoc] using subWordsA_skip_sep unit post hunit sep pw hsep
  | cons d dr ih =>
      intro pw hds
      show subWordsA pw (d :: (dr ++ sep ++ unit ++ post)) = _
      rw [subWordsA_cons_none (tryWord_none_digit pw _ (hds d (by simp))),
        ih (isWordC d) (fun c hc => hds c (by simp [hc]))]
      simp

theorem tryWord_append_eq (σ : List Char) (pw : Bool) (d : Char) (Y : List Char)
    (hd : d.isDigit = true) :
    tryWord pw (σ ++ d :: Y) =
      if pw then none
      else if "First".data.isPrefixOf σ then
        (if wordAfterOk (σ.drop 5 ++ d :: Y) then some (σ.drop 5 ++ d :: Y) else none)
      else if "Last".data.isPrefixOf σ then
        (if wordAfterOk (σ.drop 4 ++ d :: Y) then some (σ.drop 4 ++ d :: Y) else none)
      else if "Next".data.isPrefixOf σ then
        (if wordAfterOk (σ.drop 4 ++ d :: Y) then some (σ.drop 4 ++ d :: Y) else none)
      else none := by
  unfold tryWord
  rw [isPrefixOf_cross hd _ σ Y (by decide), isPrefixOf_cross hd _ σ Y (by decide),
    isPrefixOf_cross hd _ σ Y (by decide)]
  by_cases hpw : pw = true
  · simp only [if_pos hpw]
  · simp only [if_neg hpw]
    by_cases hF : "First".data.isPrefixOf σ = true
    · simp only [if_pos hF]
      rw [List.drop_append_of_le_length
        (by simpa using (List.isPrefixOf_iff_prefix.mp hF).length_le)]
    · simp only [if_neg hF]
      by_cases hL : "Last".data.isPrefixOf σ = true
      · simp only [if_pos hL]
        rw [List.drop_append_of_le_length
          (by simpa using (List.isPrefixOf_iff_prefix.mp hL).length_le)]
      · simp only [if_neg hL]
        by_cases hN : "Next".data.isPrefixOf σ = true
        · simp only [if_pos hN]
          rw [List.drop_append_of_le_length
            (by simpa using (List.isPrefixOf_iff_prefix.mp hN).length_le)]
        · simp only [if_neg hN]

theorem drop_getLast {σ ρ : List Char} {n : Nat} (h : σ.drop n = ρ) (hne : ρ ≠ [])
    (hlast : ∀ c, σ.getLast? = some c → c.isDigit = false) :
    ∀ c, ρ.getLast? = some c → c.isDigit = false := by
  intro c hc
  apply hlast
  obtain ⟨w, hw⟩ : ρ <:+ σ := h ▸ List.drop_suffix n σ
  rw [← hw, List.getLast?_append_of_ne_nil _ hne, hc]

theorem tryWord_tri (σ : List Char) (pw : Bool)
    (hlast : ∀ c, σ.getLast? = some c → c.isDigit = false) :
    (∀ (d : Char) (Y : List Char), d.isDigit = true → tryWord pw (σ ++ d :: Y) = none)
    ∨ (∃ ρ, ρ ≠ [] ∧ ρ.length < σ.length ∧
        (∀ c, ρ.getLast? = some c → c.isDigit = false) ∧
        ∀ (d : Char) (Y : List Char), d.isDigit = true →
          tryWord pw (σ ++ d :: Y) = some (ρ ++ d :: Y)) := by
  by_cases hpw : pw = true
  · left
    intro d Y hd
    rw [tryWord_append_eq σ pw d Y hd, if_pos hpw]
  · rw [Bool.not_eq_true] at hpw
    by_cases hF : "First".data.isPrefixOf σ = true
    · have h5 : 5 ≤ σ.length := by
        simpa using (List.isPrefixOf_iff_prefix.mp hF).length_le
      cases hρ : σ.drop 5 with
      | nil =>
          left
          intro d Y hd
          rw [tryWord_append_eq σ pw d Y hd, hpw, if_neg (by simp), if_pos hF, hρ]
          simp [wordAfterOk, isWordC_of_digit hd]
      | cons e ρ2 =>
          by_cases hwa : isWordC e = true
          · left
            intro d Y hd
            rw [tryWord_append_eq σ pw d Y hd, hpw, if_neg (by simp), if_pos hF, hρ]
            simp [wordAfterOk, hwa]
          · right
            refine ⟨e :: ρ2, by simp, ?_, drop_getLast hρ (by simp) hlast, ?_⟩
            · have hld := List.length_drop 5 σ
              rw [hρ] at hld
              simp only [List.length_cons] at hld ⊢
              omega
            · intro d Y hd
              rw [tryWord_append_eq σ pw d Y hd, hpw, if_neg (by simp), if_pos hF, hρ]
              rw [Bool.not_eq_true] at hwa
              simp [wordAfterOk, hwa]
    · by_cases hL : "Last".data.isPrefixOf σ = true
      · have h4 : 4 ≤ σ.length := by
          simpa using (List.isPrefixOf_iff_prefix.mp hL).length_le
        cases hρ : σ.drop 4 with
        | nil =>
            left
            intro d Y hd
            rw [tryWord_append_eq σ pw d Y hd, hpw, if_neg (by simp), if_neg (by simp [hF]),
              if_pos hL, hρ]
            simp [wordAfterOk, isWordC_of_digit hd]
        | cons e ρ2 =>
            by_cases hwa : isWordC e = true
            · left
              intro d Y hd
              rw [tryWord_append_eq σ pw d Y hd, hpw, if_neg (by simp), if_neg (by simp [hF]),
                if_pos hL, hρ]
              simp [wordAfterOk, hwa]
            · right
              refine ⟨e :: ρ2, by simp, ?_, drop_getLast hρ (by simp) hlast, ?_⟩
              · have hld := List.length_drop 4 σ
                rw [hρ] at hld
                simp only [List.length_cons] at hld ⊢
                omega
              · intro d Y hd
                rw [tryWord_append_eq σ pw d Y hd, hpw, if_neg (by simp),
                  if_neg (by simp [hF]), if_pos hL, hρ]
                rw [Bool.not_eq_true] at hwa
                simp [wordAfterOk, hwa]
      · by_cases hN : "Next".data.isPrefixOf σ = true
        · have h4 : 4 ≤ σ.length := by
            simpa using (List.isPrefixOf_iff_prefix.mp hN).length_le
          cases hρ : σ.drop 4 with
          | nil =>
              left
              intro d Y hd
              rw [tryWord_append_eq σ pw d Y hd, hpw, if_neg (by simp), if_neg (by simp [hF]),
                if_neg (by simp [hL]), if_pos hN, hρ]
              simp [wordAfterOk, isWordC_of_digit hd]
          | cons e ρ2 =>
              by_cases hwa : isWordC e = true
              · left
                intro d Y hd
                rw [tryWord_append_eq σ pw d Y hd, hpw, if_neg (by simp),
                  if_neg (by simp [hF]), if_neg (by simp [hL]), if_pos hN, hρ]
                simp [wordAfterOk, hwa]
              · right
                refine ⟨e :: ρ2, by simp, ?_, drop_getLast hρ (by simp) hlast, ?_⟩
                · have hld := List.length_drop 4 σ
                  rw [hρ] at hld
                  simp only [List.length_cons] at hld ⊢
                  omega
                · intro d Y hd
                  rw [tryWord_append_eq σ pw d Y hd, hpw, if_neg (by simp),
                    if_neg (by simp [hF]), if_neg (by simp [hL]), if_pos hN, hρ]
                  rw [Bool.not_eq_true] at hwa
                  simp [wordAfterOk, hwa]
        · left
          intro d Y hd
          rw [tryWord_append_eq σ pw d Y hd, hpw, if_neg (by simp), if_neg (by simp [hF]),
            if_neg (by simp [hL]), if_neg (by simp [hN])]

theorem subWordsA_skip (sep unit post : List Char) (hsep : ∀ c ∈ sep, isSpace c = true)
    (hunit : unit = "kWh".data ∨ unit = "kW".data) :
    ∀ (n : Nat) (σ : List Char), σ.length ≤ n → ∀ (pw : Bool),
      (∀ c, σ.getLast? = some c → c.isDigit = false) →
      ∃ w, (w = [] → σ = []) ∧ (∀ c, w.getLast? = some c → c.isDigit = false) ∧
        ∀ (ds : List Char), ds ≠ [] → (∀ c ∈ ds, c.isDigit = true) →
          subWordsA pw (σ ++ ds ++ sep ++ unit ++ post) =
            w ++ ds ++ sep ++ unit ++ subWordsA true post := by
  intro n
  induction n with
  | zero =>
      intro σ hσ pw _
      have hσ0 : σ = [] := List.length_eq_zero.mp (Nat.le_zero.mp hσ)
      subst hσ0
      exact ⟨[], fun _ => rfl, by simp, fun ds _ hds => by
        simpa using subWordsA_skip0 sep unit post hsep hunit ds pw hds⟩
  | succ n ih =>
      intro σ hσ pw hlast
      cases σ with
      | nil =>
          exact ⟨[], fun _ => rfl, by simp, fun ds _ hds => by
            simpa using subWordsA_skip0 sep unit post hsep hunit ds pw hds⟩
      | cons c σ2 =>
          rcases tryWord_tri (c :: σ2) pw hlast with hnone | ⟨ρ, hρne, hρlen, hρlast, hρeq⟩
          · have hlast2 : ∀ x, σ2.getLast? = some x → x.isDigit = false := by
              intro x hx
              apply hlast
              have hne2 : σ2 ≠ [] := by
                intro he
                rw [he] at hx
                simp at hx
              rw [show c :: σ2 = [c] ++ σ2 from rfl,
                List.getLast?_append_of_ne_nil _ hne2, hx]
            obtain ⟨w2, hw2nil, hw2last, hw2eq⟩ :=
              ih σ2 (by simpa using hσ) (isWordC c) hlast2
            refine ⟨c :: w2, by simp, ?_, ?_⟩
            · intro x hx
              cases hw : w2 with
              | nil =>
                  have hσ2 : σ2 = [] := hw2nil hw
                  rw [hw] at hx
                  simp only [List.getLast?_singleton, Option.some.injEq] at hx
                  subst hx
                  apply hlast
                  rw [hσ2]
                  rfl
              | cons y w3 =>
                  apply hw2last
                  rw [hw] at hx ⊢
                  rwa [show c :: y :: w3 = [c] ++ y :: w3 from rfl,
                    List.getLast?_append_of_ne_nil _ (by simp)] at hx
            · intro ds hne hds
              obtain ⟨d, dr, rfl⟩ : ∃ d dr, ds = d :: dr := by
                cases ds with
                | nil => exact absurd rfl hne
                | cons d dr => exact ⟨d, dr, rfl⟩
              have hstep : tryWord pw ((c :: σ2) ++ (d :: dr) ++ sep ++ unit ++ post) = none := by
                rw [show (c :: σ2) ++ (d :: dr) ++ sep ++ unit ++ post =
                  (c :: σ2) ++ d :: (dr ++ (sep ++ (unit ++ post))) from by
                    simp [List.append_assoc]]
                exact hnone d _ (hds d (by simp))
              rw [show (c :: σ2) ++ (d :: dr) ++ sep ++ unit ++ post =
                  c :: (σ2 ++ (d :: dr) ++ sep ++ unit ++ post) from by simp,
                subWordsA_cons_none (by
                  rw [show c :: (σ2 ++ (d :: dr) ++ sep ++ unit ++ post) =
                    (c :: σ2) ++ (d :: dr) ++ sep ++ unit ++ post from by simp]
                  exact hstep),
                hw2eq (d :: dr) (by simp) hds]
              simp
          · obtain ⟨w2, hw2nil, hw2last, hw2eq⟩ :=
              ih ρ (by
                have : (c :: σ2).length ≤ n + 1 := hσ
                simp only [List.length_cons] at this
                omega) true hρlast
            refine ⟨w2, fun hw => absurd (hw2nil hw) hρne, hw2last, ?_⟩
            intro ds hne hds
            obtain ⟨d, dr, rfl⟩ : ∃ d dr, ds = d :: dr := by
              cases ds with
              | nil => exact absurd rfl hne
              | cons d dr => exact ⟨d, dr, rfl⟩
            have hstep : tryWord pw ((c :: σ2) ++ (d :: dr) ++ sep ++ unit ++ post) =
                some (ρ ++ (d :: dr) ++ sep ++ unit ++ post) := by
              rw [show (c :: σ2) ++ (d :: dr) ++ sep ++ unit ++ post =
                  (c :: σ2) ++ d :: (dr ++ (sep ++ (unit ++ post))) from by
                    simp [List.append_assoc],
                hρeq d _ (hds d (by simp))]
              simp [List.append_assoc]
            rw [subWordsA_some hstep, hw2eq (d :: dr) (by simp) hds]

theorem dropWhile_append_of_ne_nil {p : Char → Bool} {a : List Char} (b : List Char)
    (h : a.dropWhile p ≠ []) : (a ++ b).dropWhile p = a.dropWhile p ++ b := by
  induction a with
  | nil => exact absurd rfl h
  | cons c t ih =>
      by_cases hc : p c = true
      · have h2 : t.dropWhile p ≠ [] := by rwa [List.dropWhile_cons, if_pos hc] at h
        simp [List.dropWhile_cons, hc, ih h2]
      · simp [List.dropWhile_cons, hc]

theorem takeWhile_append_of_ne_nil {p : Char → Bool} {a : List Char} (b : List Char)
    (h : a.dropWhile p ≠ []) : (a ++ b).takeWhile p = a.takeWhile p := by
  induction a with
  | nil => exact absurd rfl h
  | cons c t ih =>
      by_cases hc : p c = true
      · have h2 : t.dropWhile p ≠ [] := by rwa [List.dropWhile_cons, if_pos hc] at h
        simp [List.takeWhile_cons, hc, ih h2]
      · simp [List.takeWhile_cons, hc]

theorem dropWhile_append_nil {p : Char → Bool} {a : List Char} (b : List Char)
    (h : a.dropWhile p = []) : (a ++ b).dropWhile p = b.dropWhile p := by
  induction a with
  | nil => rfl
  | cons c t ih =>
      by_cases hc : p c = true
      · have h2 : t.dropWhile p = [] := by rwa [List.dropWhile_cons, if_pos hc] at h
        simp [List.dropWhile_cons, hc, ih h2]
      · rw [List.dropWhile_cons, if_neg hc] at h
        cases h

theorem takeWhile_append_all {p : Char → Bool} {a : List Char} (b : List Char)
    (h : ∀ c ∈ a, p c = true) : (a ++ b).takeWhile p = a ++ b.takeWhile p := by
  induction a with
  | nil => rfl
  | cons c t ih =>
      simp [List.takeWhile_cons, h c (by simp), ih (fun x hx => h x (by simp [hx]))]

theorem dropWhile_append_all {p : Char → Bool} {a : List Char} (b : List Char)
    (h : ∀ c ∈ a, p c = true) : (a ++ b).dropWhile p = b.dropWhile p :=
  dropWhile_append_nil b (List.dropWhile_eq_nil_iff.mpr h)

theorem suffix_getLast {σ ρ : List Char} (h : ρ <:+ σ) (hne : ρ ≠ [])
    (hlast : ∀ c, σ.getLast? = some c → c.isDigit = false) :
    ∀ c, ρ.getLast? = some c → c.isDigit = false := by
  intro c hc
  apply hlast
  obtain ⟨w, hw⟩ := h
  rw [← hw, List.getLast?_append_of_ne_nil _ hne, hc]

theorem matchUnit_none_two {c1 c2 : Char} (t : List Char)
    (h : (decide (c1 = 'k') && decide (c2 = 'W')) = false) :
    matchUnit (c1 :: c2 :: t) = none := by
  simp [matchUnit, h]

theorem matchUnit_none_head {c : Char} (t : List Char) (hc : ¬ c = 'k') :
    matchUnit (c :: t) = none := by
  cases t with
  | nil => rfl
  | cons c2 r => exact matchUnit_none_two r (by simp [hc])

theorem matchUnit_unit (unit post : List Char)
    (hunit : unit = "kWh".data ∨ unit = "kW".data) :
    ∃ V, matchUnit (unit ++ post) = some V := by
  rcases hunit with rfl | rfl
  · exact ⟨post, by rw [show "kWh".data = ['k', 'W', 'h'] from rfl]; simp [matchUnit]⟩
  · rw [show "kW".data = ['k', 'W'] from rfl]
    cases post with
    | nil => exact ⟨[], by simp [matchUnit]⟩
    | cons c3 r2 =>
        by_cases h3 : c3 = 'h'
        · subst h3
          exact ⟨r2, by simp [matchUnit]⟩
        · exact ⟨c3 :: r2, by simp [matchUnit, h3]⟩

theorem sep_unit_take_digit (sep unit post : List Char) (hsep : ∀ c ∈ sep, isSpace c = true)
    (hunit : unit = "kWh".data ∨ unit = "kW".data) :
    (sep ++ (unit ++ post)).takeWhile Char.isDigit = [] := by
  cases sep with
  | nil =>
      rcases hunit with rfl | rfl
      · rw [show "kWh".data = ['k', 'W', 'h'] from rfl]
        simp [List.takeWhile_cons]
      · rw [show "kW".data = ['k', 'W'] from rfl]
        simp [List.takeWhile_cons]
  | cons s st =>
      rw [show (s :: st) ++ (unit ++ post) = s :: (st ++ (unit ++ post)) from rfl,
        List.takeWhile_cons]
      simp [space_not_digit (hsep s (by simp))]

theorem sep_unit_drop_digit (sep unit post : List Char) (hsep : ∀ c ∈ sep, isSpace c = true)
    (hunit : unit = "kWh".data ∨ unit = "kW".data) :
    (sep ++ (unit ++ post)).dropWhile Char.isDigit = sep ++ (unit ++ post) := by
  cases sep with
  | nil =>
      rcases hunit with rfl | rfl
      · rw [show "kWh".data = ['k', 'W', 'h'] from rfl]
        simp [List.dropWhile_cons]
      · rw [show "kW".data = ['k', 'W'] from rfl]
        simp [List.dropWhile_cons]
  | cons s st =>
      rw [show (s :: st) ++ (unit ++ post) = s :: (st ++ (unit ++ post)) from rfl,
        List.dropWhile_cons]
      simp [space_not_digit (hsep s (by simp))]

theorem unit_post_drop_space (unit post : List Char)
    (hunit : unit = "kWh".data ∨ unit = "kW".data) :
    (unit ++ post).dropWhile isSpace = unit ++ post := by
  rcases hunit with rfl | rfl
  · rw [show "kWh".data = ['k', 'W', 'h'] from rfl]
    simp [List.dropWhile_cons, isSpace]
  · rw [show "kW".data = ['k', 'W'] from rfl]
    simp [List.dropWhile_cons, isSpace]

theorem tryKWh_space_digits (σ ds sep unit post : List Char)
    (hsp : σ.dropWhile isSpace = []) (hne : ds ≠ []) (hds : ∀ c ∈ ds, c.isDigit = true)
    (hsep : ∀ c ∈ sep, isSpace c = true) (hunit : unit = "kWh".data ∨ unit = "kW".data) :
    tryKWh (σ ++ ds ++ sep ++ unit ++ post) = matchUnit (unit ++ post) := by
  obtain ⟨d, dr, rfl⟩ : ∃ d dr, ds = d :: dr := by
    cases ds with
    | nil => exact absurd rfl hne
    | cons d dr => exact ⟨d, dr, rfl⟩
  have h1 : (σ ++ (d :: dr) ++ sep ++ unit ++ post).dropWhile isSpace =
      (d :: dr) ++ (sep ++ (unit ++ post)) := by
    rw [show σ ++ (d :: dr) ++ sep ++ unit ++ post =
        σ ++ d :: (dr ++ (sep ++ (unit ++ post))) from by simp,
      dropWhile_append_head_false σ _ (digit_not_space (hds d (by simp))), hsp]
    rfl
  have h2 : ((d :: dr) ++ (sep ++ (unit ++ post))).takeWhile Char.isDigit = d :: dr := by
    rw [takeWhile_append_all _ hds, sep_unit_take_digit sep unit post hsep hunit,
      List.append_nil]
  have h3 : ((d :: dr) ++ (sep ++ (unit ++ post))).dropWhile Char.isDigit =
      sep ++ (unit ++ post) := by
    rw [dropWhile_append_all _ hds, sep_unit_drop_digit sep unit post hsep hunit]
  have h4 : (sep ++ (unit ++ post)).dropWhile isSpace = unit ++ post := by
    rw [dropWhile_append_nil _ (List.dropWhile_eq_nil_iff.mpr hsep),
      unit_post_drop_space unit post hunit]
  simp only [tryKWh, h1, h2, h3, h4]
  simp [List.isEmpty]

theorem tryKWh_tri (σ : List Char) (hsp : σ.dropWhile isSpace ≠ [])
    (hlast : ∀ c, σ.getLast? = some c → c.isDigit = false) :
    (∀ (ds sep unit post : List Char), ds ≠ [] → (∀ c ∈ ds, c.isDigit = true) →
        (∀ c ∈ sep, isSpace c = true) → (unit = "kWh".data ∨ unit = "kW".data) →
        tryKWh (σ ++ ds ++ sep ++ unit ++ post) = none)
    ∨ (∃ ρ, ρ.length < σ.length ∧ (∀ c, ρ.getLast? = some c → c.isDigit = false) ∧
        ∀ (ds sep unit post : List Char), ds ≠ [] → (∀ c ∈ ds, c.isDigit = true) →
          (∀ c ∈ sep, isSpace c = true) → (unit = "kWh".data ∨ unit = "kW".data) →
          tryKWh (σ ++ ds ++ sep ++ unit ++ post) =
            some (ρ ++ ds ++ sep ++ unit ++ post)) := by
  have hσne : σ ≠ [] := by
    intro h0
    rw [h0] at hsp
    exact hsp rfl
  have hσpos : 0 < σ.length := List.length_pos.mpr hσne
  obtain ⟨e, σ2, hσd⟩ : ∃ e σ2, σ.dropWhile isSpace = e :: σ2 := by
    cases h0 : σ.dropWhile isSpace with
    | nil => exact absurd h0 hsp
    | cons e σ2 => exact ⟨e, σ2, rfl⟩
  have hσd_suf : (e :: σ2) <:+ σ := hσd ▸ List.dropWhile_suffix isSpace
  by_cases hedig : e.isDigit = true
  · -- the digit run stops inside σ
    have hσdlast : ∀ c, (e :: σ2).getLast? = some c → c.isDigit = false :=
      suffix_getLast hσd_suf (by simp) hlast
    have hρ1 : (e :: σ2).dropWhile Char.isDigit ≠ [] := by
      intro h0
      have hall := List.dropWhile_eq_nil_iff.mp h0
      have h1 := hσdlast _ (List.getLast?_eq_getLast (e :: σ2) (by simp))
      have h2 := hall _ (List.getLast_mem (by simp))
      rw [h2] at h1
      exact absurd h1 (by decide)
    obtain ⟨τt, hτ⟩ : ∃ τt, (e :: σ2).takeWhile Char.isDigit = e :: τt :=
      ⟨σ2.takeWhile Char.isDigit, by simp [List.takeWhile_cons, hedig]⟩
    obtain ⟨f, ρ1t, hρ1eq⟩ : ∃ f ρ1t, (e :: σ2).dropWhile Char.isDigit = f :: ρ1t := by
      cases h0 : (e :: σ2).dropWhile Char.isDigit with
      | nil => exact absurd h0 hρ1
      | cons f ρ1t => exact ⟨f, ρ1t, rfl⟩
    have hρ1suf : (f :: ρ1t) <:+ σ :=
      (hρ1eq ▸ List.dropWhile_suffix Char.isDigit).trans hσd_suf
    by_cases hρ1sp : (f :: ρ1t).dropWhile isSpace = []
    · -- only spaces remain before the tier digits: `matchUnit` sees a digit
      left
      intro ds sep unit post hne hds hsep hunit
      obtain ⟨d, dr, rfl⟩ : ∃ d dr, ds = d :: dr := by
        cases ds with
        | nil => exact absurd rfl hne
        | cons d dr => exact ⟨d, dr, rfl⟩
      rw [show σ ++ (d :: dr) ++ sep ++ unit ++ post =
          σ ++ ((d :: dr) ++ (sep ++ (unit ++ post))) from by simp]
      have hA : (σ ++ ((d :: dr) ++ (sep ++ (unit ++ post)))).dropWhile isSpace =
          (e :: σ2) ++ ((d :: dr) ++ (sep ++ (unit ++ post))) := by
        rw [dropWhile_append_of_ne_nil _ hsp, hσd]
      have hB : ((e :: σ2) ++ ((d :: dr) ++ (sep ++ (unit ++ post)))).takeWhile
          Char.isDigit = e :: τt := by
        rw [takeWhile_append_of_ne_nil _ hρ1, hτ]
      have hC : ((e :: σ2) ++ ((d :: dr) ++ (sep ++ (unit ++ post)))).dropWhile
          Char.isDigit = (f :: ρ1t) ++ ((d :: dr) ++ (sep ++ (unit ++ post))) := by
        rw [dropWhile_append_of_ne_nil _ hρ1, hρ1eq]
      have hD : ((f :: ρ1t) ++ ((d :: dr) ++ (sep ++ (unit ++ post)))).dropWhile isSpace =
          (d :: dr) ++ (sep ++ (unit ++ post)) := by
        rw [dropWhile_append_nil _ hρ1sp,
          show (d :: dr) ++ (sep ++ (unit ++ post)) =
            d :: (dr ++ (sep ++ (unit ++ post))) from rfl, List.dropWhile_cons]
        simp [digit_not_space (hds d (by simp))]
      have hE : matchUnit ((d :: dr) ++ (sep ++ (unit ++ post))) = none :=
        matchUnit_none_head _ (ne_of_flag (hds d (by simp)) (by decide))
      simp only [tryKWh, hA, hB, hC, hD, hE]
      simp [List.isEmpty]
    · obtain ⟨g, ρ3, hρ1d⟩ : ∃ g ρ3, (f :: ρ1t).dropWhile isSpace = g :: ρ3 := by
        cases h0 : (f :: ρ1t).dropWhile isSpace with
        | nil => exact absurd h0 hρ1sp
        | cons g ρ3 => exact ⟨g, ρ3, rfl⟩
      have hρ1d_suf : (g :: ρ3) <:+ σ :=
        (hρ1d ▸ List.dropWhile_suffix isSpace).trans hρ1suf
      have hρ1d_len : (g :: ρ3).length ≤ σ.length := hρ1d_suf.length_le
      cases ρ3 with
      | nil =>
          -- a single character before the digits: the unit cannot complete in σ
          left
          intro ds sep unit post hne hds hsep hunit
          obtain ⟨d, dr, rfl⟩ : ∃ d dr, ds = d :: dr := by
            cases ds with
            | nil => exact absurd rfl hne
            | cons d dr => exact ⟨d, dr, rfl⟩
          rw [show σ ++ (d :: dr) ++ sep ++ unit ++ post =
              σ ++ ((d :: dr) ++ (sep ++ (unit ++ post))) from by simp]
          have hA : (σ ++ ((d :: dr) ++ (sep ++ (unit ++ post)))).dropWhile isSpace =
              (e :: σ2) ++ ((d :: dr) ++ (sep ++ (unit ++ post))) := by
            rw [dropWhile_append_of_ne_nil _ hsp, hσd]
          have hB : ((e :: σ2) ++ ((d :: dr) ++ (sep ++ (unit ++ post)))).takeWhile
              Char.isDigit = e :: τt := by
            rw [takeWhile_append_of_ne_nil _ hρ1, hτ]
          have hC : ((e :: σ2) ++ ((d :: dr) ++ (sep ++ (unit ++ post)))).dropWhile
              Char.isDigit = (f :: ρ1t) ++ ((d :: dr) ++ (sep ++ (unit ++ post))) := by
            rw [dropWhile_append_of_ne_nil _ hρ1, hρ1eq]
          have hD : ((f :: ρ1t) ++ ((d :: dr) ++ (sep ++ (unit ++ post)))).dropWhile
              isSpace = [g] ++ ((d :: dr) ++ (sep ++ (unit ++ post))) := by
            rw [dropWhile_append_of_ne_nil _ (by rw [hρ1d]; simp), hρ1d]
          have hE : matchUnit ([g] ++ ((d :: dr) ++ (sep ++ (unit ++ post)))) = none := by
            rw [show [g] ++ ((d :: dr) ++ (sep ++ (unit ++ post))) =
              g :: d :: (dr ++ (sep ++ (unit ++ post))) from rfl]
            exact matchUnit_none_two _ (by
              simp [ne_of_flag (hds d (by simp)) (by decide : ('W').isDigit = false)])
          simp only [tryKWh, hA, hB, hC, hD, hE]
          simp [List.isEmpty]
      | cons g2 ρ4 =>
          by_cases hkW : (decide (g = 'k') && decide (g2 = 'W')) = true
          · cases ρ4 with
            | nil =>
                -- σ ends in the unit letters: the match consumes exactly through σ
                right
                refine ⟨[], hσpos, by intro c hc; simp at hc, ?_⟩
                intro ds sep unit post hne hds hsep hunit
                obtain ⟨d, dr, rfl⟩ : ∃ d dr, ds = d :: dr := by
                  cases ds with
                  | nil => exact absurd rfl hne
                  | cons d dr => exact ⟨d, dr, rfl⟩
                rw [show σ ++ (d :: dr) ++ sep ++ unit ++ post =
                    σ ++ ((d :: dr) ++ (sep ++ (unit ++ post))) from by simp]
                have hA : (σ ++ ((d :: dr) ++ (sep ++ (unit ++ post)))).dropWhile isSpace =
                    (e :: σ2) ++ ((d :: dr) ++ (sep ++ (unit ++ post))) := by
                  rw [dropWhile_append_of_ne_nil _ hsp, hσd]
                have hB : ((e :: σ2) ++ ((d :: dr) ++ (sep ++ (unit ++ post)))).takeWhile
                    Char.isDigit = e :: τt := by
                  rw [takeWhile_append_of_ne_nil _ hρ1, hτ]
                have hC : ((e :: σ2) ++ ((d :: dr) ++ (sep ++ (unit ++ post)))).dropWhile
                    Char.isDigit = (f :: ρ1t) ++ ((d :: dr) ++ (sep ++ (unit ++ post))) := by
                  rw [dropWhile_append_of_ne_nil _ hρ1, hρ1eq]
                have hD : ((f :: ρ1t) ++ ((d :: dr) ++ (sep ++ (unit ++ post)))).dropWhile
                    isSpace = [g, g2] ++ ((d :: dr) ++ (sep ++ (unit ++ post))) := by
                  rw [dropWhile_append_of_ne_nil _ (by rw [hρ1d]; simp), hρ1d]
                have hE : matchUnit ([g, g2] ++ ((d :: dr) ++ (sep ++ (unit ++ post)))) =
                    some ((d :: dr) ++ (sep ++ (unit ++ post))) := by
                  rw [show [g, g2] ++ ((d :: dr) ++ (sep ++ (unit ++ post))) =
                    g :: g2 :: d :: (dr ++ (sep ++ (unit ++ post))) from rfl]
                  simp [matchUnit, hkW, ne_of_flag (hds d (by simp)) (by decide :
                    ('h').isDigit = false)]
                simp only [tryKWh, hA, hB, hC, hD, hE]
                simp [List.isEmpty, List.append_assoc]
            | cons g3 ρ5 =>
                by_cases hg3 : g3 = 'h'
                · -- the full unit inside σ: the remainder is a suffix of σ
                  right
                  subst hg3
                  refine ⟨ρ5, by
                      simp only [List.length_cons] at hρ1d_len ⊢
                      omega, ?_, ?_⟩
                  · intro c hc
                    have hne5 : ρ5 ≠ [] := by
                      intro h0
                      rw [h0] at hc
                      simp at hc
                    exact suffix_getLast
                      (List.IsSuffix.trans
                        (⟨[g, g2, 'h'], rfl⟩ : ρ5 <:+ g :: g2 :: 'h' :: ρ5) hρ1d_suf)
                      hne5 hlast c hc
                  · intro ds sep unit post hne hds hsep hunit
                    obtain ⟨d, dr, rfl⟩ : ∃ d dr, ds = d :: dr := by
                      cases ds with
                      | nil => exact absurd rfl hne
                      | cons d dr => exact ⟨d, dr, rfl⟩
                    rw [show σ ++ (d :: dr) ++ sep ++ unit ++ post =
                        σ ++ ((d :: dr) ++ (sep ++ (unit ++ post))) from by simp]
                    have hA : (σ ++ ((d :: dr) ++ (sep ++ (unit ++ post)))).dropWhile
                        isSpace = (e :: σ2) ++ ((d :: dr) ++ (sep ++ (unit ++ post))) := by
                      rw [dropWhile_append_of_ne_nil _ hsp, hσd]
                    have hB : ((e :: σ2) ++ ((d :: dr) ++ (sep ++
                        (unit ++ post)))).takeWhile Char.isDigit = e :: τt := by
                      rw [takeWhile_append_of_ne_nil _ hρ1, hτ]
                    have hC : ((e :: σ2) ++ ((d :: dr) ++ (sep ++
                        (unit ++ post)))).dropWhile Char.isDigit =
                        (f :: ρ1t) ++ ((d :: dr) ++ (sep ++ (unit ++ post))) := by
                      rw [dropWhile_append_of_ne_nil _ hρ1, hρ1eq]
                    have hD : ((f :: ρ1t) ++ ((d :: dr) ++ (sep ++
                        (unit ++ post)))).dropWhile isSpace =
                        (g :: g2 :: 'h' :: ρ5) ++ ((d :: dr) ++ (sep ++ (unit ++ post))) := by
                      rw [dropWhile_append_of_ne_nil _ (by rw [hρ1d]; simp), hρ1d]
                    have hE : matchUnit ((g :: g2 :: 'h' :: ρ5) ++
                        ((d :: dr) ++ (sep ++ (unit ++ post)))) =
                        some (ρ5 ++ ((d :: dr) ++ (sep ++ (unit ++ post)))) := by
                      rw [show (g :: g2 :: 'h' :: ρ5) ++
                          ((d :: dr) ++ (sep ++ (unit ++ post))) =
                        g :: g2 :: 'h' :: (ρ5 ++ ((d :: dr) ++ (sep ++ (unit ++ post))))
                          from rfl]
                      simp [matchUnit, hkW]
                    simp only [tryKWh, hA, hB, hC, hD, hE]
                    simp [List.isEmpty, List.append_assoc]
                · -- the unit letters inside σ with a following non-completing character
                  right
                  refine ⟨g3 :: ρ5, by
                      simp only [List.length_cons] at hρ1d_len ⊢
                      omega, ?_, ?_⟩
                  · intro c hc
                    exact suffix_getLast
                      (List.IsSuffix.trans
                        (⟨[g, g2], rfl⟩ : g3 :: ρ5 <:+ g :: g2 :: g3 :: ρ5) hρ1d_suf)
                      (by simp) hlast c hc
                  · intro ds sep unit post hne hds hsep hunit
                    obtain ⟨d, dr, rfl⟩ : ∃ d dr, ds = d :: dr := by
                      cases ds with
                      | nil => exact absurd rfl hne
                      | cons d dr => exact ⟨d, dr, rfl⟩
                    rw [show σ ++ (d :: dr) ++ sep ++ unit ++ post =
                        σ ++ ((d :: dr) ++ (sep ++ (unit ++ post))) from by simp]
                    have hA : (σ ++ ((d :: dr) ++ (sep ++ (unit ++ post)))).dropWhile
                        isSpace = (e :: σ2) ++ ((d :: dr) ++ (sep ++ (unit ++ post))) := by
                      rw [dropWhile_append_of_ne_nil _ hsp, hσd]
                    have hB : ((e :: σ2) ++ ((d :: dr) ++ (sep ++
                        (unit ++ post)))).takeWhile Char.isDigit = e :: τt := by
                      rw [takeWhile_append_of_ne_nil _ hρ1, hτ]
                    have hC : ((e :: σ2) ++ ((d :: dr) ++ (sep ++
                        (unit ++ post)))).dropWhile Char.isDigit =
                        (f :: ρ1t) ++ ((d :: dr) ++ (sep ++ (unit ++ post))) := by
                      rw [dropWhile_append_of_ne_nil _ hρ1, hρ1eq]
                    have hD : ((f :: ρ1t) ++ ((d :: dr) ++ (sep ++
                        (unit ++ post)))).dropWhile isSpace =
                        (g :: g2 :: g3 :: ρ5) ++ ((d :: dr) ++ (sep ++ (unit ++ post))) := by
                      rw [dropWhile_append_of_ne_nil _ (by rw [hρ1d]; simp), hρ1d]
                    have hE : matchUnit ((g :: g2 :: g3 :: ρ5) ++
                        ((d :: dr) ++ (sep ++ (unit ++ post)))) =
                        some ((g3 :: ρ5) ++ ((d :: dr) ++ (sep ++ (unit ++ post)))) := by
                      rw [show (g :: g2 :: g3 :: ρ5) ++
                          ((d :: dr) ++ (sep ++ (unit ++ post))) =
                        g :: g2 :: g3 :: (ρ5 ++ ((d :: dr) ++ (sep ++ (unit ++ post))))
                          from rfl]
                      simp [matchUnit, hkW, hg3]
                    simp only [tryKWh, hA, hB, hC, hD, hE]
                    simp [List.isEmpty, List.append_assoc]
          · -- the two characters after the digits are not the unit letters
            left
            intro ds sep unit post hne hds hsep hunit
            obtain ⟨d, dr, rfl⟩ : ∃ d dr, ds = d :: dr := by
              cases ds with
              | nil => exact absurd rfl hne
              | cons d dr => exact ⟨d, dr, rfl⟩
            rw [show σ ++ (d :: dr) ++ sep ++ unit ++ post =
                σ ++ ((d :: dr) ++ (sep ++ (unit ++ post))) from by simp]
            have hA : (σ ++ ((d :: dr) ++ (sep ++ (unit ++ post)))).dropWhile isSpace =
                (e :: σ2) ++ ((d :: dr) ++ (sep ++ (unit ++ post))) := by
              rw [dropWhile_append_of_ne_nil _ hsp, hσd]
            have hB : ((e :: σ2) ++ ((d :: dr) ++ (sep ++ (unit ++ post)))).takeWhile
                Char.isDigit = e :: τt := by
              rw [takeWhile_append_of_ne_nil _ hρ1, hτ]
            have hC : ((e :: σ2) ++ ((d :: dr) ++ (sep ++ (unit ++ post)))).dropWhile
                Char.isDigit = (f :: ρ1t) ++ ((d :: dr) ++ (sep ++ (unit ++ post))) := by
              rw [dropWhile_append_of_ne_nil _ hρ1, hρ1eq]
            have hD : ((f :: ρ1t) ++ ((d :: dr) ++ (sep ++ (unit ++ post)))).dropWhile
                isSpace = (g :: g2 :: ρ4) ++ ((d :: dr) ++ (sep ++ (unit ++ post))) := by
              rw [dropWhile_append_of_ne_nil _ (by rw [hρ1d]; simp), hρ1d]
            have hE : matchUnit ((g :: g2 :: ρ4) ++
                ((d :: dr) ++ (sep ++ (unit ++ post)))) = none := by
              rw [show (g :: g2 :: ρ4) ++ ((d :: dr) ++ (sep ++ (unit ++ post))) =
                g :: g2 :: (ρ4 ++ ((d :: dr) ++ (sep ++ (unit ++ post)))) from rfl]
              exact matchUnit_none_two _ (by rwa [Bool.not_eq_true] at hkW)
            simp only [tryKWh, hA, hB, hC, hD, hE]
            simp [List.isEmpty]
  · -- the first non-space character of σ is not a digit: no match here
    left
    intro ds sep unit post hne hds hsep hunit
    obtain ⟨d, dr, rfl⟩ : ∃ d dr, ds = d :: dr := by
      cases ds with
      | nil => exact absurd rfl hne
      | cons d dr => exact ⟨d, dr, rfl⟩
    rw [show σ ++ (d :: dr) ++ sep ++ unit ++ post =
        σ ++ ((d :: dr) ++ (sep ++ (unit ++ post))) from by simp]
    have hA : (σ ++ ((d :: dr) ++ (sep ++ (unit ++ post)))).dropWhile isSpace =
        (e :: σ2) ++ ((d :: dr) ++ (sep ++ (unit ++ post))) := by
      rw [dropWhile_append_of_ne_nil _ hsp, hσd]
    have hB : ((e :: σ2) ++ ((d :: dr) ++ (sep ++ (unit ++ post)))).takeWhile
        Char.isDigit = [] := by
      rw [show (e :: σ2) ++ ((d :: dr) ++ (sep ++ (unit ++ post))) =
          e :: (σ2 ++ ((d :: dr) ++ (sep ++ (unit ++ post)))) from rfl,
        List.takeWhile_cons]
      rw [Bool.not_eq_true] at hedig
      simp [hedig]
    simp only [tryKWh, hA, hB]
    simp [List.isEmpty]

theorem subKWh_skip :
    ∀ (n : Nat) (σ : List Char), σ.length ≤ n →
      (∀ c, σ.getLast? = some c → c.isDigit = false) →
      ∀ (ds1 ds2 sep unit post : List Char), ds1 ≠ [] → (∀ c ∈ ds1, c.isDigit = true) →
        ds2 ≠ [] → (∀ c ∈ ds2, c.isDigit = true) → (∀ c ∈ sep, isSpace c = true) →
        (unit = "kWh".data ∨ unit = "kW".data) →
        subKWh (σ ++ ds1 ++ sep ++ unit ++ post) =
          subKWh (σ ++ ds2 ++ sep ++ unit ++ post) := by
  intro n
  induction n with
  | zero =>
      intro σ hσ hlast ds1 ds2 sep unit post h1 hd1 h2 hd2 hsep hunit
      have hσ0 : σ = [] := List.length_eq_zero.mp (Nat.le_zero.mp hσ)
      subst hσ0
      obtain ⟨V, hV⟩ := matchUnit_unit unit post hunit
      have e1 : tryKWh ([] ++ ds1 ++ sep ++ unit ++ post) = some V := by
        rw [tryKWh_space_digits [] ds1 sep unit post rfl h1 hd1 hsep hunit, hV]
      have e2 : tryKWh ([] ++ ds2 ++ sep ++ unit ++ post) = some V := by
        rw [tryKWh_space_digits [] ds2 sep unit post rfl h2 hd2 hsep hunit, hV]
      rw [subKWh_some e1, subKWh_some e2]
  | succ n ih =>
      intro σ hσ hlast ds1 ds2 sep unit post h1 hd1 h2 hd2 hsep hunit
      by_cases hsp : σ.dropWhile isSpace = []
      · obtain ⟨V, hV⟩ := matchUnit_unit unit post hunit
        have e1 : tryKWh (σ ++ ds1 ++ sep ++ unit ++ post) = some V := by
          rw [tryKWh_space_digits σ ds1 sep unit post hsp h1 hd1 hsep hunit, hV]
        have e2 : tryKWh (σ ++ ds2 ++ sep ++ unit ++ post) = some V := by
          rw [tryKWh_space_digits σ ds2 sep unit post hsp h2 hd2 hsep hunit, hV]
        rw [subKWh_some e1, subKWh_some e2]
      · rcases tryKWh_tri σ hsp hlast with hnone | ⟨ρ, hρlen, hρlast, hsome⟩
        · obtain ⟨c, σ2, rfl⟩ : ∃ c σ2, σ = c :: σ2 := by
            cases σ with
            | nil => simp at hsp
            | cons c σ2 => exact ⟨c, σ2, rfl⟩
          have hlast2 : ∀ x, σ2.getLast? = some x → x.isDigit = false := by
            intro x hx
            apply hlast
            have hne2 : σ2 ≠ [] := by
              intro he
              rw [he] at hx
              simp at hx
            rw [show c :: σ2 = [c] ++ σ2 from rfl,
              List.getLast?_append_of_ne_nil _ hne2, hx]
          have e1 : subKWh ((c :: σ2) ++ ds1 ++ sep ++ unit ++ post) =
              c :: subKWh (σ2 ++ ds1 ++ sep ++ unit ++ post) := by
            rw [show (c :: σ2) ++ ds1 ++ sep ++ unit ++ post =
                c :: (σ2 ++ ds1 ++ sep ++ unit ++ post) from by simp]
            exact subKWh_cons_none (by
              rw [show c :: (σ2 ++ ds1 ++ sep ++ unit ++ post) =
                  (c :: σ2) ++ ds1 ++ sep ++ unit ++ post from by simp]
              exact hnone ds1 sep unit post h1 hd1 hsep hunit)
          have e2 : subKWh ((c :: σ2) ++ ds2 ++ sep ++ unit ++ post) =
              c :: subKWh (σ2 ++ ds2 ++ sep ++ unit ++ post) := by
            rw [show (c :: σ2) ++ ds2 ++ sep ++ unit ++ post =
                c :: (σ2 ++ ds2 ++ sep ++ unit ++ post) from by simp]
            exact subKWh_cons_none (by
              rw [show c :: (σ2 ++ ds2 ++ sep ++ unit ++ post) =
                  (c :: σ2) ++ ds2 ++ sep ++ unit ++ post from by simp]
              exact hnone ds2 sep unit post h2 hd2 hsep hunit)
          rw [e1, e2,
            ih σ2 (by simpa using hσ) hlast2 ds1 ds2 sep unit post h1 hd1 h2 hd2 hsep hunit]
        · rw [subKWh_some (hsome ds1 sep unit post h1 hd1 hsep hunit),
            subKWh_some (hsome ds2 sep unit post h2 hd2 hsep hunit),
            ih ρ (by omega) hρlast ds1 ds2 sep unit post h1 hd1 h2 hd2 hsep hunit]

theorem subTest_cross5 {p : List Char} (hp : ∀ c ∈ p, c.isDigit = false)
    (pre sep unit post : List Char) {ds1 ds2 : List Char} (h1 : ds1 ≠ [])
    (hd1 : ∀ c ∈ ds1, c.isDigit = true) (h2 : ds2 ≠ [])
    (hd2 : ∀ c ∈ ds2, c.isDigit = true) :
    subTest p (pre ++ ds1 ++ sep ++ unit ++ post) =
      subTest p (pre ++ ds2 ++ sep ++ unit ++ post) := by
  rw [show pre ++ ds1 ++ sep ++ unit ++ post =
      pre ++ ds1 ++ (sep ++ (unit ++ post)) from by simp,
    show pre ++ ds2 ++ sep ++ unit ++ post =
      pre ++ ds2 ++ (sep ++ (unit ++ post)) from by simp]
  exact subTest_cross hp pre _ h1 hd1 h2 hd2

/-- C3 counterexample: `script.py` substitutes only `\d+\s*kWh`, never `kW`, so
two descriptions differing only in the tier count before a `kW` token map to
different keys there. -/
theorem claim_C3_counterexample :
    Script.standardize_charge_type "Demand Charge 5 kW".data ≠
      Script.standardize_charge_type "Demand Charge 6 kW".data := by
  decide

/-- C3 amended: in `electric_bill_processor.py`, any two raw charge
descriptions that differ only in the digits of the numeric tier count
standing before a `kWh`/`kW` token (preceded by text not ending in a digit,
separated from the unit by whitespace) normalize to the same canonical key;
and the spec's two instances normalize to `"Distribution Charge Last kWh"`
under both implementations.  The property fails for `kW` tokens in
`script.py` (see the counterexample). -/
theorem claim_C3 (pre ds1 ds2 sep unit post : List Char)
    (hpre : ∀ c, pre.getLast? = some c → c.isDigit = false)
    (h1 : ds1 ≠ []) (hd1 : ∀ c ∈ ds1, c.isDigit = true)
    (h2 : ds2 ≠ []) (hd2 : ∀ c ∈ ds2, c.isDigit = true)
    (hsep : ∀ c ∈ sep, isSpace c = true)
    (hunit : unit = "kWh".data ∨ unit = "kW".data) :
    Epb.standardize_charge_type (pre ++ ds1 ++ sep ++ unit ++ post) =
      Epb.standardize_charge_type (pre ++ ds2 ++ sep ++ unit ++ post) ∧
    Epb.standardize_charge_type "Distribution Charge Last 1980 kWh".data =
      "Distribution Charge Last kWh".data ∧
    Epb.standardize_charge_type "Distribution Charge Last 2190 kWh".data =
      "Distribution Charge Last kWh".data ∧
    Script.standardize_charge_type "Distribution Charge Last 1980 kWh".data =
      "Distribution Charge Last kWh".data ∧
    Script.standardize_charge_type "Distribution Charge Last 2190 kWh".data =
      "Distribution Charge Last kWh".data := by
  refine ⟨?_, by decide, by decide, by decide, by decide⟩
  obtain ⟨da, dra, rfl⟩ : ∃ d dr, ds1 = d :: dr := by
    cases ds1 with
    | nil => exact absurd rfl h1
    | cons d dr => exact ⟨d, dr, rfl⟩
  obtain ⟨db, drb, rfl⟩ : ∃ d dr, ds2 = d :: dr := by
    cases ds2 with
    | nil => exact absurd rfl h2
    | cons d dr => exact ⟨d, dr, rfl⟩
  have hct1 : stripL (pre ++ (da :: dra) ++ sep ++ unit ++ post) =
      lstrip pre ++ (da :: dra) ++ sep ++ unit ++ rstrip post :=
    stripL_shape (hd1 da (by simp)) pre dra sep unit post hunit
  have hct2 : stripL (pre ++ (db :: drb) ++ sep ++ unit ++ post) =
      lstrip pre ++ (db :: drb) ++ sep ++ unit ++ rstrip post :=
    stripL_shape (hd2 db (by simp)) pre drb sep unit post hunit
  have hlastA : ∀ c, (lstrip pre).getLast? = some c → c.isDigit = false :=
    fun c hc => hpre c (lstrip_getLast c hc)
  have hsub : subKWh (lstrip pre ++ (da :: dra) ++ sep ++ unit ++ rstrip post) =
      subKWh (lstrip pre ++ (db :: drb) ++ sep ++ unit ++ rstrip post) :=
    subKWh_skip (lstrip pre).length (lstrip pre) le_rfl hlastA (da :: dra) (db :: drb)
      sep unit (rstrip post) (by simp) hd1 (by simp) hd2 hsep hunit
  have hpT : ∀ c ∈ "Total Electric Charges".data, c.isDigit = false := by decide
  have hpF : ∀ c ∈ "First".data, c.isDigit = false := by decide
  have hpL : ∀ c ∈ "Last".data, c.isDigit = false := by decide
  have hT := subTest_cross5 hpT (lstrip pre) sep unit (rstrip post)
    (by simp) hd1 (by simp) hd2
  have hF := subTest_cross5 hpF (lstrip pre) sep unit (rstrip post)
    (by simp) hd1 (by simp) hd2
  have hL := subTest_cross5 hpL (lstrip pre) sep unit (rstrip post)
    (by simp) hd1 (by simp) hd2
  obtain ⟨w, hwnil, hwlast, hweq⟩ := subWordsA_skip sep unit (rstrip post) hsep hunit
    (lstrip pre).length (lstrip pre) le_rfl false hlastA
  have hw1 := hweq (da :: dra) (by simp) hd1
  have hw2 := hweq (db :: drb) (by simp) hd2
  have hst1 : stripL (w ++ (da :: dra) ++ sep ++ unit ++ subWordsA true (rstrip post)) =
      lstrip w ++ (da :: dra) ++ sep ++ unit ++ rstrip (subWordsA true (rstrip post)) :=
    stripL_shape (hd1 da (by simp)) w dra sep unit _ hunit
  have hst2 : stripL (w ++ (db :: drb) ++ sep ++ unit ++ subWordsA true (rstrip post)) =
      lstrip w ++ (db :: drb) ++ sep ++ unit ++ rstrip (subWordsA true (rstrip post)) :=
    stripL_shape (hd2 db (by simp)) w drb sep unit _ hunit
  have hwlastA : ∀ c, (lstrip w).getLast? = some c → c.isDigit = false :=
    fun c hc => hwlast c (lstrip_getLast c hc)
  have hsub2 : subKWh (lstrip w ++ (da :: dra) ++ sep ++ unit ++
        rstrip (subWordsA true (rstrip post))) =
      subKWh (lstrip w ++ (db :: drb) ++ sep ++ unit ++
        rstrip (subWordsA true (rstrip post))) :=
    subKWh_skip (lstrip w).length (lstrip w) le_rfl hwlastA (da :: dra) (db :: drb)
      sep unit _ (by simp) hd1 (by simp) hd2 hsep hunit
  simp only [Epb.standardize_charge_type]
  rw [hct1, hct2]
  rw [show ('T' :: 'o' :: 't' :: 'a' :: 'l' :: ' ' :: 'E' :: 'l' :: 'e' :: 'c' :: 't' :: 'r' :: 'i' :: 'c' :: ' ' :: 'C' :: 'h' :: 'a' :: 'r' :: 'g' :: 'e' :: 's' :: ([] : List Char)) = "Total Electric Charges".data from rfl,
    show ('F' :: 'i' :: 'r' :: 's' :: 't' :: ([] : List Char)) = "First".data from rfl,
    show ('L' :: 'a' :: 's' :: 't' :: ([] : List Char)) = "Last".data from rfl]
  by_cases hb1 : subTest "Total Electric Charges".data
      (lstrip pre ++ (da :: dra) ++ sep ++ unit ++ rstrip post) = true
  · have hc1 : subTest "Total Electric Charges".data
        (lstrip pre ++ (db :: drb) ++ sep ++ unit ++ rstrip post) = true := by
      rw [← hT]; exact hb1
    rw [if_pos hb1, if_pos hc1]
  · have hc1 : ¬ subTest "Total Electric Charges".data
        (lstrip pre ++ (db :: drb) ++ sep ++ unit ++ rstrip post) = true :=
      fun h => hb1 (by rw [hT]; exact h)
    rw [if_neg hb1, if_neg hc1]
    by_cases hb2 : subTest "First".data
        (lstrip pre ++ (da :: dra) ++ sep ++ unit ++ rstrip post) = true
    · have hc2 : subTest "First".data
          (lstrip pre ++ (db :: drb) ++ sep ++ unit ++ rstrip post) = true := by
        rw [← hF]; exact hb2
      rw [if_pos hb2, if_pos hc2, hsub]
    · have hc2 : ¬ subTest "First".data
          (lstrip pre ++ (db :: drb) ++ sep ++ unit ++ rstrip post) = true :=
        fun h => hb2 (by rw [hF]; exact h)
      rw [if_neg hb2, if_neg hc2]
      by_cases hb3 : subTest "Last".data
          (lstrip pre ++ (da :: dra) ++ sep ++ unit ++ rstrip post) = true
      · have hc3 : subTest "Last".data
            (lstrip pre ++ (db :: drb) ++ sep ++ unit ++ rstrip post) = true := by
          rw [← hL]; exact hb3
        rw [if_pos hb3, if_pos hc3, hsub]
      · have hc3 : ¬ subTest "Last".data
            (lstrip pre ++ (db :: drb) ++ sep ++ unit ++ rstrip post) = true :=
          fun h => hb3 (by rw [hL]; exact h)
        rw [if_neg hb3, if_neg hc3]
        rw [subWords_eq_subWordsA, subWords_eq_subWordsA, hw1, hw2, hst1, hst2, hsub2]

/-- C3 witness: the spec's instances `"Distribution Charge Last 1980 kWh"` and
`"Distribution Charge Last 2190 kWh"`, decomposed as prefix, tier digits,
separator and unit. -/
theorem claim_C3_witness :
    (∀ c, "Distribution Charge Last ".data.getLast? = some c → c.isDigit = false) ∧
    (Epb.standardize_charge_type ("Distribution Charge Last ".data ++
          ['1', '9', '8', '0'] ++ [' '] ++ "kWh".data ++ []) =
        Epb.standardize_charge_type ("Distribution Charge Last ".data ++
          ['2', '1', '9', '0'] ++ [' '] ++ "kWh".data ++ []) ∧
      Epb.standardize_charge_type "Distribution Charge Last 1980 kWh".data =
        "Distribution Charge Last kWh".data ∧
      Epb.standardize_charge_type "Distribution Charge Last 2190 kWh".data =
        "Distribution Charge Last kWh".data ∧
      Script.standardize_charge_type "Distribution Charge Last 1980 kWh".data =
        "Distribution Charge Last kWh".data ∧
      Script.standardize_charge_type "Distribution Charge Last 2190 kWh".data =
        "Distribution Charge Last kWh".data) :=
  ⟨by
    intro c hc
    rw [show "Distribution Charge Last ".data.getLast? = some ' ' from rfl] at hc
    injection hc with h
    rw [← h]
    decide,
    claim_C3 "Distribution Charge Last ".data ['1', '9', '8', '0'] ['2', '1', '9', '0']
      [' '] "kWh".data []
      (by
        intro c hc
        rw [show "Distribution Charge Last ".data.getLast? = some ' ' from rfl] at hc
        injection hc with h
        rw [← h]
        decide)
      (by decide) (by decide) (by decide) (by decide) (by decide) (Or.inl rfl)⟩

/-- C6 counterexample: the claim fails for the `script.py` parser — its
`charge_pattern` amount group `-?[\d,]+(?:\.\d+)?` accepts a leading minus but
rejects the very same amount written with a trailing minus, so a trailing minus
does not produce the same (or any) value there. -/
theorem claim_C6_counterexample :
    Script.chargeMatches "Adjustment -5.00".data = true ∧
      Script.chargeMatches "Adjustment 5.00-".data = false := by
  constructor
  · decide
  · decide

/-- C6 amended: in `electric_bill_processor.py`, for every charge line formed
of a description prefix (empty or ending in a space) followed by a well-formed
trailing amount token — optional leading minus that may be the Unicode glyph,
1-3 digits with comma-separated three-digit groups, a dot, two cent digits,
optional trailing minus that may be the Unicode glyph, trailing whitespace —
`process_fallback_row` (after the Unicode-minus substitution of line 201)
parses an amount equal to the literal numeric value with the thousands
separators removed, with the Unicode minus treated as ASCII `-`, and with a
trailing minus producing the same negative value as a leading one.  The
`script.py` parser lacks the trailing-minus clause (see the counterexample). -/
theorem claim_C6 (pre : List Char) (t : AmtToken) (hwf : t.wf)
    (hpre : pre = [] ∨ ∃ q, pre = q ++ [' ']) :
    (Epb.process_fallback_row (cleanLine (pre ++ t.render))).map FallbackRow.amount =
      some t.value := by
  have hclean : cleanLine (pre ++ t.render) =
      cleanLine pre ++ AmtToken.render { t with uminus := false, trailU := false } := by
    rw [cleanLine_append, AmtToken.cleanLine_render hwf]
  rw [hclean]
  refine fallback_amount (cleanLine pre) { t with uminus := false, trailU := false }
    hwf rfl rfl ?_
  rcases hpre with rfl | ⟨q, rfl⟩
  · exact Or.inl rfl
  · exact Or.inr ⟨cleanLine q, by
      rw [cleanLine_append, show cleanLine [' '] = [' '] from by decide]⟩

/-- C6 witness: the line `"Customer Charge 1,234.56− "` (with a trailing
Unicode minus) parses to the amount `-1234.56`. -/
theorem claim_C6_witness :
    AmtToken.wf ⟨false, false, ['1'], [['2', '3', '4']], ['5', '6'], true, true, [' ']⟩ ∧
      (Epb.process_fallback_row (cleanLine ("Customer Charge ".data ++
          AmtToken.render ⟨false, false, ['1'], [['2', '3', '4']], ['5', '6'], true, true,
            [' ']⟩))).map FallbackRow.amount =
        some (AmtToken.value ⟨false, false, ['1'], [['2', '3', '4']], ['5', '6'], true, true,
          [' ']⟩) :=
  ⟨by unfold AmtToken.wf; decide,
    claim_C6 "Customer Charge ".data
      ⟨false, false, ['1'], [['2', '3', '4']], ['5', '6'], true, true, [' ']⟩
      (by unfold AmtToken.wf; decide)
      (Or.inr ⟨"Customer Charge".data, by decide⟩)⟩

end BillWatch
